import Mathlib

/-!
# Knowsall: the adaptive guessing engine of `Knowsall.cpp`

A shallow embedding of the candidate filter, the letter statistics, the
most-frequent-letter selection and the nine guessing loops of
`src/Knowsall.cpp` (letter modes, word modes and the candidate-list modes),
followed by the properties proved about them.

Modelling conventions.

* A `std::string` is a `List Char`; one `Char` stands for one C++ `char`.  The
  blank of a pattern is the character `'_'`, the "no letter" marker of the
  selection loop is the NUL character `Char.ofNat 0`.
* A `std::vector<std::string>` is a `List (List Char)`.
* A `std::unordered_set<char>` is a `List Char` that is only ever queried for
  membership; `insert` is `List.insert`.
* A `std::map<char,int>` is an association list kept in strictly increasing order
  of the `char` values of its keys (`charValue`, a signed byte), which is the
  order in which the C++ range-for visits it.  Counts are
  `Nat`: the `int` counters are only ever incremented from zero, and a corpus
  with more than `2^31 - 1` letters is outside the model.
* The text typed by the user is an input of the model: the list of strings that
  the successive reads leave in `response`.  Console output, the guess log and the
  waiting time of the response timer are not part of the model.
* The order of two characters is the order of their `char` values, `charValue`:
  the bytes 128 to 255 are negative and come before the 7-bit characters, as
  `std::less<char>` orders them where `char` is signed.
* The results of `std::shuffle` and `std::rand` are inputs of the model: the
  shuffled string or vector, and the list of the values returned by `std::rand`.
-/

namespace Knowsall

set_option linter.unusedVariables false

/-! ## Candidate filter (`filterWords`, lines 45-69) -/

/-- Inner loop of `filterWords` (lines 51-61), run on a pattern and a word of the
same length: `true` is the value of `matches` when the loop is left. -/
def matchesPattern (guessedLetters : List Char) : List Char → List Char → Bool
  | g :: guessedWord, w :: word =>
      if g ≠ '_' ∧ g ≠ w then false
      else if g = '_' ∧ w ∈ guessedLetters then false
      else matchesPattern guessedLetters guessedWord word
  | _, _ => true

/-- The function `filterWords` of `Knowsall.cpp`: the words of `dictionary`, in
order, that have the length of `guessedWord` and pass the inner loop. -/
def filterWords (dictionary : List (List Char)) (guessedWord : List Char)
    (guessedLetters : List Char) : List (List Char) :=
  dictionary.filter fun word =>
    decide (word.length = guessedWord.length) && matchesPattern guessedLetters guessedWord word

/-! ## Letter statistics (`calculateLetterFrequencies`, lines 77-89) -/

/-- The value of a `char`.  The type `char` is a signed byte on the platforms the
program is built for (x86, x86-64): the characters 128 to 255 stand for the values
-128 to -1, the characters 0 to 127 for themselves.  (A `Char` beyond 255 stands
for no `char`; it keeps its code, which makes the function injective.) -/
def charValue (c : Char) : Int :=
  if 128 ≤ c.toNat ∧ c.toNat < 256 then (c.toNat : Int) - 256 else (c.toNat : Int)

/-- The statement `letterFrequencies[letter]++` on a `std::map<char,int>`: a
missing key is created with value `0` and then incremented, an existing one is
incremented; the keys are kept in increasing order of `std::less<char>`, that is
of their `charValue`. -/
def increment (letter : Char) : List (Char × Nat) → List (Char × Nat)
  | [] => [(letter, 1)]
  | (k, v) :: rest =>
      if charValue letter < charValue k then (letter, 1) :: (k, v) :: rest
      else if letter = k then (k, v + 1) :: rest
      else (k, v) :: increment letter rest

/-- The function `calculateLetterFrequencies` of `Knowsall.cpp`. -/
def calculateLetterFrequencies (possibleWords : List (List Char)) (guessedLetters : List Char) :
    List (Char × Nat) :=
  possibleWords.foldl
    (fun letterFrequencies word =>
      word.foldl
        (fun letterFrequencies letter =>
          if letter ∈ guessedLetters then letterFrequencies
          else increment letter letterFrequencies)
        letterFrequencies)
    []

/-! ## Selection of the most frequent letter (lines 448-457, 525-534, 607-616) -/

/-- The "find the most frequent letter" loop, identical in `aiGuessing`,
`aiGuessingWithEnhancements` and `challengingMode`: the pair
`(guessedLetter, maxFrequency)` after the loop, starting from `('\0', 0)`. -/
def selectLetter (letterFrequencies : List (Char × Nat)) : Char × Nat :=
  letterFrequencies.foldl
    (fun best pair => if pair.2 > best.2 then (pair.1, pair.2) else best)
    (Char.ofNat 0, 0)

/-! ## The guessing loop -/

/-- The reveal loop run on a "yes" (lines 477-481): every position where the
secret holds `guessedLetter` receives it, the others keep their content. -/
def reveal (guessedLetter : Char) : List Char → List Char → List Char
  | s :: secretWord, g :: guessedWord =>
      (if s = guessedLetter then guessedLetter else g) ::
        reveal guessedLetter secretWord guessedWord
  | _, guessedWord => guessedWord

/-- The local variables of a guessing function that live across loop iterations. -/
structure Session where
  guessedLetters : List Char
  guessedWord : List Char
  questionsAsked : Nat
  possibleWords : List (List Char)
deriving DecidableEq

/-- How the `while` loop is left: its condition became false, the `break` of the
empty candidate list, the `break` of the NUL letter; `outOfFuel` is not a
behaviour of the program but the model running out of iterations. -/
inductive Exit
  | loopCondition
  | noWords
  | noLetters
  | outOfFuel
deriving DecidableEq

/-- Result of one pass through the `while` loop: the loop is left, or a letter was
asked and the loop goes round again. -/
inductive Iteration
  | stop (exit : Exit) (s : Session)
  | asked (guessedLetter : Char) (s : Session)
deriving DecidableEq

/-- The variables as initialised before the loop (lines 427-433). -/
def startSession (secretWord : List Char) (dictionary : List (List Char)) : Session :=
  { guessedLetters := []
    guessedWord := List.replicate secretWord.length '_'
    questionsAsked := 0
    possibleWords := dictionary }

/-- One evaluation of the loop condition and, when it holds, of the loop body
(lines 435-490 and their two copies).  `maxQuestions` is 20 or 10, `penalty` is
the `questionsAsked += 2` of `challengingMode` (0 in the other two functions),
`response` is the string read at the prompt. -/
def iteration (maxQuestions penalty : Nat) (secretWord : List Char) (s : Session)
    (response : String) : Iteration :=
  if s.questionsAsked < maxQuestions ∧ s.guessedWord ≠ secretWord then
    let possibleWords := filterWords s.possibleWords s.guessedWord s.guessedLetters
    if possibleWords = [] then
      .stop .noWords { s with possibleWords := possibleWords }
    else
      let letterFrequencies := calculateLetterFrequencies possibleWords s.guessedLetters
      let guessedLetter := (selectLetter letterFrequencies).1
      if guessedLetter = Char.ofNat 0 then
        .stop .noLetters { s with possibleWords := possibleWords }
      else
        let guessedLetters := s.guessedLetters.insert guessedLetter
        if response ≠ "yes" ∧ response ≠ "no" then
          .asked guessedLetter
            { s with guessedLetters := guessedLetters, possibleWords := possibleWords }
        else if response = "yes" then
          .asked guessedLetter
            { guessedLetters := guessedLetters
              guessedWord := reveal guessedLetter secretWord s.guessedWord
              questionsAsked := s.questionsAsked + 1
              possibleWords := possibleWords }
        else
          .asked guessedLetter
            { guessedLetters := guessedLetters
              guessedWord := s.guessedWord
              questionsAsked := s.questionsAsked + penalty + 1
              possibleWords := possibleWords }
  else
    .stop .loopCondition s

/-- One question of a round: the variables at the loop head, the letter asked, the
response read, and the variables at the end of that pass (its `possibleWords` is
the candidate list the letter was chosen from). -/
structure Prompt where
  before : Session
  guessedLetter : Char
  response : String
  after : Session
deriving DecidableEq

/-- A whole run of the loop: the questions in order, the way the loop was left and
the variables at that point. -/
structure Round where
  prompts : List Prompt
  exit : Exit
  final : Session
deriving DecidableEq

/-- The `while` loop, bounded by a number of passes.  `eof` is what a read leaves
in `response` once the listed responses are used up. -/
def runLoop (maxQuestions penalty : Nat) (eof : String) (secretWord : List Char) :
    Nat → Session → List String → Round
  | 0, s, _ => { prompts := [], exit := .outOfFuel, final := s }
  | fuel + 1, s, responses =>
      match iteration maxQuestions penalty secretWord s (responses.headD eof) with
      | .stop exit s' => { prompts := [], exit := exit, final := s' }
      | .asked guessedLetter s' =>
          let rest := runLoop maxQuestions penalty eof secretWord fuel s' responses.tail
          { rest with
            prompts :=
              { before := s, guessedLetter := guessedLetter,
                response := responses.headD eof, after := s' } :: rest.prompts }

/-- A number of passes that the loop never exceeds (`enoughFuel_spec`): every
pass that asks a letter uses up an untried letter of the dictionary. -/
def enoughFuel (dictionary : List (List Char)) : Nat :=
  dictionary.flatten.length + 1

/-- The function `aiGuessing` (lines 426-497): budget 20, no penalty, responses
read with `std::cin >> response`, which leaves the fresh empty string at end of
input. -/
def aiGuessing (secretWord : List Char) (dictionary : List (List Char))
    (responses : List String) : Round :=
  runLoop 20 0 "" secretWord (enoughFuel dictionary) (startSession secretWord dictionary)
    responses

/-- The function `aiGuessingWithEnhancements` (lines 503-577): the same loop; the
response comes from `getUserResponseWithTimer`, which stores "no" when the time
runs out at end of input. -/
def aiGuessingWithEnhancements (secretWord : List Char) (dictionary : List (List Char))
    (responses : List String) : Round :=
  runLoop 20 0 "no" secretWord (enoughFuel dictionary) (startSession secretWord dictionary)
    responses

/-- The function `challengingMode` (lines 583-656): budget 10 and two extra
questions counted on a "no". -/
def challengingMode (secretWord : List Char) (dictionary : List (List Char))
    (responses : List String) : Round :=
  runLoop 10 2 "no" secretWord (enoughFuel dictionary) (startSession secretWord dictionary)
    responses

/-- The final test `guessedWord == secretWord` (lines 492, 571, 651) that selects
the success message. -/
def solved (secretWord : List Char) (r : Round) : Bool :=
  decide (r.final.guessedWord = secretWord)

/-! ## The letter loops without a candidate list -/

/-- A `while` loop of a letter mode given by its pass `step`, bounded by a number
of passes: the shape shared by all letter loops (`runLoop` is the instance for
`iteration`, see `runLoop_eq_runLetters`). -/
def runLetters (step : Session → String → Iteration) (eof : String) :
    Nat → Session → List String → Round
  | 0, s, _ => { prompts := [], exit := .outOfFuel, final := s }
  | fuel + 1, s, responses =>
      match step s (responses.headD eof) with
      | .stop exit s' => { prompts := [], exit := exit, final := s' }
      | .asked guessedLetter s' =>
          let rest := runLetters step eof fuel s' responses.tail
          { rest with
            prompts :=
              { before := s, guessedLetter := guessedLetter,
                response := responses.headD eof, after := s' } :: rest.prompts }

/-- One pass of the loop of `letterByLetterGuessing` (lines 150-176): the letter
is `'a' + (questionsAsked % 26)`; `guessedLetters` is never written. -/
def sequentialIteration (maxQuestions : Nat) (secretWord : List Char) (s : Session)
    (response : String) : Iteration :=
  if s.questionsAsked < maxQuestions ∧ s.guessedWord ≠ secretWord then
    let guessedLetter := Char.ofNat ('a'.toNat + s.questionsAsked % 26)
    if response ≠ "yes" ∧ response ≠ "no" then
      .asked guessedLetter s
    else if response = "yes" then
      .asked guessedLetter
        { s with
          guessedWord := reveal guessedLetter secretWord s.guessedWord
          questionsAsked := s.questionsAsked + 1 }
    else
      .asked guessedLetter { s with questionsAsked := s.questionsAsked + 1 }
  else
    .stop .loopCondition s

/-- The function `letterByLetterGuessing` (lines 143-183).  A pass that reads past
the listed responses reads the empty string, keeps every variable and so repeats
for ever: the run is cut after the first such pass, with exit `outOfFuel`. -/
def letterByLetterGuessing (secretWord : List Char) (dictionary : List (List Char))
    (responses : List String) : Round :=
  runLetters (sequentialIteration 20 secretWord) "" (responses.length + 1)
    (startSession secretWord dictionary) responses

/-- The "find the next unguessed letter" scan (lines 203-212 and 342-349): the
value of `guessedLetter` and of `guessedLetters` after the `for` loop over
`alphabet`. -/
def nextUnguessed (alphabet : List Char) (guessedLetters : List Char) : Char × List Char :=
  match alphabet.find? (fun letter => decide (letter ∉ guessedLetters)) with
  | some letter => (letter, guessedLetters.insert letter)
  | none => (Char.ofNat 0, guessedLetters)

/-- One pass of the loop of `randomizedLetterByLetterGuessing` (lines 202-243) and
of `frequencyBasedGuessing` (lines 341-377), which differ only in the string
`alphabet` that is scanned. -/
def scanIteration (alphabet : List Char) (maxQuestions : Nat) (secretWord : List Char)
    (s : Session) (response : String) : Iteration :=
  if s.questionsAsked < maxQuestions ∧ s.guessedWord ≠ secretWord then
    let guessedLetter := (nextUnguessed alphabet s.guessedLetters).1
    let guessedLetters := (nextUnguessed alphabet s.guessedLetters).2
    if guessedLetter = Char.ofNat 0 then
      .stop .noLetters { s with guessedLetters := guessedLetters }
    else if response ≠ "yes" ∧ response ≠ "no" then
      .asked guessedLetter { s with guessedLetters := guessedLetters }
    else if response = "yes" then
      .asked guessedLetter
        { s with
          guessedLetters := guessedLetters
          guessedWord := reveal guessedLetter secretWord s.guessedWord
          questionsAsked := s.questionsAsked + 1 }
    else
      .asked guessedLetter
        { s with guessedLetters := guessedLetters, questionsAsked := s.questionsAsked + 1 }
  else
    .stop .loopCondition s

/-- The function `randomizedLetterByLetterGuessing` (lines 189-250).  `alphabet` is
the string after `std::shuffle`, a rearrangement of `abcdefghijklmnopqrstuvwxyz`.
Every pass that asks uses up a letter of `alphabet`, which bounds the passes. -/
def randomizedLetterByLetterGuessing (alphabet : List Char) (secretWord : List Char)
    (dictionary : List (List Char)) (responses : List String) : Round :=
  runLetters (scanIteration alphabet 20 secretWord) "" (alphabet.length + 1)
    (startSession secretWord dictionary) responses

/-- The constant `letterFrequency` of `frequencyBasedGuessing` (line 337). -/
def letterFrequency : List Char := "etaoinshrdlcumwfgypbvkjxqz".toList

/-- The function `frequencyBasedGuessing` (lines 333-384). -/
def frequencyBasedGuessing (secretWord : List Char) (dictionary : List (List Char))
    (responses : List String) : Round :=
  runLetters (scanIteration letterFrequency 20 secretWord) "" (letterFrequency.length + 1)
    (startSession secretWord dictionary) responses

/-! ## The word loops -/

/-- One question of a word mode: the counter when the word is asked, the word, the
response read and the counter after the response was handled. -/
structure WordPrompt where
  before : Nat
  guessedWord : List Char
  response : String
  after : Nat
deriving DecidableEq

/-- How a word mode ends: the `return` after a "yes" with the word then printed,
the fall out of the loop to the failure message, the undefined `% 0` of
`randomWordGuessing` on an empty dictionary; `outOfFuel` is the cut of a run that
repeats for ever. -/
inductive WordExit
  | guessed (word : List Char)
  | gaveUp
  | emptyDictionary
  | outOfFuel
deriving DecidableEq

/-- A whole run of a word mode. -/
structure WordRound where
  prompts : List WordPrompt
  exit : WordExit
  questionsAsked : Nat
deriving DecidableEq

/-- Outcome of the handling of one response in a word mode. -/
inductive WordAnswer
  | guessed
  | next (questionsAsked : Nat)
deriving DecidableEq

/-- The handling of the response, identical in the three word modes (lines
268-282, 309-323, 402-416). -/
def answerWord (questionsAsked : Nat) (response : String) : WordAnswer :=
  if response ≠ "yes" ∧ response ≠ "no" then .next questionsAsked
  else if response = "yes" then .guessed
  else .next (questionsAsked + 1)

/-- The range-`for` loop over the words of a vector (lines 261-283 and 302-324),
entered with the counter `questionsAsked`. -/
def wordLoop (maxQuestions : Nat) (eof : String) :
    List (List Char) → Nat → List String → WordRound
  | [], questionsAsked, _ =>
      { prompts := [], exit := .gaveUp, questionsAsked := questionsAsked }
  | word :: rest, questionsAsked, responses =>
      if questionsAsked ≥ maxQuestions then
        { prompts := [], exit := .gaveUp, questionsAsked := questionsAsked }
      else
        match answerWord questionsAsked (responses.headD eof) with
        | .guessed =>
            { prompts := [{ before := questionsAsked, guessedWord := word,
                            response := responses.headD eof, after := questionsAsked }]
              exit := .guessed word
              questionsAsked := questionsAsked }
        | .next q =>
            let r := wordLoop maxQuestions eof rest q responses.tail
            { r with
              prompts :=
                { before := questionsAsked, guessedWord := word,
                  response := responses.headD eof, after := q } :: r.prompts }

/-- The function `wordByWordGuessing` (lines 256-286); the secret is not read. -/
def wordByWordGuessing (secretWord : List Char) (dictionary : List (List Char))
    (responses : List String) : WordRound :=
  wordLoop 20 "" dictionary 0 responses

/-- The function `randomizedWordByWordGuessing` (lines 292-327).  `shuffled` is the
local copy of the dictionary after `std::shuffle`, a rearrangement of
`dictionary`. -/
def randomizedWordByWordGuessing (shuffled : List (List Char)) (secretWord : List Char)
    (dictionary : List (List Char)) (responses : List String) : WordRound :=
  wordLoop 20 "" shuffled 0 responses

/-- The `while` loop of `randomWordGuessing` (lines 396-417), bounded by a number
of passes; `rands` lists the successive values of `std::rand()`. -/
def randomWordLoop (maxQuestions : Nat) (eof : String) (dictionary : List (List Char)) :
    Nat → Nat → List Nat → List String → WordRound
  | 0, questionsAsked, _, _ =>
      { prompts := [], exit := .outOfFuel, questionsAsked := questionsAsked }
  | fuel + 1, questionsAsked, rands, responses =>
      if questionsAsked < maxQuestions then
        if dictionary.length = 0 then
          { prompts := [], exit := .emptyDictionary, questionsAsked := questionsAsked }
        else
          let guessedWord := dictionary.getD (rands.headD 0 % dictionary.length) []
          match answerWord questionsAsked (responses.headD eof) with
          | .guessed =>
              { prompts := [{ before := questionsAsked, guessedWord := guessedWord,
                              response := responses.headD eof, after := questionsAsked }]
                exit := .guessed guessedWord
                questionsAsked := questionsAsked }
          | .next q =>
              let r := randomWordLoop maxQuestions eof dictionary fuel q rands.tail
                responses.tail
              { r with
                prompts :=
                  { before := questionsAsked, guessedWord := guessedWord,
                    response := responses.headD eof, after := q } :: r.prompts }
      else
        { prompts := [], exit := .gaveUp, questionsAsked := questionsAsked }

/-- The function `randomWordGuessing` (lines 390-420).  As in
`letterByLetterGuessing`, a pass that reads past the listed responses repeats for
ever and the run is cut after the first such pass. -/
def randomWordGuessing (rands : List Nat) (secretWord : List Char)
    (dictionary : List (List Char)) (responses : List String) : WordRound :=
  randomWordLoop 20 "" dictionary (responses.length + 1) 0 rands responses

/-! ## Vocabulary of the specification -/

/-- The pattern that accurate answers about `w` produce once the letters of
`triedLetters` have been asked: a letter of `w` is shown exactly when it was
tried. -/
def accuratePattern (w : List Char) (triedLetters : List Char) : List Char :=
  w.map fun c => if c ∈ triedLetters then c else '_'

/-- Total number of occurrences of the letter `c` in the words of `W`. -/
def occurrences (c : Char) (W : List (List Char)) : Nat :=
  (W.map (List.count c)).sum

/-- The count recorded for `c` in a frequency table, if any (`std::map::find`). -/
def frequencyOf (letterFrequencies : List (Char × Nat)) (c : Char) : Option Nat :=
  letterFrequencies.lookup c

/-- The responses that the loops accept. -/
def validResponse (response : String) : Bool :=
  decide (response = "yes") || decide (response = "no")

/-- The pattern shows, at each position, a blank or the letter of the secret. -/
def agrees (guessedWord secretWord : List Char) : Prop :=
  List.Forall₂ (fun g s => g = '_' ∨ g = s) guessedWord secretWord

/-- Effect on the variables of a pass that asks the letter `c` and reads
`response`, common to all letter loops: the loop condition held, the tried letters
did not shrink, the pattern is revealed on "yes" and kept otherwise, the counter
moves by 1 on "yes", by `penalty + 1` on "no" and not at all otherwise. -/
def LetterPass (maxQuestions penalty : Nat) (secretWord : List Char) (s : Session) (c : Char)
    (response : String) (s' : Session) : Prop :=
  s.questionsAsked < maxQuestions ∧ s.guessedWord ≠ secretWord ∧
  s.guessedLetters ⊆ s'.guessedLetters ∧
  s'.guessedWord =
    (if response = "yes" then reveal c secretWord s.guessedWord else s.guessedWord) ∧
  s'.questionsAsked =
    (if response = "yes" then s.questionsAsked + 1
     else if response = "no" then s.questionsAsked + penalty + 1
     else s.questionsAsked)

/-- The questions of a round follow one another: each starts from the variables
that the previous one left, the first from `start`. -/
def linked : Session → List Prompt → Prop
  | _, [] => True
  | start, p :: ps => p.before = start ∧ linked p.after ps

/-- The variables after the last question of a list, `start` if there is none. -/
def lastAfter (start : Session) (prompts : List Prompt) : Session :=
  (prompts.getLast?.map Prompt.after).getD start

/-- What is known of every run of a letter loop: each question is a `LetterPass`
between patterns that agree with the secret, the questions are linked from
`start`, the loop is left with the pattern and counter of the last question, and
the valid answers fit in the budget. -/
def LetterRun (maxQuestions penalty : Nat) (secretWord : List Char) (start : Session)
    (r : Round) : Prop :=
  (∀ p ∈ r.prompts,
    LetterPass maxQuestions penalty secretWord p.before p.guessedLetter p.response p.after ∧
    agrees p.before.guessedWord secretWord ∧ agrees p.after.guessedWord secretWord) ∧
  linked start r.prompts ∧
  r.final.guessedWord = (lastAfter start r.prompts).guessedWord ∧
  r.final.questionsAsked = (lastAfter start r.prompts).questionsAsked ∧
  (r.prompts.filter (fun p => validResponse p.response)).length
    ≤ maxQuestions - start.questionsAsked

/-- In a letter round, a response other than "yes" and "no" leaves the counter as
it was before the question. -/
def counterKept (r : Round) : Prop :=
  ∀ p ∈ r.prompts, p.response ≠ "yes" → p.response ≠ "no" →
    p.after.questionsAsked = p.before.questionsAsked

/-- In a word round, a response other than "yes" and "no" leaves the counter as it
was before the question. -/
def wordCounterKept (r : WordRound) : Prop :=
  ∀ p ∈ r.prompts, p.response ≠ "yes" → p.response ≠ "no" → p.after = p.before

/-- Monotonicity of the knowledge state along a letter round: the questions are
linked from `start`, the loop is left with the pattern of the last question, and
across each question the pattern keeps the length of the secret, every revealed
position keeps its letter and the tried letters do not shrink. -/
def knowledgeMonotone (secretWord : List Char) (start : Session) (r : Round) : Prop :=
  linked start r.prompts ∧
  r.final.guessedWord = (lastAfter start r.prompts).guessedWord ∧
  ∀ p ∈ r.prompts,
    p.before.guessedWord.length = secretWord.length ∧
    p.after.guessedWord.length = secretWord.length ∧
    (∀ (i : Nat) (c : Char), p.before.guessedWord[i]? = some c → c ≠ '_' →
      p.after.guessedWord[i]? = some c) ∧
    p.before.guessedLetters ⊆ p.after.guessedLetters

/-- Reveal on "yes" in a letter round: after a "yes" for the letter `c` the pattern
holds `c` where the secret holds `c` and its former content elsewhere (so, `c`
not being the blank, it holds `c` exactly where the secret does); a question that
leaves the pattern equal to the secret is the last one and the final test
succeeds; if the last question leaves another pattern, the final test fails. -/
def revealsOnYes (secretWord : List Char) (r : Round) : Prop :=
  (∀ p ∈ r.prompts, p.response = "yes" →
    p.after.guessedWord.length = secretWord.length ∧
    ∀ (i : Nat) (x y : Char), secretWord[i]? = some x → p.before.guessedWord[i]? = some y →
      p.after.guessedWord[i]? = some (if x = p.guessedLetter then p.guessedLetter else y) ∧
      (p.guessedLetter ≠ '_' →
        (p.after.guessedWord[i]? = some p.guessedLetter ↔ x = p.guessedLetter))) ∧
  (∀ (l₁ : List Prompt) (p : Prompt) (l₂ : List Prompt), r.prompts = l₁ ++ p :: l₂ →
    (p.after.guessedWord = secretWord → l₂ = [] ∧ solved secretWord r = true) ∧
    (l₂ = [] → p.after.guessedWord ≠ secretWord → solved secretWord r = false))

/-- In a word round a "yes" is the last question and ends the round with the word
asked. -/
def wordEndsOnYes (r : WordRound) : Prop :=
  ∀ (l₁ : List WordPrompt) (p : WordPrompt) (l₂ : List WordPrompt),
    r.prompts = l₁ ++ p :: l₂ → p.response = "yes" →
    l₂ = [] ∧ r.exit = .guessed p.guessedWord

/-- A letter round stays within the budget `B`: at most `B` responses "yes" or
"no" are accepted, and every question is asked with the counter below `B`. -/
def withinBudget (B : Nat) (r : Round) : Prop :=
  (r.prompts.filter (fun p => validResponse p.response)).length ≤ B ∧
  ∀ p ∈ r.prompts, p.before.questionsAsked < B

/-- A word round stays within the budget `B`. -/
def wordsWithinBudget (B : Nat) (r : WordRound) : Prop :=
  (r.prompts.filter (fun p => validResponse p.response)).length ≤ B ∧
  ∀ p ∈ r.prompts, p.before < B

/-- No letter is asked twice in a letter round: each letter is untried when it is
asked and the letters asked are pairwise distinct. -/
def lettersNotRepeated (r : Round) : Prop :=
  (∀ p ∈ r.prompts, p.guessedLetter ∉ p.before.guessedLetters) ∧
  (r.prompts.map Prompt.guessedLetter).Nodup

/-- Every letter asked in a candidate-list round occurs in a word of the candidate
list it was chosen from, and that list is a sublist of the dictionary. -/
def lettersFromCandidates (dictionary : List (List Char)) (r : Round) : Prop :=
  ∀ p ∈ r.prompts,
    (∃ w ∈ p.after.possibleWords, p.guessedLetter ∈ w) ∧
    p.after.possibleWords.Sublist dictionary

/-- The candidate list of every question is the recomputed filter: the list left
by the filter pass of the question is the filter of the previous list (what the
code computes), it equals the filter of the whole dictionary under the pattern and
tried letters of that moment, and the letter asked is selected from it. -/
def candidatesRecomputed (dictionary : List (List Char)) (r : Round) : Prop :=
  ∀ p ∈ r.prompts,
    p.after.possibleWords =
      filterWords p.before.possibleWords p.before.guessedWord p.before.guessedLetters ∧
    p.after.possibleWords =
      filterWords dictionary p.before.guessedWord p.before.guessedLetters ∧
    p.guessedLetter =
      (selectLetter (calculateLetterFrequencies p.after.possibleWords
        p.before.guessedLetters)).1

/-- Every response of the round is the accurate one: "yes" when the letter asked
occurs in the secret, "no" when it does not. -/
def accurateAnswers (secretWord : List Char) (r : Round) : Prop :=
  ∀ p ∈ r.prompts, p.response = if p.guessedLetter ∈ secretWord then "yes" else "no"

/-- The number of questions of a round is at most the number of distinct letters
occurring in the dictionary, and the loop is left by the program itself. -/
def promptsBounded (dictionary : List (List Char)) (r : Round) : Prop :=
  r.prompts.length ≤ dictionary.flatten.dedup.length ∧ r.exit ≠ Exit.outOfFuel

/-- The counter is at most `bound` before and after every question of a letter
round and when the loop is left. -/
def counterBounded (bound : Nat) (r : Round) : Prop :=
  (∀ p ∈ r.prompts, p.before.questionsAsked ≤ bound ∧ p.after.questionsAsked ≤ bound) ∧
  r.final.questionsAsked ≤ bound

/-- The counter is at most `bound` before and after every question of a word
round and when the loop is left. -/
def wordCounterBounded (bound : Nat) (r : WordRound) : Prop :=
  (∀ p ∈ r.prompts, p.before ≤ bound ∧ p.after ≤ bound) ∧ r.questionsAsked ≤ bound

/-- In every state of a letter round (the start, both ends of every question, the
state in which the loop is left) the pattern agrees with the secret; the states
follow one another as `linked` says. -/
def patternAgrees (secretWord : List Char) (start : Session) (r : Round) : Prop :=
  agrees start.guessedWord secretWord ∧
  (∀ p ∈ r.prompts,
    agrees p.before.guessedWord secretWord ∧ agrees p.after.guessedWord secretWord) ∧
  agrees r.final.guessedWord secretWord ∧
  linked start r.prompts ∧
  r.final.guessedWord = (lastAfter start r.prompts).guessedWord

/-- After any question up to which every response was accurate (hence valid), a
position of the pattern is revealed exactly when the letter of the secret at that
position is one of the letters asked so far. -/
def revealedIffProposed (secretWord : List Char) (r : Round) : Prop :=
  ∀ (l₁ : List Prompt) (p : Prompt) (l₂ : List Prompt), r.prompts = l₁ ++ p :: l₂ →
    (∀ q ∈ l₁ ++ [p], q.response = if q.guessedLetter ∈ secretWord then "yes" else "no") →
    ∀ (i : Nat) (x y : Char), secretWord[i]? = some x → p.after.guessedWord[i]? = some y →
      (y ≠ '_' ↔ x ∈ (l₁ ++ [p]).map Prompt.guessedLetter)

/-! ## The filter -/

theorem matchesPattern_iff (T : List Char) :
    ∀ (p w : List Char), w.length = p.length →
      (matchesPattern T p w = true ↔
        ∀ (i : Nat) (hp : i < p.length) (hw : i < w.length),
          (p[i] ≠ '_' → w[i] = p[i]) ∧ (p[i] = '_' → w[i] ∉ T)) := by
  intro p
  induction p with
  | nil =>
      intro w hlen
      simp [matchesPattern]
  | cons g gs ih =>
      intro w hlen
      cases w with
      | nil => simp at hlen
      | cons c cs =>
          have hlen' : cs.length = gs.length := by simpa using hlen
          rw [matchesPattern]
          constructor
          · intro h
            split at h
            · exact absurd h (by simp)
            · split at h
              · exact absurd h (by simp)
              · rename_i h1 h2
                intro i hp hw
                cases i with
                | zero =>
                    simp only [List.getElem_cons_zero]
                    constructor
                    · intro hg
                      by_contra hne
                      exact h1 ⟨hg, fun e => hne e.symm⟩
                    · intro hg hc
                      exact h2 ⟨hg, hc⟩
                | succ j =>
                    simp only [List.getElem_cons_succ]
                    exact (ih cs hlen').1 h j (by simpa using hp) (by simpa using hw)
          · intro h
            have h0 := h 0 (by simp) (by simp)
            simp only [List.getElem_cons_zero] at h0
            have hrest : matchesPattern T gs cs = true := by
              refine (ih cs hlen').2 ?_
              intro i hp hw
              have := h (i + 1) (by simpa using hp) (by simpa using hw)
              simpa only [List.getElem_cons_succ] using this
            have h1 : ¬ (g ≠ '_' ∧ g ≠ c) := fun ⟨a, b⟩ => b (h0.1 a).symm
            have h2 : ¬ (g = '_' ∧ c ∈ T) := fun ⟨a, b⟩ => h0.2 a b
            rw [if_neg h1, if_neg h2]
            exact hrest

theorem mem_filterWords (C : List (List Char)) (p T w : List Char) :
    w ∈ filterWords C p T ↔
      w ∈ C ∧ w.length = p.length ∧ matchesPattern T p w = true := by
  simp [filterWords, List.mem_filter]

/-- C1 (filter soundness): a word of the corpus without the blank character is kept
by `filterWords` under the pattern that accurate answers about it produce, whatever
the set of tried letters. -/
theorem filterWords_sound (C : List (List Char)) (w T : List Char)
    (hw : w ∈ C) (hblank : '_' ∉ w) :
    w ∈ filterWords C (accuratePattern w T) T := by
  have hlen : w.length = (accuratePattern w T).length := by simp [accuratePattern]
  refine (mem_filterWords C _ T w).2 ⟨hw, hlen, ?_⟩
  refine (matchesPattern_iff T _ w hlen).2 ?_
  intro i hp hi
  have hne : w[i] ≠ '_' := fun e => hblank (e ▸ List.getElem_mem hi)
  have hpi : (accuratePattern w T)[i] = if w[i] ∈ T then w[i] else '_' := by
    simp [accuratePattern]
  rw [hpi]
  by_cases hT : w[i] ∈ T
  · simp [hT, hne]
  · simp [hT]

/-- Witness of C1 on the corpus cat, car, can with the letters a, c, n tried. -/
theorem filterWords_sound_witness :
    "car".toList ∈ filterWords ["cat".toList, "car".toList, "can".toList]
      (accuratePattern "car".toList ['a', 'c', 'n']) ['a', 'c', 'n'] :=
  filterWords_sound ["cat".toList, "car".toList, "can".toList] "car".toList ['a', 'c', 'n']
    (by decide) (by decide)

/-- C2 (filter characterisation): a word is in the result of `filterWords` exactly
when it is in the corpus, has the length of the pattern, agrees with the pattern at
every revealed position, and holds no tried letter at a blank position. -/
theorem filterWords_iff (C : List (List Char)) (p T w : List Char) :
    w ∈ filterWords C p T ↔
      w ∈ C ∧ w.length = p.length ∧
      (∀ (i : Nat) (hp : i < p.length) (hi : i < w.length), p[i] ≠ '_' → w[i] = p[i]) ∧
      (∀ (i : Nat) (hp : i < p.length) (hi : i < w.length), p[i] = '_' → w[i] ∉ T) := by
  rw [mem_filterWords]
  constructor
  · rintro ⟨hC, hlen, hm⟩
    have h := (matchesPattern_iff T p w hlen).1 hm
    exact ⟨hC, hlen, fun i hp hi => (h i hp hi).1, fun i hp hi => (h i hp hi).2⟩
  · rintro ⟨hC, hlen, h1, h2⟩
    exact ⟨hC, hlen, (matchesPattern_iff T p w hlen).2 fun i hp hi => ⟨h1 i hp hi, h2 i hp hi⟩⟩

/-- C3 (filter idempotence): filtering the result of `filterWords` again with the
same pattern and tried letters gives the same list. -/
theorem filterWords_idempotent (C : List (List Char)) (p T : List Char) :
    filterWords (filterWords C p T) p T = filterWords C p T := by
  simp [filterWords, List.filter_filter]

/-- C4 (order preservation): the result of `filterWords` is a sublist of the corpus,
and the empty list is an ordinary result (here for the corpus dog with d tried). -/
theorem filterWords_sublist :
    (∀ (C : List (List Char)) (p T : List Char), (filterWords C p T).Sublist C) ∧
    filterWords ["dog".toList] "___".toList ['d'] = [] :=
  ⟨fun _ _ _ => List.filter_sublist _, by decide⟩

/-! ## The letter statistics -/

/-- The loop of `calculateLetterFrequencies` over one run of letters. -/
theorem tally_flatten (E : List Char) (W : List (List Char)) :
    ∀ m : List (Char × Nat),
      W.foldl
        (fun t word => word.foldl (fun t l => if l ∈ E then t else increment l t) t) m
      = W.flatten.foldl (fun t l => if l ∈ E then t else increment l t) m := by
  induction W with
  | nil => intro m; rfl
  | cons w ws ih =>
      intro m
      simp only [List.foldl_cons, List.flatten_cons, List.foldl_append]
      exact ih _

theorem lookup_cons_eq (c k : Char) (v : Nat) (rest : List (Char × Nat)) :
    ((k, v) :: rest).lookup c = if c = k then some v else rest.lookup c := by
  by_cases h : c = k
  · subst h
    simp [List.lookup_cons]
  · have hb : (c == k) = false := by simpa using h
    rw [if_neg h, List.lookup_cons, hb]

/-- Two characters with the same `char` value are equal. -/
theorem charValue_injective (a b : Char) (h : charValue a = charValue b) : a = b := by
  have hn : a.toNat = b.toNat := by
    unfold charValue at h
    split at h <;> split at h <;> omega
  rw [← Char.ofNat_toNat a, ← Char.ofNat_toNat b, hn]

theorem ne_of_charValue_lt (a b : Char) (h : charValue a < charValue b) : a ≠ b := by
  intro e
  rw [e] at h
  exact lt_irrefl _ h

/-- On 7-bit characters the order of the map is the order of the characters. -/
theorem charValue_le_iff (a b : Char) (ha : a.toNat < 128) (hb : b.toNat < 128) :
    charValue a ≤ charValue b ↔ a ≤ b := by
  have h1 : charValue a = (a.toNat : Int) := by unfold charValue; rw [if_neg (by omega)]
  have h2 : charValue b = (b.toNat : Int) := by unfold charValue; rw [if_neg (by omega)]
  rw [h1, h2, Int.ofNat_le]
  exact Iff.rfl

theorem charValue_lt_of_not_lt (a b : Char) (h : ¬ charValue a < charValue b) (hne : a ≠ b) :
    charValue b < charValue a :=
  lt_of_le_of_ne (not_lt.1 h) (fun e => hne (charValue_injective a b e.symm))

theorem lookup_none_of_lt (l : Char) :
    ∀ m : List (Char × Nat), (∀ x ∈ m, charValue l < charValue x.1) → m.lookup l = none := by
  intro m
  induction m with
  | nil => intro _; rfl
  | cons x rest ih =>
      intro h
      obtain ⟨k, v⟩ := x
      have hk : charValue l < charValue k := h (k, v) (List.mem_cons_self _ _)
      rw [lookup_cons_eq, if_neg (ne_of_charValue_lt l k hk)]
      exact ih fun y hy => h y (List.mem_cons_of_mem _ hy)

theorem mem_increment (l : Char) :
    ∀ (m : List (Char × Nat)) (x : Char × Nat), x ∈ increment l m →
      x.1 = l ∨ ∃ y ∈ m, y.1 = x.1 := by
  intro m
  induction m with
  | nil =>
      intro x hx
      simp only [increment, List.mem_singleton] at hx
      left; rw [hx]
  | cons y rest ih =>
      intro x hx
      obtain ⟨k, v⟩ := y
      rw [increment] at hx
      split at hx
      · rcases List.mem_cons.1 hx with h | h
        · left; rw [h]
        · right; exact ⟨x, h, rfl⟩
      · split at hx
        · rcases List.mem_cons.1 hx with h | h
          · right; exact ⟨(k, v), List.mem_cons_self _ _, by rw [h]⟩
          · right; exact ⟨x, List.mem_cons_of_mem _ h, rfl⟩
        · rcases List.mem_cons.1 hx with h | h
          · right; exact ⟨(k, v), List.mem_cons_self _ _, by rw [h]⟩
          · rcases ih x h with h1 | ⟨z, hz, hzx⟩
            · left; exact h1
            · right; exact ⟨z, List.mem_cons_of_mem _ hz, hzx⟩

theorem sorted_increment (l : Char) :
    ∀ m : List (Char × Nat), m.Pairwise (fun a b => charValue a.1 < charValue b.1) →
      (increment l m).Pairwise (fun a b => charValue a.1 < charValue b.1) := by
  intro m
  induction m with
  | nil => intro _; simp [increment]
  | cons y rest ih =>
      intro hs
      obtain ⟨k, v⟩ := y
      have hs' := List.pairwise_cons.1 hs
      rw [increment]
      split
      · rename_i hlt
        refine List.pairwise_cons.2 ⟨?_, hs⟩
        intro x hx
        rcases List.mem_cons.1 hx with h | h
        · rw [h]; exact hlt
        · exact lt_trans hlt (hs'.1 x h)
      · split
        · exact List.pairwise_cons.2 ⟨hs'.1, hs'.2⟩
        · rename_i hnlt hne
          refine List.pairwise_cons.2 ⟨?_, ih hs'.2⟩
          intro x hx
          rcases mem_increment l rest x hx with h | ⟨z, hz, hzx⟩
          · rw [h]
            exact charValue_lt_of_not_lt l k hnlt hne
          · have := hs'.1 z hz
            rw [hzx] at this
            exact this

theorem lookup_increment (l c : Char) :
    ∀ m : List (Char × Nat), m.Pairwise (fun a b => charValue a.1 < charValue b.1) →
      (increment l m).lookup c =
        if c = l then some ((m.lookup l).getD 0 + 1) else m.lookup c := by
  intro m
  induction m with
  | nil =>
      intro _
      rw [increment, lookup_cons_eq]
      simp
  | cons y rest ih =>
      intro hs
      obtain ⟨k, v⟩ := y
      have hs' := List.pairwise_cons.1 hs
      rw [increment]
      split
      · rename_i hlt
        have hnone : ((k, v) :: rest).lookup l = none := by
          refine lookup_none_of_lt l _ ?_
          intro x hx
          rcases List.mem_cons.1 hx with h | h
          · rw [h]; exact hlt
          · exact lt_trans hlt (hs'.1 x h)
        rw [hnone, lookup_cons_eq c l]
        simp
      · split
        · rename_i hnlt heq
          subst heq
          rw [lookup_cons_eq c l, lookup_cons_eq l l, lookup_cons_eq c l]
          by_cases hc : c = l
          · simp [hc]
          · simp [hc]
        · rename_i hnlt hne
          rw [lookup_cons_eq c k, ih hs'.2, lookup_cons_eq l k, if_neg hne, lookup_cons_eq c k]
          by_cases hc : c = l
          · subst hc
            simp [hne]
          · simp [hc]

theorem pos_increment (l : Char) :
    ∀ m : List (Char × Nat), (∀ x ∈ m, 0 < x.2) → ∀ x ∈ increment l m, 0 < x.2 := by
  intro m
  induction m with
  | nil =>
      intro _ x hx
      simp only [increment, List.mem_singleton] at hx
      rw [hx]; exact Nat.one_pos
  | cons y rest ih =>
      intro hpos x hx
      obtain ⟨k, v⟩ := y
      rw [increment] at hx
      split at hx
      · rcases List.mem_cons.1 hx with h | h
        · rw [h]; exact Nat.one_pos
        · exact hpos x h
      · split at hx
        · rcases List.mem_cons.1 hx with h | h
          · rw [h]; exact Nat.succ_pos _
          · exact hpos x (List.mem_cons_of_mem _ h)
        · rcases List.mem_cons.1 hx with h | h
          · rw [h]; exact hpos (k, v) (List.mem_cons_self _ _)
          · exact ih (fun z hz => hpos z (List.mem_cons_of_mem _ hz)) x h

theorem lookup_pos (c : Char) :
    ∀ (m : List (Char × Nat)) (v : Nat), (∀ x ∈ m, 0 < x.2) → m.lookup c = some v → 0 < v := by
  intro m
  induction m with
  | nil => intro v _ h; simp [List.lookup] at h
  | cons y rest ih =>
      intro v hpos h
      obtain ⟨k, n⟩ := y
      rw [lookup_cons_eq] at h
      split at h
      · have hn : n = v := by simpa using h
        rw [← hn]; exact hpos (k, n) (List.mem_cons_self _ _)
      · exact ih v (fun z hz => hpos z (List.mem_cons_of_mem _ hz)) h

/-- Invariant of the counting loop: the table stays ordered with positive counts
and every count grows by the number of non-excluded occurrences read. -/
theorem tally_spec (E : List Char) :
    ∀ (letters : List Char) (m : List (Char × Nat)),
      m.Pairwise (fun a b => charValue a.1 < charValue b.1) → (∀ x ∈ m, 0 < x.2) →
      (letters.foldl (fun t l => if l ∈ E then t else increment l t) m).Pairwise
          (fun a b => charValue a.1 < charValue b.1) ∧
      (∀ x ∈ letters.foldl (fun t l => if l ∈ E then t else increment l t) m, 0 < x.2) ∧
      ∀ c : Char,
        ((letters.foldl (fun t l => if l ∈ E then t else increment l t) m).lookup c).getD 0 =
          (m.lookup c).getD 0 + if c ∈ E then 0 else letters.count c := by
  intro letters
  induction letters with
  | nil => intro m hs hp; exact ⟨hs, hp, fun c => by simp⟩
  | cons l ls ih =>
      intro m hs hp
      simp only [List.foldl_cons]
      by_cases hl : l ∈ E
      · rw [if_pos hl]
        obtain ⟨h1, h2, h3⟩ := ih m hs hp
        refine ⟨h1, h2, fun c => ?_⟩
        rw [h3 c]
        by_cases hc : c ∈ E
        · simp [hc]
        · have hne : l ≠ c := fun e => hc (e ▸ hl)
          simp [hc, List.count_cons, hne]
      · rw [if_neg hl]
        obtain ⟨h1, h2, h3⟩ := ih (increment l m) (sorted_increment l m hs) (pos_increment l m hp)
        refine ⟨h1, h2, fun c => ?_⟩
        rw [h3 c, lookup_increment l c m hs]
        by_cases hc : c = l
        · subst hc
          simp [hl, List.count_cons]
          omega
        · have hne : l ≠ c := fun e => hc e.symm
          by_cases hcE : c ∈ E
          · simp [hc, hcE]
          · simp [hc, hcE, List.count_cons, hne]

theorem count_flatten (c : Char) (W : List (List Char)) :
    W.flatten.count c = occurrences c W := by
  induction W with
  | nil => rfl
  | cons w ws ih => simp [occurrences, List.count_append] at ih ⊢; exact ih

/-- The table of `calculateLetterFrequencies`: ordered keys, positive counts, and
the count of a letter is its number of occurrences unless the letter is excluded. -/
theorem calculateLetterFrequencies_spec (W : List (List Char)) (E : List Char) :
    (calculateLetterFrequencies W E).Pairwise (fun a b => charValue a.1 < charValue b.1) ∧
    (∀ x ∈ calculateLetterFrequencies W E, 0 < x.2) ∧
    ∀ c : Char, ((calculateLetterFrequencies W E).lookup c).getD 0 =
      if c ∈ E then 0 else occurrences c W := by
  have h := tally_spec E W.flatten [] List.Pairwise.nil (fun x hx => absurd hx (List.not_mem_nil x))
  have e : calculateLetterFrequencies W E =
      W.flatten.foldl (fun t l => if l ∈ E then t else increment l t) [] :=
    tally_flatten E W []
  rw [e]
  refine ⟨h.1, h.2.1, fun c => ?_⟩
  rw [h.2.2 c, count_flatten]
  simp

theorem frequencyOf_eq (W : List (List Char)) (E : List Char) (c : Char) :
    frequencyOf (calculateLetterFrequencies W E) c =
      if c ∈ E ∨ occurrences c W = 0 then none else some (occurrences c W) := by
  obtain ⟨_, hpos, hcnt⟩ := calculateLetterFrequencies_spec W E
  have hc := hcnt c
  unfold frequencyOf
  cases hlk : (calculateLetterFrequencies W E).lookup c with
  | none =>
      rw [hlk] at hc
      simp only [Option.getD_none] at hc
      by_cases hE : c ∈ E
      · simp [hE]
      · rw [if_neg hE] at hc
        simp [hE, ← hc]
  | some v =>
      rw [hlk] at hc
      simp only [Option.getD_some] at hc
      have hv := lookup_pos c _ v hpos hlk
      by_cases hE : c ∈ E
      · rw [if_pos hE] at hc; omega
      · rw [if_neg hE] at hc
        have : occurrences c W ≠ 0 := by omega
        simp [hE, this, hc]

/-- C5 (letter statistics): in the table of `calculateLetterFrequencies W E` a letter
outside `E` that occurs in `W` is mapped to its total number of occurrences in the
words of `W`, a letter of `E` or a letter occurring in no word has no entry, and
the keys are strictly increasing in the order of the map, that of `charValue`
(each letter has at most one entry). -/
theorem calculateLetterFrequencies_counts (W : List (List Char)) (E : List Char) :
    (∀ c : Char, frequencyOf (calculateLetterFrequencies W E) c =
      if c ∈ E ∨ occurrences c W = 0 then none else some (occurrences c W)) ∧
    ((calculateLetterFrequencies W E).map Prod.fst).Pairwise
      (fun a b => charValue a < charValue b) := by
  refine ⟨fun c => frequencyOf_eq W E c, ?_⟩
  rw [List.pairwise_map]
  exact (calculateLetterFrequencies_spec W E).1

/-! ## The selection loop -/

/-- Invariant of the selection loop started from any pair `b`: either nothing beat
`b`, or the result is the first entry, in key order, holding the largest count. -/
theorem select_spec :
    ∀ (m : List (Char × Nat)) (b : Char × Nat), m.Pairwise (fun a b => charValue a.1 < charValue b.1) →
      (m.foldl (fun best pair => if pair.2 > best.2 then (pair.1, pair.2) else best) b = b ∧
          ∀ y ∈ m, y.2 ≤ b.2) ∨
      (m.foldl (fun best pair => if pair.2 > best.2 then (pair.1, pair.2) else best) b ∈ m ∧
        b.2 < (m.foldl (fun best pair => if pair.2 > best.2 then (pair.1, pair.2) else best) b).2 ∧
        (∀ y ∈ m,
          y.2 ≤ (m.foldl (fun best pair => if pair.2 > best.2 then (pair.1, pair.2) else best) b).2) ∧
        ∀ y ∈ m,
          y.2 = (m.foldl (fun best pair => if pair.2 > best.2 then (pair.1, pair.2) else best) b).2 →
          charValue (m.foldl (fun best pair => if pair.2 > best.2 then (pair.1, pair.2) else best) b).1 ≤
            charValue y.1) := by
  intro m
  induction m with
  | nil => intro b _; left; exact ⟨rfl, fun y hy => absurd hy (List.not_mem_nil y)⟩
  | cons x rest ih =>
      intro b hs
      have hs' := List.pairwise_cons.1 hs
      simp only [List.foldl_cons]
      by_cases hx : x.2 > b.2
      · rw [if_pos hx]
        have hxe : (x.1, x.2) = x := rfl
        rw [hxe]
        right
        rcases ih x hs'.2 with ⟨he, hle⟩ | ⟨hmem, hlt, hmax, hfirst⟩
        · rw [he]
          refine ⟨List.mem_cons_self _ _, hx, ?_, ?_⟩
          · intro y hy
            rcases List.mem_cons.1 hy with h | h
            · rw [h]
            · exact hle y h
          · intro y hy _
            rcases List.mem_cons.1 hy with h | h
            · rw [h]
            · exact le_of_lt (hs'.1 y h)
        · refine ⟨List.mem_cons_of_mem _ hmem, lt_trans hx hlt, ?_, ?_⟩
          · intro y hy
            rcases List.mem_cons.1 hy with h | h
            · rw [h]; exact le_of_lt hlt
            · exact hmax y h
          · intro y hy hy2
            rcases List.mem_cons.1 hy with h | h
            · rw [h] at hy2; omega
            · exact hfirst y h hy2
      · rw [if_neg hx]
        rcases ih b hs'.2 with ⟨he, hle⟩ | ⟨hmem, hlt, hmax, hfirst⟩
        · left
          refine ⟨he, ?_⟩
          intro y hy
          rcases List.mem_cons.1 hy with h | h
          · rw [h]; exact not_lt.1 hx
          · exact hle y h
        · right
          refine ⟨List.mem_cons_of_mem _ hmem, hlt, ?_, ?_⟩
          · intro y hy
            rcases List.mem_cons.1 hy with h | h
            · rw [h]; omega
            · exact hmax y h
          · intro y hy hy2
            rcases List.mem_cons.1 hy with h | h
            · rw [h] at hy2; omega
            · exact hfirst y h hy2

theorem mem_of_lookup (c : Char) :
    ∀ (m : List (Char × Nat)) (v : Nat), m.lookup c = some v → (c, v) ∈ m := by
  intro m
  induction m with
  | nil => intro v h; simp [List.lookup] at h
  | cons y rest ih =>
      intro v h
      obtain ⟨k, n⟩ := y
      rw [lookup_cons_eq] at h
      split at h
      · rename_i hck
        have hn : n = v := by simpa using h
        rw [hck, hn]; exact List.mem_cons_self _ _
      · exact List.mem_cons_of_mem _ (ih v h)

theorem lookup_of_mem (c : Char) (v : Nat) :
    ∀ m : List (Char × Nat), m.Pairwise (fun a b => charValue a.1 < charValue b.1) → (c, v) ∈ m →
      m.lookup c = some v := by
  intro m
  induction m with
  | nil => intro _ h; exact absurd h (List.not_mem_nil _)
  | cons y rest ih =>
      intro hs h
      obtain ⟨k, n⟩ := y
      have hs' := List.pairwise_cons.1 hs
      rw [lookup_cons_eq]
      rcases List.mem_cons.1 h with e | hr
      · have e1 : c = k := congrArg Prod.fst e
        have e2 : v = n := congrArg Prod.snd e
        rw [if_pos e1, e2]
      · have hlt : charValue k < charValue c := hs'.1 (c, v) hr
        rw [if_neg (ne_of_charValue_lt k c hlt).symm]
        exact ih hs'.2 hr

/-- What `selectLetter` returns on a table of `calculateLetterFrequencies` that is
not empty: an entry of the table, maximal in count and first in key order among
the maximal ones. -/
theorem selectLetter_spec (W : List (List Char)) (E : List Char)
    (h : calculateLetterFrequencies W E ≠ []) :
    selectLetter (calculateLetterFrequencies W E) ∈ calculateLetterFrequencies W E ∧
    (∀ y ∈ calculateLetterFrequencies W E,
      y.2 ≤ (selectLetter (calculateLetterFrequencies W E)).2 ∧
      (y.2 = (selectLetter (calculateLetterFrequencies W E)).2 →
        charValue (selectLetter (calculateLetterFrequencies W E)).1 ≤
          charValue y.1)) := by
  obtain ⟨hs, hpos, _⟩ := calculateLetterFrequencies_spec W E
  rcases select_spec (calculateLetterFrequencies W E) (Char.ofNat 0, 0) hs with
    ⟨_, hle⟩ | ⟨hmem, _, hmax, hfirst⟩
  · exfalso
    cases ht : calculateLetterFrequencies W E with
    | nil => exact h ht
    | cons x rest =>
        have hx : x ∈ calculateLetterFrequencies W E := by rw [ht]; exact List.mem_cons_self _ _
        have h1 := hpos x hx
        have h2 := hle x hx
        simp only at h2
        omega
  · exact ⟨hmem, fun y hy => ⟨hmax y hy, hfirst y hy⟩⟩

/-- The selection loop never invents a letter: its result is the initial NUL or a
key of the table. -/
theorem selectLetter_key (W : List (List Char)) (E : List Char)
    (h : (selectLetter (calculateLetterFrequencies W E)).1 ≠ Char.ofNat 0) :
    selectLetter (calculateLetterFrequencies W E) ∈ calculateLetterFrequencies W E := by
  obtain ⟨hs, _, _⟩ := calculateLetterFrequencies_spec W E
  rcases select_spec (calculateLetterFrequencies W E) (Char.ofNat 0, 0) hs with
    ⟨he, _⟩ | ⟨hmem, _, _, _⟩
  · exfalso
    apply h
    unfold selectLetter
    rw [he]
  · exact hmem

/-- What a pass of the loop that asks a letter did. -/
theorem iteration_asked (maxQuestions penalty : Nat) (secretWord : List Char) (s : Session)
    (response : String) (c : Char) (s' : Session)
    (h : iteration maxQuestions penalty secretWord s response = .asked c s') :
    c = (selectLetter (calculateLetterFrequencies
          (filterWords s.possibleWords s.guessedWord s.guessedLetters) s.guessedLetters)).1 ∧
    c ≠ Char.ofNat 0 ∧
    s'.guessedLetters = s.guessedLetters.insert c ∧
    s'.possibleWords = filterWords s.possibleWords s.guessedWord s.guessedLetters ∧
    filterWords s.possibleWords s.guessedWord s.guessedLetters ≠ [] ∧
    s.questionsAsked < maxQuestions ∧ s.guessedWord ≠ secretWord := by
  unfold iteration at h
  split at h
  · rename_i hcond
    simp only at h
    split at h
    · exact absurd h (by simp)
    · rename_i hne
      split at h
      · exact absurd h (by simp)
      · rename_i hnul
        split at h
        · injection h with h1 h2
          subst h1; subst h2
          exact ⟨rfl, hnul, rfl, rfl, hne, hcond.1, hcond.2⟩
        · split at h
          · injection h with h1 h2
            subst h1; subst h2
            exact ⟨rfl, hnul, rfl, rfl, hne, hcond.1, hcond.2⟩
          · injection h with h1 h2
            subst h1; subst h2
            exact ⟨rfl, hnul, rfl, rfl, hne, hcond.1, hcond.2⟩
  · exact absurd h (by simp)

/-- A letter returned by the selection loop on a table of
`calculateLetterFrequencies` is not excluded and occurs in the words counted. -/
theorem selectLetter_fresh (W : List (List Char)) (E : List Char)
    (h : (selectLetter (calculateLetterFrequencies W E)).1 ≠ Char.ofNat 0) :
    (selectLetter (calculateLetterFrequencies W E)).1 ∉ E ∧
    0 < occurrences (selectLetter (calculateLetterFrequencies W E)).1 W := by
  obtain ⟨hs, _, _⟩ := calculateLetterFrequencies_spec W E
  have hl : (calculateLetterFrequencies W E).lookup (selectLetter (calculateLetterFrequencies W E)).1
      = some (selectLetter (calculateLetterFrequencies W E)).2 :=
    lookup_of_mem (selectLetter (calculateLetterFrequencies W E)).1
      (selectLetter (calculateLetterFrequencies W E)).2 _ hs (selectLetter_key W E h)
  have hf := frequencyOf_eq W E (selectLetter (calculateLetterFrequencies W E)).1
  unfold frequencyOf at hf
  rw [hl] at hf
  by_cases hE : (selectLetter (calculateLetterFrequencies W E)).1 ∈ E
  · simp [hE] at hf
  · refine ⟨hE, ?_⟩
    by_contra h0
    have h1 : occurrences (selectLetter (calculateLetterFrequencies W E)).1 W = 0 := by omega
    simp [h1] at hf

/-- The letter asked by a pass of the loop is untried and occurs in a candidate. -/
theorem iteration_asked_fresh (maxQuestions penalty : Nat) (secretWord : List Char)
    (s : Session) (response : String) (c : Char) (s' : Session)
    (h : iteration maxQuestions penalty secretWord s response = .asked c s') :
    c ∉ s.guessedLetters ∧
    0 < occurrences c (filterWords s.possibleWords s.guessedWord s.guessedLetters) := by
  obtain ⟨hc, hnul, _, _, _, _, _⟩ := iteration_asked _ _ _ _ _ _ _ h
  rw [hc] at hnul
  rw [hc]
  exact selectLetter_fresh _ _ hnul

/-- C6 (information-gain selection): on a non-empty table built by
`calculateLetterFrequencies` the selection loop returns a letter of the table with
its count; that count is at least the count of every entry, and at least the
number of occurrences of every untried letter; among the letters with that count
the returned one is the first in the order of the map, which is the order of the
`char` values (`charValue`: the bytes 128 to 255 are negative and come first) and,
when the returned letter and the other one are 7-bit characters, the order of the
characters; and a pass of any of the three loops that asks a letter asks this
one. -/
theorem selectLetter_most_frequent (W : List (List Char)) (E : List Char)
    (h : calculateLetterFrequencies W E ≠ []) :
    frequencyOf (calculateLetterFrequencies W E) (selectLetter (calculateLetterFrequencies W E)).1
      = some (selectLetter (calculateLetterFrequencies W E)).2 ∧
    (∀ (d : Char) (n : Nat), frequencyOf (calculateLetterFrequencies W E) d = some n →
      n ≤ (selectLetter (calculateLetterFrequencies W E)).2 ∧
      (n = (selectLetter (calculateLetterFrequencies W E)).2 →
        charValue (selectLetter (calculateLetterFrequencies W E)).1 ≤
          charValue d)) ∧
    (∀ d : Char, d ∉ E →
      occurrences d W ≤ occurrences (selectLetter (calculateLetterFrequencies W E)).1 W ∧
      (occurrences d W = occurrences (selectLetter (calculateLetterFrequencies W E)).1 W →
        charValue (selectLetter (calculateLetterFrequencies W E)).1 ≤
          charValue d)) ∧
    (∀ d : Char, d ∉ E →
      (selectLetter (calculateLetterFrequencies W E)).1.toNat < 128 → d.toNat < 128 →
      occurrences d W = occurrences (selectLetter (calculateLetterFrequencies W E)).1 W →
      (selectLetter (calculateLetterFrequencies W E)).1 ≤ d) ∧
    (∀ (maxQuestions penalty : Nat) (secretWord : List Char) (s : Session) (response : String)
        (c : Char) (s' : Session),
      W = filterWords s.possibleWords s.guessedWord s.guessedLetters → E = s.guessedLetters →
      iteration maxQuestions penalty secretWord s response = .asked c s' →
      c = (selectLetter (calculateLetterFrequencies W E)).1) := by
  obtain ⟨hs, hpos, _⟩ := calculateLetterFrequencies_spec W E
  obtain ⟨hmem, hmax⟩ := selectLetter_spec W E h
  have hl : frequencyOf (calculateLetterFrequencies W E)
      (selectLetter (calculateLetterFrequencies W E)).1
      = some (selectLetter (calculateLetterFrequencies W E)).2 :=
    lookup_of_mem (selectLetter (calculateLetterFrequencies W E)).1
      (selectLetter (calculateLetterFrequencies W E)).2 _ hs hmem
  have htab : ∀ (d : Char) (n : Nat), frequencyOf (calculateLetterFrequencies W E) d = some n →
      n ≤ (selectLetter (calculateLetterFrequencies W E)).2 ∧
      (n = (selectLetter (calculateLetterFrequencies W E)).2 →
        charValue (selectLetter (calculateLetterFrequencies W E)).1 ≤
          charValue d) := by
    intro d n hd
    exact hmax (d, n) (mem_of_lookup d _ n hd)
  have hposSel : 0 < (selectLetter (calculateLetterFrequencies W E)).2 := hpos _ hmem
  have hocc : (selectLetter (calculateLetterFrequencies W E)).2 =
      occurrences (selectLetter (calculateLetterFrequencies W E)).1 W := by
    have hf := frequencyOf_eq W E (selectLetter (calculateLetterFrequencies W E)).1
    rw [hl] at hf
    split at hf
    · exact absurd hf (by simp)
    · exact Option.some.inj hf
  have hun : ∀ d : Char, d ∉ E →
      occurrences d W ≤ occurrences (selectLetter (calculateLetterFrequencies W E)).1 W ∧
      (occurrences d W = occurrences (selectLetter (calculateLetterFrequencies W E)).1 W →
        charValue (selectLetter (calculateLetterFrequencies W E)).1 ≤
          charValue d) := by
    intro d hd
    rw [← hocc]
    by_cases h0 : occurrences d W = 0
    · rw [h0]
      exact ⟨Nat.zero_le _, fun e => by omega⟩
    · have hf := frequencyOf_eq W E d
      rw [if_neg (by simp [hd, h0])] at hf
      exact htab d _ hf
  refine ⟨hl, htab, hun, ?_, ?_⟩
  · intro d hd hsel hd7 he
    exact (charValue_le_iff _ d hsel hd7).1 ((hun d hd).2 he)
  · intro maxQuestions penalty secretWord s response c s' hW hE hit
    rw [hW, hE]
    exact (iteration_asked _ _ _ _ _ _ _ hit).1

/-- Witness of C6 on the candidates cat, car, can with nothing tried: the letter
selected is a, with count 3. -/
theorem selectLetter_most_frequent_witness :
    calculateLetterFrequencies ["cat".toList, "car".toList, "can".toList] [] ≠ [] ∧
    selectLetter (calculateLetterFrequencies ["cat".toList, "car".toList, "can".toList] [])
      = ('a', 3) ∧
    frequencyOf (calculateLetterFrequencies ["cat".toList, "car".toList, "can".toList] [])
        (selectLetter
          (calculateLetterFrequencies ["cat".toList, "car".toList, "can".toList] [])).1
      = some (selectLetter
          (calculateLetterFrequencies ["cat".toList, "car".toList, "can".toList] [])).2 :=
  ⟨by decide, by decide,
    (selectLetter_most_frequent ["cat".toList, "car".toList, "can".toList] [] (by decide)).1⟩

/-- A byte beyond 127 comes before the 7-bit characters in the map: on the single
candidate made of the byte 233 and the letter a, both counted once, the byte 233
is selected, and it is the first letter `aiGuessing` asks about. -/
theorem selectLetter_high_byte :
    charValue (Char.ofNat 233) = -23 ∧
    calculateLetterFrequencies [[Char.ofNat 233, 'a']] [] = [(Char.ofNat 233, 1), ('a', 1)] ∧
    selectLetter (calculateLetterFrequencies [[Char.ofNat 233, 'a']] []) = (Char.ofNat 233, 1) ∧
    ((aiGuessing [Char.ofNat 233, 'a'] [[Char.ofNat 233, 'a']] ["yes", "yes"]).prompts.map
      Prompt.guessedLetter) = [Char.ofNat 233, 'a'] := by
  decide

/-! ## Rounds -/

/-- Along any run of the loop, each letter is untried when it is asked, the tried
letters at that moment include those of the start, and no letter is asked twice. -/
theorem runLoop_fresh (maxQuestions penalty : Nat) (eof : String) (secretWord : List Char) :
    ∀ (fuel : Nat) (s : Session) (responses : List String),
      (∀ p ∈ (runLoop maxQuestions penalty eof secretWord fuel s responses).prompts,
        p.guessedLetter ∉ p.before.guessedLetters ∧
        s.guessedLetters ⊆ p.before.guessedLetters) ∧
      ((runLoop maxQuestions penalty eof secretWord fuel s responses).prompts.map
        Prompt.guessedLetter).Nodup := by
  intro fuel
  induction fuel with
  | zero =>
      intro s responses
      simp [runLoop]
  | succ n ih =>
      intro s responses
      rw [runLoop]
      cases hit : iteration maxQuestions penalty secretWord s (responses.headD eof) with
      | stop e s' => simp
      | asked c s' =>
          obtain ⟨hfresh, _⟩ := iteration_asked_fresh _ _ _ _ _ _ _ hit
          obtain ⟨_, _, hins, _⟩ := iteration_asked _ _ _ _ _ _ _ hit
          obtain ⟨ih1, ih2⟩ := ih s' responses.tail
          have hsub : s.guessedLetters ⊆ s'.guessedLetters := by
            intro x hx
            rw [hins]
            exact List.mem_insert_of_mem hx
          have hc : c ∈ s'.guessedLetters := by
            rw [hins]
            exact List.mem_insert_self c _
          simp only [List.map_cons, List.nodup_cons, List.mem_cons, List.mem_map]
          refine ⟨?_, ?_, ih2⟩
          · intro p hp
            rcases hp with hp | hp
            · subst hp
              exact ⟨hfresh, fun x hx => hx⟩
            · exact ⟨(ih1 p hp).1, fun x hx => (ih1 p hp).2 (hsub hx)⟩
          · rintro ⟨p, hp, hpc⟩
            exact (ih1 p hp).1 ((ih1 p hp).2 (hpc ▸ hc))

/-- A pass of the loop never reports `outOfFuel`. -/
theorem iteration_stop (maxQuestions penalty : Nat) (secretWord : List Char) (s : Session)
    (response : String) (e : Exit) (s' : Session)
    (h : iteration maxQuestions penalty secretWord s response = .stop e s') :
    e ≠ Exit.outOfFuel := by
  unfold iteration at h
  split at h
  · simp only at h
    split at h
    · injection h with h1 h2
      rw [← h1]; simp
    · split at h
      · injection h with h1 h2
        rw [← h1]; simp
      · split at h
        · exact absurd h (by simp)
        · split at h
          · exact absurd h (by simp)
          · exact absurd h (by simp)
  · injection h with h1 h2
    rw [← h1]; simp

/-- A pass that asks a letter uses up one of the untried letters of the candidates. -/
theorem iteration_asked_measure (maxQuestions penalty : Nat) (secretWord : List Char)
    (s : Session) (response : String) (c : Char) (s' : Session)
    (h : iteration maxQuestions penalty secretWord s response = .asked c s') :
    (s'.possibleWords.flatten.toFinset \ s'.guessedLetters.toFinset).card <
      (s.possibleWords.flatten.toFinset \ s.guessedLetters.toFinset).card := by
  obtain ⟨hfresh, hocc⟩ := iteration_asked_fresh _ _ _ _ _ _ _ h
  obtain ⟨_, _, hins, hpw, _⟩ := iteration_asked _ _ _ _ _ _ _ h
  have hflat : ∀ x, x ∈ s'.possibleWords.flatten → x ∈ s.possibleWords.flatten := by
    intro x hx
    rw [hpw] at hx
    obtain ⟨w, hw, hxw⟩ := List.mem_flatten.1 hx
    exact List.mem_flatten.2 ⟨w, ((mem_filterWords _ _ _ _).1 hw).1, hxw⟩
  have hcmem : c ∈ s'.possibleWords.flatten := by
    rw [hpw, ← List.count_pos_iff, count_flatten]
    exact hocc
  apply Finset.card_lt_card
  refine (Finset.ssubset_iff_of_subset ?_).2 ⟨c, ?_, ?_⟩
  · intro x hx
    simp only [Finset.mem_sdiff, List.mem_toFinset] at hx ⊢
    refine ⟨hflat x hx.1, fun hxs => hx.2 ?_⟩
    rw [hins]
    exact List.mem_insert_of_mem hxs
  · simp only [Finset.mem_sdiff, List.mem_toFinset]
    exact ⟨hflat c hcmem, hfresh⟩
  · simp only [Finset.mem_sdiff, List.mem_toFinset, not_and, not_not]
    intro _
    rw [hins]
    exact List.mem_insert_self c _

/-- The loop is left by the program itself as soon as the number of passes allowed
exceeds the number of untried letters of the candidates. -/
theorem runLoop_terminates (maxQuestions penalty : Nat) (eof : String)
    (secretWord : List Char) :
    ∀ (fuel : Nat) (s : Session) (responses : List String),
      (s.possibleWords.flatten.toFinset \ s.guessedLetters.toFinset).card < fuel →
      (runLoop maxQuestions penalty eof secretWord fuel s responses).exit ≠ Exit.outOfFuel := by
  intro fuel
  induction fuel with
  | zero => intro s responses h; exact absurd h (Nat.not_lt_zero _)
  | succ n ih =>
      intro s responses hfuel
      rw [runLoop]
      cases hit : iteration maxQuestions penalty secretWord s (responses.headD eof) with
      | stop e s' => exact iteration_stop _ _ _ _ _ _ _ hit
      | asked c s' =>
          have hlt := iteration_asked_measure _ _ _ _ _ _ _ hit
          exact ih s' responses.tail (by omega)

/-- Passes allowed beyond the point where the loop is left change nothing. -/
theorem runLoop_fuel_stable (maxQuestions penalty : Nat) (eof : String)
    (secretWord : List Char) :
    ∀ (fuel : Nat) (s : Session) (responses : List String),
      (runLoop maxQuestions penalty eof secretWord fuel s responses).exit ≠ Exit.outOfFuel →
      ∀ more : Nat, runLoop maxQuestions penalty eof secretWord (fuel + more) s responses =
        runLoop maxQuestions penalty eof secretWord fuel s responses := by
  intro fuel
  induction fuel with
  | zero => intro s responses h; exact absurd rfl h
  | succ n ih =>
      intro s responses h more
      have e : n + 1 + more = (n + more) + 1 := by omega
      rw [e, runLoop, runLoop]
      rw [runLoop] at h
      cases hit : iteration maxQuestions penalty secretWord s (responses.headD eof) with
      | stop e s' => rfl
      | asked c s' =>
          rw [hit] at h
          simp only at h ⊢
          rw [ih s' responses.tail h more]

/-- The number of passes given to the three guessing functions is never used up. -/
theorem enoughFuel_spec (maxQuestions penalty : Nat) (eof : String) (secretWord : List Char)
    (dictionary : List (List Char)) (responses : List String) :
    (runLoop maxQuestions penalty eof secretWord (enoughFuel dictionary)
      (startSession secretWord dictionary) responses).exit ≠ Exit.outOfFuel := by
  apply runLoop_terminates
  unfold enoughFuel startSession
  simp only [List.toFinset_nil, Finset.sdiff_empty]
  exact Nat.lt_succ_of_le (List.toFinset_card_le _)

/-- C7 (no letter is proposed twice): in `aiGuessing`, `aiGuessingWithEnhancements`
and `challengingMode`, for every secret, dictionary and list of responses (valid or
not), the round runs to an exit of the program, each letter asked is not among the
tried letters at the moment it is asked, and the letters asked in a round are
pairwise distinct. -/
theorem proposed_letter_untried (secretWord : List Char) (dictionary : List (List Char))
    (responses : List String) :
    ((aiGuessing secretWord dictionary responses).exit ≠ Exit.outOfFuel ∧
      (∀ p ∈ (aiGuessing secretWord dictionary responses).prompts,
        p.guessedLetter ∉ p.before.guessedLetters) ∧
      ((aiGuessing secretWord dictionary responses).prompts.map Prompt.guessedLetter).Nodup) ∧
    ((aiGuessingWithEnhancements secretWord dictionary responses).exit ≠ Exit.outOfFuel ∧
      (∀ p ∈ (aiGuessingWithEnhancements secretWord dictionary responses).prompts,
        p.guessedLetter ∉ p.before.guessedLetters) ∧
      ((aiGuessingWithEnhancements secretWord dictionary responses).prompts.map
        Prompt.guessedLetter).Nodup) ∧
    ((challengingMode secretWord dictionary responses).exit ≠ Exit.outOfFuel ∧
      (∀ p ∈ (challengingMode secretWord dictionary responses).prompts,
        p.guessedLetter ∉ p.before.guessedLetters) ∧
      ((challengingMode secretWord dictionary responses).prompts.map
        Prompt.guessedLetter).Nodup) := by
  refine ⟨?_, ?_, ?_⟩
  · obtain ⟨h1, h2⟩ := runLoop_fresh 20 0 "" secretWord (enoughFuel dictionary)
      (startSession secretWord dictionary) responses
    exact ⟨enoughFuel_spec 20 0 "" secretWord dictionary responses,
      fun p hp => (h1 p hp).1, h2⟩
  · obtain ⟨h1, h2⟩ := runLoop_fresh 20 0 "no" secretWord (enoughFuel dictionary)
      (startSession secretWord dictionary) responses
    exact ⟨enoughFuel_spec 20 0 "no" secretWord dictionary responses,
      fun p hp => (h1 p hp).1, h2⟩
  · obtain ⟨h1, h2⟩ := runLoop_fresh 10 2 "no" secretWord (enoughFuel dictionary)
      (startSession secretWord dictionary) responses
    exact ⟨enoughFuel_spec 10 2 "no" secretWord dictionary responses,
      fun p hp => (h1 p hp).1, h2⟩

/-- C8 (worked example): on the corpus cat, car, can with secret car and the
answers yes, yes, no, yes, `aiGuessing` asks a, c, n, r in that order; the pattern
goes from `___` to `_a_`, `ca_`, `ca_`, `car`; the candidate list the fourth letter
is chosen from, after the "no", is cat, car; the loop is left by its condition with
the word guessed and four questions counted. -/
theorem worked_example_car :
    (aiGuessing "car".toList ["cat".toList, "car".toList, "can".toList]
        ["yes", "yes", "no", "yes"]).prompts.map Prompt.guessedLetter = ['a', 'c', 'n', 'r'] ∧
    (aiGuessing "car".toList ["cat".toList, "car".toList, "can".toList]
        ["yes", "yes", "no", "yes"]).prompts.map (fun p => p.response)
      = ["yes", "yes", "no", "yes"] ∧
    (startSession "car".toList ["cat".toList, "car".toList, "can".toList]).guessedWord
      = "___".toList ∧
    (aiGuessing "car".toList ["cat".toList, "car".toList, "can".toList]
        ["yes", "yes", "no", "yes"]).prompts.map (fun p => p.after.guessedWord)
      = ["_a_".toList, "ca_".toList, "ca_".toList, "car".toList] ∧
    (aiGuessing "car".toList ["cat".toList, "car".toList, "can".toList]
        ["yes", "yes", "no", "yes"]).prompts.map (fun p => p.after.possibleWords)
      = [["cat".toList, "car".toList, "can".toList], ["cat".toList, "car".toList, "can".toList],
         ["cat".toList, "car".toList, "can".toList], ["cat".toList, "car".toList]] ∧
    (aiGuessing "car".toList ["cat".toList, "car".toList, "can".toList]
        ["yes", "yes", "no", "yes"]).exit = Exit.loopCondition ∧
    solved "car".toList (aiGuessing "car".toList ["cat".toList, "car".toList, "can".toList]
        ["yes", "yes", "no", "yes"]) = true ∧
    (aiGuessing "car".toList ["cat".toList, "car".toList, "can".toList]
        ["yes", "yes", "no", "yes"]).final.questionsAsked = 4 := by
  decide

/-- C9 (challenging-mode penalty): `challengingMode` is the loop with budget 10
started with the counter at 0, and the loop is left once the counter reaches 10;
a pass that asks a letter and reads "no" adds exactly 3 to the counter, one that
reads "yes" adds exactly 1; after a first answer "no" the counter is 3 and the
remaining count `10 - questionsAsked` is 7. -/
theorem challengingMode_penalty :
    (∀ (secretWord : List Char) (dictionary : List (List Char)) (responses : List String),
      challengingMode secretWord dictionary responses =
        runLoop 10 2 "no" secretWord (enoughFuel dictionary)
          (startSession secretWord dictionary) responses ∧
      (startSession secretWord dictionary).questionsAsked = 0) ∧
    (∀ (secretWord : List Char) (s : Session) (response : String),
      10 ≤ s.questionsAsked →
      iteration 10 2 secretWord s response = .stop .loopCondition s) ∧
    (∀ (secretWord : List Char) (s : Session) (c : Char) (s' : Session),
      iteration 10 2 secretWord s "no" = .asked c s' →
      s'.questionsAsked = s.questionsAsked + 3) ∧
    (∀ (secretWord : List Char) (s : Session) (c : Char) (s' : Session),
      iteration 10 2 secretWord s "yes" = .asked c s' →
      s'.questionsAsked = s.questionsAsked + 1) ∧
    (∀ (secretWord : List Char) (dictionary : List (List Char)) (responses : List String)
        (p : Prompt),
      (challengingMode secretWord dictionary ("no" :: responses)).prompts.head? = some p →
      p.response = "no" ∧ p.after.questionsAsked = 3 ∧ 10 - p.after.questionsAsked = 7) := by
  have hno : ∀ (secretWord : List Char) (s : Session) (c : Char) (s' : Session),
      iteration 10 2 secretWord s "no" = .asked c s' →
      s'.questionsAsked = s.questionsAsked + 3 := by
    intro secretWord s c s' h
    unfold iteration at h
    split at h
    · simp only at h
      split at h
      · exact absurd h (by simp)
      · split at h
        · exact absurd h (by simp)
        · rw [if_neg (by decide), if_neg (by decide)] at h
          injection h with h1 h2
          subst h2
          rfl
    · exact absurd h (by simp)
  refine ⟨fun _ _ _ => ⟨rfl, rfl⟩, ?_, hno, ?_, ?_⟩
  · intro secretWord s response hs
    unfold iteration
    rw [if_neg]
    intro h
    omega
  · intro secretWord s c s' h
    unfold iteration at h
    split at h
    · simp only at h
      split at h
      · exact absurd h (by simp)
      · split at h
        · exact absurd h (by simp)
        · rw [if_neg (by decide), if_pos trivial] at h
          injection h with h1 h2
          subst h2
          rfl
    · exact absurd h (by simp)
  · intro secretWord dictionary responses p hp
    unfold challengingMode enoughFuel at hp
    rw [runLoop] at hp
    simp only [List.headD_cons, List.tail_cons] at hp
    cases hit : iteration 10 2 secretWord (startSession secretWord dictionary) "no" with
    | stop e s' =>
        rw [hit] at hp
        simp at hp
    | asked c s' =>
        rw [hit] at hp
        simp only [List.head?_cons, Option.some.injEq] at hp
        subst hp
        have := hno secretWord _ c s' hit
        simp only [startSession] at this
        simp [this]

/-- Witness of C9: with the corpus dog and secret dog, a first answer "no" in
`challengingMode` leaves the counter at 3, that is 7 remaining. -/
theorem challengingMode_penalty_witness :
    (challengingMode "dog".toList ["dog".toList] ["no"]).prompts.map
        (fun p => (p.guessedLetter, p.response, p.after.questionsAsked, 10 - p.after.questionsAsked))
      = [('d', "no", 3, 7)] ∧
    (iteration 10 2 "dog".toList (startSession "dog".toList ["dog".toList]) "no"
        = .asked 'd' ⟨['d'], "___".toList, 3, ["dog".toList]⟩ →
      (3 : Nat) = (startSession "dog".toList ["dog".toList]).questionsAsked + 3) :=
  ⟨by decide, fun h => challengingMode_penalty.2.2.1 "dog".toList
    (startSession "dog".toList ["dog".toList]) 'd' ⟨['d'], "___".toList, 3, ["dog".toList]⟩ h⟩

/-- C10 (exhausted scenario): on the corpus dog with secret dog and a first answer
"no" (whatever is typed afterwards), `aiGuessing` asks d and nothing else, the next
filter pass gives the empty candidate list and the loop is left through the
empty-candidate `break`, with the counter at 1, below the budget 20, and the
pattern still `___`, which is not the secret. -/
theorem exhausted_scenario_dog (rest : List String) :
    (aiGuessing "dog".toList ["dog".toList] ("no" :: rest)).prompts.map Prompt.guessedLetter
      = ['d'] ∧
    (aiGuessing "dog".toList ["dog".toList] ("no" :: rest)).final.possibleWords = [] ∧
    (aiGuessing "dog".toList ["dog".toList] ("no" :: rest)).exit = Exit.noWords ∧
    (aiGuessing "dog".toList ["dog".toList] ("no" :: rest)).final.questionsAsked = 1 ∧
    (aiGuessing "dog".toList ["dog".toList] ("no" :: rest)).final.questionsAsked < 20 ∧
    (aiGuessing "dog".toList ["dog".toList] ("no" :: rest)).final.guessedWord = "___".toList ∧
    solved "dog".toList (aiGuessing "dog".toList ["dog".toList] ("no" :: rest)) = false := by
  have hq : (aiGuessing "dog".toList ["dog".toList] ("no" :: rest)).final.questionsAsked = 1 :=
    rfl
  refine ⟨rfl, rfl, rfl, hq, ?_, rfl, rfl⟩
  rw [hq]
  decide

/-- The exhausted scenario in the two other loops: `aiGuessingWithEnhancements`
behaves as `aiGuessing`; `challengingMode` leaves through the same `break`, the
"no" having counted three questions, still below its budget 10. -/
theorem exhausted_scenario_dog_variants (rest : List String) :
    (aiGuessingWithEnhancements "dog".toList ["dog".toList] ("no" :: rest)).exit
      = Exit.noWords ∧
    (aiGuessingWithEnhancements "dog".toList ["dog".toList]
      ("no" :: rest)).final.questionsAsked = 1 ∧
    (challengingMode "dog".toList ["dog".toList] ("no" :: rest)).prompts.map
      Prompt.guessedLetter = ['d'] ∧
    (challengingMode "dog".toList ["dog".toList] ("no" :: rest)).exit = Exit.noWords ∧
    (challengingMode "dog".toList ["dog".toList] ("no" :: rest)).final.questionsAsked = 3 :=
  ⟨rfl, rfl, rfl, rfl, rfl⟩

/-! ## Passes of the letter loops -/

theorem runLoop_eq_runLetters (maxQuestions penalty : Nat) (eof : String)
    (secretWord : List Char) :
    ∀ (fuel : Nat) (s : Session) (responses : List String),
      runLoop maxQuestions penalty eof secretWord fuel s responses =
        runLetters (iteration maxQuestions penalty secretWord) eof fuel s responses := by
  intro fuel
  induction fuel with
  | zero => intro s responses; rfl
  | succ n ih =>
      intro s responses
      rw [runLoop, runLetters]
      cases iteration maxQuestions penalty secretWord s (responses.headD eof) with
      | stop e s' => rfl
      | asked c s' => simp only [ih]

theorem iteration_pass (maxQuestions penalty : Nat) (secretWord : List Char) (s : Session)
    (response : String) (c : Char) (s' : Session)
    (h : iteration maxQuestions penalty secretWord s response = .asked c s') :
    LetterPass maxQuestions penalty secretWord s c response s' := by
  unfold iteration at h
  split at h
  · rename_i hcond
    simp only at h
    split at h
    · exact absurd h (by simp)
    · split at h
      · exact absurd h (by simp)
      · by_cases hy : response = "yes"
        · subst hy
          rw [if_neg (by decide), if_pos rfl] at h
          injection h with h1 h2
          subst h1; subst h2
          exact ⟨hcond.1, hcond.2, fun x hx => List.mem_insert_of_mem hx, by simp, by simp⟩
        · by_cases hn : response = "no"
          · subst hn
            rw [if_neg (by decide), if_neg (by decide)] at h
            injection h with h1 h2
            subst h1; subst h2
            exact ⟨hcond.1, hcond.2, fun x hx => List.mem_insert_of_mem hx, by simp, by simp⟩
          · rw [if_pos ⟨hy, hn⟩] at h
            injection h with h1 h2
            subst h1; subst h2
            exact ⟨hcond.1, hcond.2, fun x hx => List.mem_insert_of_mem hx,
              by simp [hy], by simp [hy, hn]⟩
  · exact absurd h (by simp)

theorem sequentialIteration_pass (maxQuestions : Nat) (secretWord : List Char) (s : Session)
    (response : String) (c : Char) (s' : Session)
    (h : sequentialIteration maxQuestions secretWord s response = .asked c s') :
    LetterPass maxQuestions 0 secretWord s c response s' := by
  unfold sequentialIteration at h
  split at h
  · rename_i hcond
    simp only at h
    by_cases hy : response = "yes"
    · subst hy
      rw [if_neg (by decide), if_pos rfl] at h
      injection h with h1 h2
      subst h1; subst h2
      exact ⟨hcond.1, hcond.2, fun x hx => hx, by simp, by simp⟩
    · by_cases hn : response = "no"
      · subst hn
        rw [if_neg (by decide), if_neg (by decide)] at h
        injection h with h1 h2
        subst h1; subst h2
        exact ⟨hcond.1, hcond.2, fun x hx => hx, by simp, by simp⟩
      · rw [if_pos ⟨hy, hn⟩] at h
        injection h with h1 h2
        subst h1; subst h2
        exact ⟨hcond.1, hcond.2, fun x hx => hx, by simp [hy], by simp [hy, hn]⟩
  · exact absurd h (by simp)

theorem nextUnguessed_subset (alphabet T : List Char) :
    T ⊆ (nextUnguessed alphabet T).2 := by
  unfold nextUnguessed
  split
  · exact fun x hx => List.mem_insert_of_mem hx
  · exact fun x hx => hx

theorem scanIteration_pass (alphabet : List Char) (maxQuestions : Nat)
    (secretWord : List Char) (s : Session) (response : String) (c : Char) (s' : Session)
    (h : scanIteration alphabet maxQuestions secretWord s response = .asked c s') :
    LetterPass maxQuestions 0 secretWord s c response s' := by
  have hsub := nextUnguessed_subset alphabet s.guessedLetters
  unfold scanIteration at h
  split at h
  · rename_i hcond
    simp only at h
    split at h
    · exact absurd h (by simp)
    · by_cases hy : response = "yes"
      · subst hy
        rw [if_neg (by decide), if_pos rfl] at h
        injection h with h1 h2
        subst h1; subst h2
        exact ⟨hcond.1, hcond.2, hsub, by simp, by simp⟩
      · by_cases hn : response = "no"
        · subst hn
          rw [if_neg (by decide), if_neg (by decide)] at h
          injection h with h1 h2
          subst h1; subst h2
          exact ⟨hcond.1, hcond.2, hsub, by simp, by simp⟩
        · rw [if_pos ⟨hy, hn⟩] at h
          injection h with h1 h2
          subst h1; subst h2
          exact ⟨hcond.1, hcond.2, hsub, by simp [hy], by simp [hy, hn]⟩
  · exact absurd h (by simp)

theorem iteration_stop_keeps (maxQuestions penalty : Nat) (secretWord : List Char)
    (s : Session) (response : String) (e : Exit) (s' : Session)
    (h : iteration maxQuestions penalty secretWord s response = .stop e s') :
    s'.guessedWord = s.guessedWord ∧ s'.questionsAsked = s.questionsAsked ∧
    s'.guessedLetters = s.guessedLetters := by
  unfold iteration at h
  split at h
  · simp only at h
    split at h
    · injection h with h1 h2
      subst h2
      exact ⟨rfl, rfl, rfl⟩
    · split at h
      · injection h with h1 h2
        subst h2
        exact ⟨rfl, rfl, rfl⟩
      · split at h
        · exact absurd h (by simp)
        · split at h
          · exact absurd h (by simp)
          · exact absurd h (by simp)
  · injection h with h1 h2
    subst h2
    exact ⟨rfl, rfl, rfl⟩

theorem sequentialIteration_stop_keeps (maxQuestions : Nat) (secretWord : List Char)
    (s : Session) (response : String) (e : Exit) (s' : Session)
    (h : sequentialIteration maxQuestions secretWord s response = .stop e s') :
    s' = s := by
  unfold sequentialIteration at h
  split at h
  · simp only at h
    split at h
    · exact absurd h (by simp)
    · split at h
      · exact absurd h (by simp)
      · exact absurd h (by simp)
  · injection h with h1 h2
    exact h2.symm

theorem scanIteration_stop_keeps (alphabet : List Char) (maxQuestions : Nat)
    (secretWord : List Char) (s : Session) (response : String) (e : Exit) (s' : Session)
    (h : scanIteration alphabet maxQuestions secretWord s response = .stop e s') :
    s'.guessedWord = s.guessedWord ∧ s'.questionsAsked = s.questionsAsked := by
  unfold scanIteration at h
  split at h
  · simp only at h
    split at h
    · injection h with h1 h2
      subst h2
      exact ⟨rfl, rfl⟩
    · split at h
      · exact absurd h (by simp)
      · split at h
        · exact absurd h (by simp)
        · exact absurd h (by simp)
  · injection h with h1 h2
    subst h2
    exact ⟨rfl, rfl⟩

/-! ## Facts about every run of a letter loop -/

theorem runLetters_passes (step : Session → String → Iteration) (eof : String)
    (P : Session → Char → String → Session → Prop)
    (hstep : ∀ s r c s', step s r = .asked c s' → P s c r s') :
    ∀ (fuel : Nat) (s : Session) (responses : List String),
      ∀ p ∈ (runLetters step eof fuel s responses).prompts,
        P p.before p.guessedLetter p.response p.after := by
  intro fuel
  induction fuel with
  | zero => intro s responses p hp; simp [runLetters] at hp
  | succ n ih =>
      intro s responses p hp
      rw [runLetters] at hp
      cases hit : step s (responses.headD eof) with
      | stop e s' => rw [hit] at hp; simp at hp
      | asked c s' =>
          rw [hit] at hp
          simp only [List.mem_cons] at hp
          rcases hp with hp | hp
          · subst hp
            exact hstep _ _ _ _ hit
          · exact ih s' responses.tail p hp

theorem runLetters_linked (step : Session → String → Iteration) (eof : String) :
    ∀ (fuel : Nat) (s : Session) (responses : List String),
      linked s (runLetters step eof fuel s responses).prompts := by
  intro fuel
  induction fuel with
  | zero => intro s responses; simp [runLetters, linked]
  | succ n ih =>
      intro s responses
      rw [runLetters]
      cases hit : step s (responses.headD eof) with
      | stop e s' => simp [linked]
      | asked c s' => exact ⟨rfl, ih s' responses.tail⟩

theorem lastAfter_cons (s : Session) (p : Prompt) (ps : List Prompt) :
    lastAfter s (p :: ps) = lastAfter p.after ps := by
  cases ps with
  | nil => simp [lastAfter]
  | cons q qs =>
      unfold lastAfter
      rw [List.getLast?_cons_cons]
      cases h : (q :: qs).getLast? with
      | none => simp at h
      | some x => simp

/-- When the loop is left, the pattern and the counter are those left by the last
question (those of the start if no question was asked). -/
theorem runLetters_final (step : Session → String → Iteration) (eof : String)
    (hstop : ∀ s r e s', step s r = .stop e s' →
      s'.guessedWord = s.guessedWord ∧ s'.questionsAsked = s.questionsAsked) :
    ∀ (fuel : Nat) (s : Session) (responses : List String),
      (runLetters step eof fuel s responses).final.guessedWord =
        (lastAfter s (runLetters step eof fuel s responses).prompts).guessedWord ∧
      (runLetters step eof fuel s responses).final.questionsAsked =
        (lastAfter s (runLetters step eof fuel s responses).prompts).questionsAsked := by
  intro fuel
  induction fuel with
  | zero => intro s responses; simp [runLetters, lastAfter]
  | succ n ih =>
      intro s responses
      rw [runLetters]
      cases hit : step s (responses.headD eof) with
      | stop e s' =>
          simp only [lastAfter, List.getLast?_nil, Option.map_none', Option.getD_none]
          exact hstop _ _ _ _ hit
      | asked c s' =>
          simp only [lastAfter_cons]
          exact ih s' responses.tail

theorem linked_append (p q : Prompt) :
    ∀ (l₁ : List Prompt) (s : Session) (l₂ : List Prompt),
      linked s (l₁ ++ p :: q :: l₂) → q.before = p.after := by
  intro l₁
  induction l₁ with
  | nil => intro s l₂ h; exact h.2.1
  | cons a l ih => intro s l₂ h; exact ih a.after l₂ h.2

/-- A question that leaves the pattern equal to the secret is the last one. -/
theorem runLetters_last (step : Session → String → Iteration) (eof : String)
    (secretWord : List Char)
    (hstep : ∀ s r c s', step s r = .asked c s' → s.guessedWord ≠ secretWord)
    (fuel : Nat) (s : Session) (responses : List String) (l₁ l₂ : List Prompt) (p : Prompt)
    (hsplit : (runLetters step eof fuel s responses).prompts = l₁ ++ p :: l₂)
    (hp : p.after.guessedWord = secretWord) : l₂ = [] := by
  cases l₂ with
  | nil => rfl
  | cons q l =>
      exfalso
      have hl := runLetters_linked step eof fuel s responses
      rw [hsplit] at hl
      have hq : q ∈ (runLetters step eof fuel s responses).prompts := by
        rw [hsplit]; simp
      have := runLetters_passes step eof (fun s _ _ _ => s.guessedWord ≠ secretWord) hstep
        fuel s responses q hq
      rw [linked_append p q l₁ s l hl] at this
      exact this hp

theorem validResponse_iff (r : String) :
    validResponse r = true ↔ r = "yes" ∨ r = "no" := by
  simp [validResponse]

/-- The questions answered by "yes" or "no" fit in what is left of the budget. -/
theorem runLetters_valid_le (step : Session → String → Iteration) (eof : String)
    (maxQuestions penalty : Nat) (secretWord : List Char)
    (hstep : ∀ s r c s', step s r = .asked c s' →
      LetterPass maxQuestions penalty secretWord s c r s') :
    ∀ (fuel : Nat) (s : Session) (responses : List String),
      ((runLetters step eof fuel s responses).prompts.filter
        (fun p => validResponse p.response)).length ≤ maxQuestions - s.questionsAsked := by
  intro fuel
  induction fuel with
  | zero => intro s responses; simp [runLetters]
  | succ n ih =>
      intro s responses
      rw [runLetters]
      cases hit : step s (responses.headD eof) with
      | stop e s' => simp
      | asked c s' =>
          obtain ⟨hlt, _, _, _, hq⟩ := hstep _ _ _ _ hit
          have hrec := ih s' responses.tail
          by_cases hy : responses.headD eof = "yes"
          · have hv : validResponse (responses.headD eof) = true :=
              (validResponse_iff _).2 (Or.inl hy)
            rw [if_pos hy] at hq
            simp only [List.filter_cons, hv, if_true, List.length_cons]
            omega
          · by_cases hn : responses.headD eof = "no"
            · have hv : validResponse (responses.headD eof) = true :=
                (validResponse_iff _).2 (Or.inr hn)
              rw [if_neg hy, if_pos hn] at hq
              simp only [List.filter_cons, hv, if_true, List.length_cons]
              omega
            · have hv : validResponse (responses.headD eof) = false :=
                Bool.eq_false_iff.2 fun h =>
                  ((validResponse_iff _).1 h).elim hy hn
              rw [if_neg hy, if_neg hn] at hq
              simp only [List.filter_cons, hv, Bool.false_eq_true, if_false]
              omega

/-! ## The pattern -/

theorem agrees_start (secretWord : List Char) :
    agrees (List.replicate secretWord.length '_') secretWord := by
  unfold agrees
  induction secretWord with
  | nil => exact List.Forall₂.nil
  | cons x xs ih => exact List.Forall₂.cons (Or.inl rfl) ih

theorem agrees_length (g s : List Char) (h : agrees g s) : g.length = s.length :=
  List.Forall₂.length_eq h

theorem agrees_reveal (c : Char) (g s : List Char) (h : agrees g s) :
    agrees (reveal c s g) s := by
  unfold agrees at h ⊢
  induction h with
  | nil => simp [reveal]
  | @cons a b l₁ l₂ hxy _ ih =>
      rw [reveal]
      refine List.Forall₂.cons ?_ ih
      by_cases hb : b = c
      · rw [if_pos hb]; exact Or.inr hb.symm
      · rw [if_neg hb]; exact hxy

theorem agrees_getElem? (g s : List Char) (h : agrees g s) :
    ∀ (i : Nat) (y : Char), g[i]? = some y → ∃ x, s[i]? = some x ∧ (y = '_' ∨ y = x) := by
  unfold agrees at h
  induction h with
  | nil => intro i y hy; simp at hy
  | @cons a b l₁ l₂ hxy _ ih =>
      intro i y hy
      cases i with
      | zero =>
          simp only [List.getElem?_cons_zero, Option.some.injEq] at hy ⊢
          exact ⟨b, rfl, hy ▸ hxy⟩
      | succ j =>
          simp only [List.getElem?_cons_succ] at hy ⊢
          exact ih j y hy

/-- The reveal loop position by position. -/
theorem reveal_getElem? (c : Char) :
    ∀ (s g : List Char) (i : Nat) (x y : Char), s[i]? = some x → g[i]? = some y →
      (reveal c s g)[i]? = some (if x = c then c else y) := by
  intro s
  induction s with
  | nil => intro g i x y hx; simp at hx
  | cons a as ih =>
      intro g i x y hx hy
      cases g with
      | nil => simp at hy
      | cons b bs =>
          rw [reveal]
          cases i with
          | zero =>
              simp only [List.getElem?_cons_zero, Option.some.injEq] at hx hy ⊢
              rw [hx, hy]
          | succ j =>
              simp only [List.getElem?_cons_succ] at hx hy ⊢
              exact ih bs j x y hx hy

theorem reveal_length (c : Char) :
    ∀ (s g : List Char), (reveal c s g).length = g.length := by
  intro s
  induction s with
  | nil => intro g; simp [reveal]
  | cons a as ih =>
      intro g
      cases g with
      | nil => simp [reveal]
      | cons b bs => simp [reveal, ih bs]

/-- An invariant of the passes that ask holds at both ends of every question. -/
theorem runLetters_invariant (step : Session → String → Iteration) (eof : String)
    (Inv : Session → Prop)
    (hask : ∀ s r c s', Inv s → step s r = .asked c s' → Inv s') :
    ∀ (fuel : Nat) (s : Session) (responses : List String), Inv s →
      ∀ p ∈ (runLetters step eof fuel s responses).prompts, Inv p.before ∧ Inv p.after := by
  intro fuel
  induction fuel with
  | zero => intro s responses _ p hp; simp [runLetters] at hp
  | succ n ih =>
      intro s responses hs p hp
      rw [runLetters] at hp
      cases hit : step s (responses.headD eof) with
      | stop e s' => rw [hit] at hp; simp at hp
      | asked c s' =>
          rw [hit] at hp
          simp only [List.mem_cons] at hp
          rcases hp with hp | hp
          · subst hp
            exact ⟨hs, hask _ _ _ _ hs hit⟩
          · exact ih s' responses.tail (hask _ _ _ _ hs hit) p hp

theorem letterPass_agrees (maxQuestions penalty : Nat) (secretWord : List Char) (s : Session)
    (c : Char) (r : String) (s' : Session)
    (h : LetterPass maxQuestions penalty secretWord s c r s')
    (ha : agrees s.guessedWord secretWord) : agrees s'.guessedWord secretWord := by
  obtain ⟨_, _, _, hw, _⟩ := h
  rw [hw]
  split
  · exact agrees_reveal c _ _ ha
  · exact ha

/-- In every run of a letter loop started on the blank pattern, the pattern agrees
with the secret at both ends of every question. -/
theorem runLetters_agrees (step : Session → String → Iteration) (eof : String)
    (maxQuestions penalty : Nat) (secretWord : List Char)
    (hstep : ∀ s r c s', step s r = .asked c s' →
      LetterPass maxQuestions penalty secretWord s c r s')
    (fuel : Nat) (s : Session) (responses : List String)
    (hs : agrees s.guessedWord secretWord) :
    ∀ p ∈ (runLetters step eof fuel s responses).prompts,
      agrees p.before.guessedWord secretWord ∧ agrees p.after.guessedWord secretWord :=
  runLetters_invariant step eof (fun s => agrees s.guessedWord secretWord)
    (fun s r c s' ha hit => letterPass_agrees _ _ _ _ _ _ _ (hstep s r c s' hit) ha)
    fuel s responses hs

/-- Along any run of a letter loop whose passes ask untried letters and record
them, no letter is asked twice. -/
theorem runLetters_fresh (step : Session → String → Iteration) (eof : String)
    (hstep : ∀ s r c s', step s r = .asked c s' →
      c ∉ s.guessedLetters ∧ c ∈ s'.guessedLetters ∧ s.guessedLetters ⊆ s'.guessedLetters) :
    ∀ (fuel : Nat) (s : Session) (responses : List String),
      (∀ p ∈ (runLetters step eof fuel s responses).prompts,
        p.guessedLetter ∉ p.before.guessedLetters ∧
        s.guessedLetters ⊆ p.before.guessedLetters) ∧
      ((runLetters step eof fuel s responses).prompts.map Prompt.guessedLetter).Nodup := by
  intro fuel
  induction fuel with
  | zero => intro s responses; simp [runLetters]
  | succ n ih =>
      intro s responses
      rw [runLetters]
      cases hit : step s (responses.headD eof) with
      | stop e s' => simp
      | asked c s' =>
          obtain ⟨hfresh, hc, hsub⟩ := hstep _ _ _ _ hit
          obtain ⟨ih1, ih2⟩ := ih s' responses.tail
          simp only [List.map_cons, List.nodup_cons, List.mem_cons, List.mem_map]
          refine ⟨?_, ?_, ih2⟩
          · intro p hp
            rcases hp with hp | hp
            · subst hp
              exact ⟨hfresh, fun x hx => hx⟩
            · exact ⟨(ih1 p hp).1, fun x hx => (ih1 p hp).2 (hsub hx)⟩
          · rintro ⟨p, hp, hpc⟩
            exact (ih1 p hp).1 ((ih1 p hp).2 (hpc ▸ hc))

/-! ## Runs of the word loops -/

theorem answerWord_spec (q : Nat) (r : String) :
    (r = "yes" → answerWord q r = .guessed) ∧
    (r = "no" → answerWord q r = .next (q + 1)) ∧
    (r ≠ "yes" → r ≠ "no" → answerWord q r = .next q) := by
  refine ⟨?_, ?_, ?_⟩
  · intro h; subst h; rfl
  · intro h; subst h; rfl
  · intro h1 h2; unfold answerWord; rw [if_pos ⟨h1, h2⟩]

/-- What the handling of a response does to the counter of a word mode. -/
theorem answerWord_next (q q' : Nat) (r : String) (h : answerWord q r = .next q') :
    r ≠ "yes" ∧ (r = "no" → q' = q + 1) ∧ (r ≠ "no" → q' = q) := by
  obtain ⟨h1, h2, h3⟩ := answerWord_spec q r
  by_cases hy : r = "yes"
  · rw [h1 hy] at h; exact absurd h (by simp)
  · refine ⟨hy, ?_, ?_⟩
    · intro hn
      rw [h2 hn] at h
      injection h with h; exact h.symm
    · intro hn
      rw [h3 hy hn] at h
      injection h with h; exact h.symm

theorem answerWord_guessed (q : Nat) (r : String) (h : answerWord q r = .guessed) :
    r = "yes" := by
  obtain ⟨_, h2, h3⟩ := answerWord_spec q r
  by_contra hy
  by_cases hn : r = "no"
  · rw [h2 hn] at h; exact absurd h (by simp)
  · rw [h3 hy hn] at h; exact absurd h (by simp)

/-- Every question of the `for` loop over a vector: the counter is below the
budget when it is asked, a "yes" keeps it, a "no" adds one, anything else keeps
it; the words asked are, in order, the first words of the vector; a "yes" is the
last question and ends the run with that word; the answers "yes" and "no" fit in
what is left of the budget; the loop always ends by itself. -/
theorem wordLoop_spec (maxQuestions : Nat) (eof : String) :
    ∀ (words : List (List Char)) (q : Nat) (responses : List String),
      (∀ p ∈ (wordLoop maxQuestions eof words q responses).prompts,
        p.before < maxQuestions ∧
        (p.response = "yes" → p.after = p.before) ∧
        (p.response = "no" → p.after = p.before + 1) ∧
        (p.response ≠ "yes" → p.response ≠ "no" → p.after = p.before)) ∧
      ((wordLoop maxQuestions eof words q responses).prompts.map WordPrompt.guessedWord
        <+: words) ∧
      (∀ l₁ p l₂, (wordLoop maxQuestions eof words q responses).prompts = l₁ ++ p :: l₂ →
        p.response = "yes" →
        l₂ = [] ∧ (wordLoop maxQuestions eof words q responses).exit = .guessed p.guessedWord) ∧
      (((wordLoop maxQuestions eof words q responses).prompts.filter
        (fun p => validResponse p.response)).length ≤ maxQuestions - q) ∧
      ((wordLoop maxQuestions eof words q responses).exit = .gaveUp ∨
        ∃ w, (wordLoop maxQuestions eof words q responses).exit = .guessed w) := by
  intro words
  induction words with
  | nil =>
      intro q responses
      simp [wordLoop]
  | cons word rest ih =>
      intro q responses
      rw [wordLoop]
      by_cases hq : q ≥ maxQuestions
      · rw [if_pos hq]
        simp
      · rw [if_neg hq]
        have hlt : q < maxQuestions := Nat.lt_of_not_ge hq
        cases ha : answerWord q (responses.headD eof) with
        | guessed =>
            have hy := answerWord_guessed _ _ ha
            have hv : validResponse (responses.headD eof) = true :=
              (validResponse_iff _).2 (Or.inl hy)
            refine ⟨?_, ?_, ?_, ?_, Or.inr ⟨word, rfl⟩⟩
            · intro p hp
              simp only [List.mem_singleton] at hp
              subst hp
              refine ⟨hlt, fun _ => rfl, fun hn => ?_, fun h _ => absurd hy h⟩
              simp only at hn
              rw [hy] at hn
              exact absurd hn (by decide)
            · simp only [List.map_cons, List.map_nil]
              exact ⟨rest, rfl⟩
            · intro l₁ p l₂ hsplit _
              simp only at hsplit
              cases l₁ with
              | nil =>
                  simp only [List.nil_append, List.cons.injEq] at hsplit
                  obtain ⟨h1, h2⟩ := hsplit
                  subst h1
                  exact ⟨h2.symm, rfl⟩
              | cons a l =>
                  simp only [List.cons_append, List.cons.injEq] at hsplit
                  exact absurd hsplit.2 (by simp)
            · simp only [List.filter_cons, hv, if_true, List.filter_nil, List.length_cons,
                List.length_nil]
              omega
        | next q' =>
            obtain ⟨hny, hno, hother⟩ := answerWord_next _ _ _ ha
            obtain ⟨ih1, ih2, ih3, ih4, ih5⟩ := ih q' responses.tail
            refine ⟨?_, ?_, ?_, ?_, ih5⟩
            · intro p hp
              simp only [List.mem_cons] at hp
              rcases hp with hp | hp
              · subst hp
                exact ⟨hlt, fun h => absurd h hny, hno, fun _ h => hother h⟩
              · exact ih1 p hp
            · simp only [List.map_cons]
              exact (List.prefix_cons_inj word).2 ih2
            · intro l₁ p l₂ hsplit hyes
              simp only at hsplit
              cases l₁ with
              | nil =>
                  simp only [List.nil_append, List.cons.injEq] at hsplit
                  obtain ⟨h1, _⟩ := hsplit
                  subst h1
                  exact absurd hyes hny
              | cons a l =>
                  simp only [List.cons_append, List.cons.injEq] at hsplit
                  exact ih3 l p l₂ hsplit.2 hyes
            · by_cases hn : responses.headD eof = "no"
              · have hv : validResponse (responses.headD eof) = true :=
                  (validResponse_iff _).2 (Or.inr hn)
                have := hno hn
                simp only [List.filter_cons, hv, if_true, List.length_cons]
                omega
              · have hv : validResponse (responses.headD eof) = false :=
                  Bool.eq_false_iff.2 fun h => ((validResponse_iff _).1 h).elim hny hn
                have := hother hn
                simp only [List.filter_cons, hv, Bool.false_eq_true, if_false]
                omega

/-- Every question of the loop of `randomWordGuessing`: the same facts about the
counter as in `wordLoop_spec`; the word asked is an entry of the dictionary, its
index `rand % size` being in bounds. -/
theorem randomWordLoop_spec (maxQuestions : Nat) (eof : String)
    (dictionary : List (List Char)) :
    ∀ (fuel q : Nat) (rands : List Nat) (responses : List String),
      (∀ p ∈ (randomWordLoop maxQuestions eof dictionary fuel q rands responses).prompts,
        p.before < maxQuestions ∧
        (p.response = "yes" → p.after = p.before) ∧
        (p.response = "no" → p.after = p.before + 1) ∧
        (p.response ≠ "yes" → p.response ≠ "no" → p.after = p.before) ∧
        p.guessedWord ∈ dictionary) ∧
      (∀ l₁ p l₂,
        (randomWordLoop maxQuestions eof dictionary fuel q rands responses).prompts
          = l₁ ++ p :: l₂ →
        p.response = "yes" →
        l₂ = [] ∧
        (randomWordLoop maxQuestions eof dictionary fuel q rands responses).exit
          = .guessed p.guessedWord) ∧
      (((randomWordLoop maxQuestions eof dictionary fuel q rands responses).prompts.filter
        (fun p => validResponse p.response)).length ≤ maxQuestions - q) := by
  intro fuel
  induction fuel with
  | zero => intro q rands responses; simp [randomWordLoop]
  | succ n ih =>
      intro q rands responses
      rw [randomWordLoop]
      by_cases hq : q < maxQuestions
      · rw [if_pos hq]
        by_cases hd : dictionary.length = 0
        · rw [if_pos hd]; simp
        · rw [if_neg hd]
          have hidx : rands.headD 0 % dictionary.length < dictionary.length :=
            Nat.mod_lt _ (Nat.pos_of_ne_zero hd)
          have hmem : dictionary.getD (rands.headD 0 % dictionary.length) [] ∈ dictionary := by
            rw [List.getD_eq_getElem _ _ hidx]
            exact List.getElem_mem hidx
          simp only
          cases ha : answerWord q (responses.headD eof) with
          | guessed =>
              have hy := answerWord_guessed _ _ ha
              have hv : validResponse (responses.headD eof) = true :=
                (validResponse_iff _).2 (Or.inl hy)
              refine ⟨?_, ?_, ?_⟩
              · intro p hp
                simp only [List.mem_singleton] at hp
                subst hp
                refine ⟨hq, fun _ => rfl, fun hn => ?_, fun h _ => absurd hy h, hmem⟩
                simp only at hn
                rw [hy] at hn
                exact absurd hn (by decide)
              · intro l₁ p l₂ hsplit _
                simp only at hsplit
                cases l₁ with
                | nil =>
                    simp only [List.nil_append, List.cons.injEq] at hsplit
                    obtain ⟨h1, h2⟩ := hsplit
                    subst h1
                    exact ⟨h2.symm, rfl⟩
                | cons a l =>
                    simp only [List.cons_append, List.cons.injEq] at hsplit
                    exact absurd hsplit.2 (by simp)
              · simp only [List.filter_cons, hv, if_true, List.filter_nil, List.length_cons,
                  List.length_nil]
                omega
          | next q' =>
              obtain ⟨hny, hno, hother⟩ := answerWord_next _ _ _ ha
              obtain ⟨ih1, ih3, ih4⟩ := ih q' rands.tail responses.tail
              refine ⟨?_, ?_, ?_⟩
              · intro p hp
                simp only [List.mem_cons] at hp
                rcases hp with hp | hp
                · subst hp
                  exact ⟨hq, fun h => absurd h hny, hno, fun _ h => hother h, hmem⟩
                · exact ih1 p hp
              · intro l₁ p l₂ hsplit hyes
                simp only at hsplit
                cases l₁ with
                | nil =>
                    simp only [List.nil_append, List.cons.injEq] at hsplit
                    obtain ⟨h1, _⟩ := hsplit
                    subst h1
                    exact absurd hyes hny
                | cons a l =>
                    simp only [List.cons_append, List.cons.injEq] at hsplit
                    exact ih3 l p l₂ hsplit.2 hyes
              · by_cases hn : responses.headD eof = "no"
                · have hv : validResponse (responses.headD eof) = true :=
                    (validResponse_iff _).2 (Or.inr hn)
                  have := hno hn
                  simp only [List.filter_cons, hv, if_true, List.length_cons]
                  omega
                · have hv : validResponse (responses.headD eof) = false :=
                    Bool.eq_false_iff.2 fun h => ((validResponse_iff _).1 h).elim hny hn
                  have := hother hn
                  simp only [List.filter_cons, hv, Bool.false_eq_true, if_false]
                  omega
      · rw [if_neg hq]; simp

/-! ## The six letter modes as runs -/

theorem runLetters_letterRun (step : Session → String → Iteration) (eof : String)
    (maxQuestions penalty : Nat) (secretWord : List Char)
    (hstep : ∀ s r c s', step s r = .asked c s' →
      LetterPass maxQuestions penalty secretWord s c r s')
    (hstop : ∀ s r e s', step s r = .stop e s' →
      s'.guessedWord = s.guessedWord ∧ s'.questionsAsked = s.questionsAsked)
    (fuel : Nat) (s : Session) (responses : List String)
    (hs : agrees s.guessedWord secretWord) :
    LetterRun maxQuestions penalty secretWord s (runLetters step eof fuel s responses) := by
  refine ⟨fun p hp => ⟨?_, ?_⟩, runLetters_linked step eof fuel s responses,
    (runLetters_final step eof hstop fuel s responses).1,
    (runLetters_final step eof hstop fuel s responses).2,
    runLetters_valid_le step eof maxQuestions penalty secretWord hstep fuel s responses⟩
  · exact runLetters_passes step eof _ hstep fuel s responses p hp
  · exact runLetters_agrees step eof maxQuestions penalty secretWord hstep fuel s responses hs
      p hp

theorem letterByLetterGuessing_run (secretWord : List Char) (dictionary : List (List Char))
    (responses : List String) :
    LetterRun 20 0 secretWord (startSession secretWord dictionary)
      (letterByLetterGuessing secretWord dictionary responses) :=
  runLetters_letterRun _ _ 20 0 secretWord
    (fun s r c s' h => sequentialIteration_pass 20 secretWord s r c s' h)
    (fun s r e s' h => by
      rw [sequentialIteration_stop_keeps 20 secretWord s r e s' h]; exact ⟨rfl, rfl⟩)
    _ _ _ (agrees_start secretWord)

theorem randomizedLetterByLetterGuessing_run (alphabet secretWord : List Char)
    (dictionary : List (List Char)) (responses : List String) :
    LetterRun 20 0 secretWord (startSession secretWord dictionary)
      (randomizedLetterByLetterGuessing alphabet secretWord dictionary responses) :=
  runLetters_letterRun _ _ 20 0 secretWord
    (fun s r c s' h => scanIteration_pass alphabet 20 secretWord s r c s' h)
    (fun s r e s' h => scanIteration_stop_keeps alphabet 20 secretWord s r e s' h)
    _ _ _ (agrees_start secretWord)

theorem frequencyBasedGuessing_run (secretWord : List Char) (dictionary : List (List Char))
    (responses : List String) :
    LetterRun 20 0 secretWord (startSession secretWord dictionary)
      (frequencyBasedGuessing secretWord dictionary responses) :=
  runLetters_letterRun _ _ 20 0 secretWord
    (fun s r c s' h => scanIteration_pass letterFrequency 20 secretWord s r c s' h)
    (fun s r e s' h => scanIteration_stop_keeps letterFrequency 20 secretWord s r e s' h)
    _ _ _ (agrees_start secretWord)

theorem runLoop_run (maxQuestions penalty : Nat) (eof : String) (secretWord : List Char)
    (fuel : Nat) (dictionary : List (List Char)) (responses : List String) :
    LetterRun maxQuestions penalty secretWord (startSession secretWord dictionary)
      (runLoop maxQuestions penalty eof secretWord fuel (startSession secretWord dictionary)
        responses) := by
  rw [runLoop_eq_runLetters]
  exact runLetters_letterRun _ _ maxQuestions penalty secretWord
    (fun s r c s' h => iteration_pass maxQuestions penalty secretWord s r c s' h)
    (fun s r e s' h =>
      ⟨(iteration_stop_keeps maxQuestions penalty secretWord s r e s' h).1,
        (iteration_stop_keeps maxQuestions penalty secretWord s r e s' h).2.1⟩)
    _ _ _ (agrees_start secretWord)

theorem letterRun_counterKept (maxQuestions penalty : Nat) (secretWord : List Char)
    (start : Session) (r : Round) (h : LetterRun maxQuestions penalty secretWord start r) :
    counterKept r := by
  intro p hp hy hn
  obtain ⟨⟨_, _, _, _, hq⟩, _⟩ := h.1 p hp
  rw [hq, if_neg hy, if_neg hn]

/-- C11 (a malformed answer costs no question): in each of the nine guessing
functions, for every input, a question whose response is neither "yes" nor "no"
leaves `questionsAsked` equal to its value before the question. -/
theorem malformed_answer_keeps_counter (alphabet : List Char) (shuffled : List (List Char))
    (rands : List Nat) (secretWord : List Char) (dictionary : List (List Char))
    (responses : List String) :
    counterKept (letterByLetterGuessing secretWord dictionary responses) ∧
    counterKept (randomizedLetterByLetterGuessing alphabet secretWord dictionary responses) ∧
    counterKept (frequencyBasedGuessing secretWord dictionary responses) ∧
    counterKept (aiGuessing secretWord dictionary responses) ∧
    counterKept (aiGuessingWithEnhancements secretWord dictionary responses) ∧
    counterKept (challengingMode secretWord dictionary responses) ∧
    wordCounterKept (wordByWordGuessing secretWord dictionary responses) ∧
    wordCounterKept (randomizedWordByWordGuessing shuffled secretWord dictionary responses) ∧
    wordCounterKept (randomWordGuessing rands secretWord dictionary responses) :=
  ⟨letterRun_counterKept _ _ _ _ _ (letterByLetterGuessing_run _ _ _),
    letterRun_counterKept _ _ _ _ _ (randomizedLetterByLetterGuessing_run _ _ _ _),
    letterRun_counterKept _ _ _ _ _ (frequencyBasedGuessing_run _ _ _),
    letterRun_counterKept _ _ _ _ _ (runLoop_run 20 0 "" _ _ _ _),
    letterRun_counterKept _ _ _ _ _ (runLoop_run 20 0 "no" _ _ _ _),
    letterRun_counterKept _ _ _ _ _ (runLoop_run 10 2 "no" _ _ _ _),
    fun p hp hy hn => ((wordLoop_spec 20 "" dictionary 0 responses).1 p hp).2.2.2 hy hn,
    fun p hp hy hn => ((wordLoop_spec 20 "" shuffled 0 responses).1 p hp).2.2.2 hy hn,
    fun p hp hy hn =>
      ((randomWordLoop_spec 20 "" dictionary _ 0 rands responses).1 p hp).2.2.2.1 hy hn⟩

/-- C12 (evaluation at the failing inputs): a response that is neither "yes" nor
"no" is not without effect.  In `aiGuessing` on cat, car, can the letter a is
recorded as tried before the response is read, the next pass filters every
candidate away and the round ends with no further question; in
`frequencyBasedGuessing` the next question is t, not e again; in
`wordByWordGuessing` the next question is car, not cat again.  Only
`letterByLetterGuessing` asks the same letter again. -/
theorem malformed_answer_advances :
    ((aiGuessing "car".toList ["cat".toList, "car".toList, "can".toList]
        ["maybe", "yes"]).prompts.map
        (fun p => (p.guessedLetter, p.response, p.before.guessedLetters, p.after.guessedLetters))
      = [('a', "maybe", [], ['a'])] ∧
     (aiGuessing "car".toList ["cat".toList, "car".toList, "can".toList]
        ["maybe", "yes"]).exit = Exit.noWords ∧
     (aiGuessing "car".toList ["cat".toList, "car".toList, "can".toList]
        ["maybe", "yes"]).final.possibleWords = []) ∧
    ((frequencyBasedGuessing "car".toList ["cat".toList, "car".toList, "can".toList]
        ["maybe", "no"]).prompts.map (fun p => (p.guessedLetter, p.response))).take 2
      = [('e', "maybe"), ('t', "no")] ∧
    (wordByWordGuessing "car".toList ["cat".toList, "car".toList, "can".toList]
        ["maybe", "yes"]).prompts.map (fun p => (p.guessedWord, p.response))
      = [("cat".toList, "maybe"), ("car".toList, "yes")] ∧
    (letterByLetterGuessing "car".toList ["cat".toList, "car".toList, "can".toList]
        ["maybe", "yes"]).prompts.map (fun p => (p.guessedLetter, p.response))
      = [('a', "maybe"), ('a', "yes"), ('b', "")] := by
  decide

/-! ## Monotonicity and reveal -/

theorem letterRun_knowledgeMonotone (maxQuestions penalty : Nat) (secretWord : List Char)
    (start : Session) (r : Round) (h : LetterRun maxQuestions penalty secretWord start r) :
    knowledgeMonotone secretWord start r := by
  refine ⟨h.2.1, h.2.2.1, fun p hp => ?_⟩
  obtain ⟨⟨_, _, hsub, hw, _⟩, hab, haa⟩ := h.1 p hp
  refine ⟨agrees_length _ _ hab, agrees_length _ _ haa, ?_, hsub⟩
  intro i c hc hne
  rw [hw]
  split
  · obtain ⟨x, hx, hcx⟩ := agrees_getElem? _ _ hab i c hc
    have hcx' : c = x := hcx.resolve_left hne
    rw [reveal_getElem? p.guessedLetter secretWord p.before.guessedWord i x c hx hc]
    by_cases hxl : x = p.guessedLetter
    · rw [if_pos hxl, ← hxl, hcx']
    · rw [if_neg hxl]
  · exact hc

/-- C13 (knowledge-state monotonicity): in each of the six letter modes, for every
input, across every question (whatever the response) the pattern keeps the length
of the secret, a position holding a revealed letter holds the same letter
afterwards, and `guessedLetters` after the question contains `guessedLetters`
before it; consecutive questions are linked and the loop is left with the pattern
of the last question. -/
theorem knowledge_state_monotone (alphabet : List Char) (secretWord : List Char)
    (dictionary : List (List Char)) (responses : List String) :
    knowledgeMonotone secretWord (startSession secretWord dictionary)
      (letterByLetterGuessing secretWord dictionary responses) ∧
    knowledgeMonotone secretWord (startSession secretWord dictionary)
      (randomizedLetterByLetterGuessing alphabet secretWord dictionary responses) ∧
    knowledgeMonotone secretWord (startSession secretWord dictionary)
      (frequencyBasedGuessing secretWord dictionary responses) ∧
    knowledgeMonotone secretWord (startSession secretWord dictionary)
      (aiGuessing secretWord dictionary responses) ∧
    knowledgeMonotone secretWord (startSession secretWord dictionary)
      (aiGuessingWithEnhancements secretWord dictionary responses) ∧
    knowledgeMonotone secretWord (startSession secretWord dictionary)
      (challengingMode secretWord dictionary responses) :=
  ⟨letterRun_knowledgeMonotone _ _ _ _ _ (letterByLetterGuessing_run _ _ _),
    letterRun_knowledgeMonotone _ _ _ _ _ (randomizedLetterByLetterGuessing_run _ _ _ _),
    letterRun_knowledgeMonotone _ _ _ _ _ (frequencyBasedGuessing_run _ _ _),
    letterRun_knowledgeMonotone _ _ _ _ _ (runLoop_run 20 0 "" _ _ _ _),
    letterRun_knowledgeMonotone _ _ _ _ _ (runLoop_run 20 0 "no" _ _ _ _),
    letterRun_knowledgeMonotone _ _ _ _ _ (runLoop_run 10 2 "no" _ _ _ _)⟩

theorem lastAfter_append (s : Session) (p : Prompt) :
    ∀ l : List Prompt, lastAfter s (l ++ [p]) = p.after := by
  intro l
  simp [lastAfter]

theorem letterRun_revealsOnYes (maxQuestions penalty : Nat) (secretWord : List Char)
    (start : Session) (r : Round) (h : LetterRun maxQuestions penalty secretWord start r) :
    revealsOnYes secretWord r := by
  refine ⟨?_, ?_⟩
  · intro p hp hyes
    obtain ⟨⟨_, _, _, hw, _⟩, hab, haa⟩ := h.1 p hp
    refine ⟨agrees_length _ _ haa, ?_⟩
    intro i x y hx hy
    rw [if_pos hyes] at hw
    have hval := reveal_getElem? p.guessedLetter secretWord p.before.guessedWord i x y hx hy
    rw [hw, hval]
    refine ⟨rfl, fun hblank => ?_⟩
    obtain ⟨x', hx', hyx⟩ := agrees_getElem? _ _ hab i y hy
    have hxx : x' = x := Option.some.inj (hx'.symm.trans hx)
    rw [hxx] at hyx
    by_cases hxl : x = p.guessedLetter
    · simp [hxl]
    · rw [if_neg hxl]
      constructor
      · intro he
        have hyl : y = p.guessedLetter := Option.some.inj he
        rcases hyx with h1 | h1
        · exact absurd (h1.symm.trans hyl).symm hblank
        · exact absurd (h1.symm.trans hyl) hxl
      · intro he; exact absurd he hxl
  · intro l₁ p l₂ hsplit
    have hlast : p.after.guessedWord = secretWord → l₂ = [] := by
      intro hp
      cases l₂ with
      | nil => rfl
      | cons q l =>
          exfalso
          have hl := h.2.1
          rw [hsplit] at hl
          have hq : q ∈ r.prompts := by rw [hsplit]; simp
          obtain ⟨⟨_, hne, _⟩, _⟩ := h.1 q hq
          rw [linked_append p q l₁ start l hl] at hne
          exact hne hp
    have hfinal : l₂ = [] → r.final.guessedWord = p.after.guessedWord := by
      intro hl
      rw [h.2.2.1, hsplit, hl, lastAfter_append]
    refine ⟨fun hp => ⟨hlast hp, ?_⟩, fun hl hne => ?_⟩
    · unfold solved
      rw [hfinal (hlast hp), hp]
      simp
    · unfold solved
      rw [hfinal hl]
      simp [hne]

/-- C14 (reveal on yes): in each of the six letter modes, after a "yes" for the
letter asked the pattern holds that letter at the positions where the secret holds
it and is unchanged elsewhere; a question that makes the pattern equal to the
secret is the last one and the final test `guessedWord == secretWord` succeeds,
and it fails if the last question leaves another pattern; in the three word modes
a "yes" is the last question and ends the round with the word asked. -/
theorem reveal_on_yes (alphabet : List Char) (shuffled : List (List Char))
    (rands : List Nat) (secretWord : List Char) (dictionary : List (List Char))
    (responses : List String) :
    revealsOnYes secretWord (letterByLetterGuessing secretWord dictionary responses) ∧
    revealsOnYes secretWord
      (randomizedLetterByLetterGuessing alphabet secretWord dictionary responses) ∧
    revealsOnYes secretWord (frequencyBasedGuessing secretWord dictionary responses) ∧
    revealsOnYes secretWord (aiGuessing secretWord dictionary responses) ∧
    revealsOnYes secretWord (aiGuessingWithEnhancements secretWord dictionary responses) ∧
    revealsOnYes secretWord (challengingMode secretWord dictionary responses) ∧
    wordEndsOnYes (wordByWordGuessing secretWord dictionary responses) ∧
    wordEndsOnYes (randomizedWordByWordGuessing shuffled secretWord dictionary responses) ∧
    wordEndsOnYes (randomWordGuessing rands secretWord dictionary responses) :=
  ⟨letterRun_revealsOnYes _ _ _ _ _ (letterByLetterGuessing_run _ _ _),
    letterRun_revealsOnYes _ _ _ _ _ (randomizedLetterByLetterGuessing_run _ _ _ _),
    letterRun_revealsOnYes _ _ _ _ _ (frequencyBasedGuessing_run _ _ _),
    letterRun_revealsOnYes _ _ _ _ _ (runLoop_run 20 0 "" _ _ _ _),
    letterRun_revealsOnYes _ _ _ _ _ (runLoop_run 20 0 "no" _ _ _ _),
    letterRun_revealsOnYes _ _ _ _ _ (runLoop_run 10 2 "no" _ _ _ _),
    (wordLoop_spec 20 "" dictionary 0 responses).2.2.1,
    (wordLoop_spec 20 "" shuffled 0 responses).2.2.1,
    (randomWordLoop_spec 20 "" dictionary _ 0 rands responses).2.1⟩

/-! ## Budget and end of the rounds -/

/-- A loop whose asking passes decrease a measure is left by the program itself
when the passes allowed exceed the measure. -/
theorem runLetters_terminates (step : Session → String → Iteration) (eof : String)
    (measure : Session → Nat)
    (hask : ∀ s r c s', step s r = .asked c s' → measure s' < measure s)
    (hstop : ∀ s r e s', step s r = .stop e s' → e ≠ Exit.outOfFuel) :
    ∀ (fuel : Nat) (s : Session) (responses : List String), measure s < fuel →
      (runLetters step eof fuel s responses).exit ≠ Exit.outOfFuel := by
  intro fuel
  induction fuel with
  | zero => intro s responses h; exact absurd h (Nat.not_lt_zero _)
  | succ n ih =>
      intro s responses hfuel
      rw [runLetters]
      cases hit : step s (responses.headD eof) with
      | stop e s' => exact hstop _ _ _ _ hit
      | asked c s' =>
          have hlt := hask _ _ _ _ hit
          exact ih s' responses.tail (by omega)

/-- A pass of a scanning loop that asks a letter takes the first untried letter of
the scanned string and records it. -/
theorem scanIteration_asked (alphabet : List Char) (maxQuestions : Nat)
    (secretWord : List Char) (s : Session) (response : String) (c : Char) (s' : Session)
    (h : scanIteration alphabet maxQuestions secretWord s response = .asked c s') :
    alphabet.find? (fun letter => decide (letter ∉ s.guessedLetters)) = some c ∧
    c ∈ alphabet ∧ c ∉ s.guessedLetters ∧ s'.guessedLetters = s.guessedLetters.insert c := by
  have key : (nextUnguessed alphabet s.guessedLetters).1 ≠ Char.ofNat 0 →
      alphabet.find? (fun letter => decide (letter ∉ s.guessedLetters))
        = some (nextUnguessed alphabet s.guessedLetters).1 ∧
      (nextUnguessed alphabet s.guessedLetters).1 ∈ alphabet ∧
      (nextUnguessed alphabet s.guessedLetters).1 ∉ s.guessedLetters ∧
      (nextUnguessed alphabet s.guessedLetters).2 =
        s.guessedLetters.insert (nextUnguessed alphabet s.guessedLetters).1 := by
    intro hne
    unfold nextUnguessed at hne ⊢
    cases hf : alphabet.find? (fun letter => decide (letter ∉ s.guessedLetters)) with
    | none => rw [hf] at hne; exact absurd rfl hne
    | some l =>
        simp only
        have h1 := List.find?_some hf
        exact ⟨trivial, List.mem_of_find?_eq_some hf, by simpa using h1, trivial⟩
  unfold scanIteration at h
  split at h
  · simp only at h
    split at h
    · exact absurd h (by simp)
    · rename_i hnul
      obtain ⟨k1, k2, k3, k4⟩ := key hnul
      split at h
      · injection h with h1 h2
        subst h1; subst h2
        exact ⟨k1, k2, k3, k4⟩
      · split at h
        · injection h with h1 h2
          subst h1; subst h2
          exact ⟨k1, k2, k3, k4⟩
        · injection h with h1 h2
          subst h1; subst h2
          exact ⟨k1, k2, k3, k4⟩
  · exact absurd h (by simp)

theorem scanIteration_stop (alphabet : List Char) (maxQuestions : Nat)
    (secretWord : List Char) (s : Session) (response : String) (e : Exit) (s' : Session)
    (h : scanIteration alphabet maxQuestions secretWord s response = .stop e s') :
    e ≠ Exit.outOfFuel := by
  unfold scanIteration at h
  split at h
  · simp only at h
    split at h
    · injection h with h1 h2
      rw [← h1]; simp
    · split at h
      · exact absurd h (by simp)
      · split at h
        · exact absurd h (by simp)
        · exact absurd h (by simp)
  · injection h with h1 h2
    rw [← h1]; simp

/-- The scanning loops are left by the program itself within the passes allowed. -/
theorem scan_terminates (alphabet : List Char) (maxQuestions : Nat) (eof : String)
    (secretWord : List Char) (dictionary : List (List Char)) (responses : List String) :
    (runLetters (scanIteration alphabet maxQuestions secretWord) eof (alphabet.length + 1)
      (startSession secretWord dictionary) responses).exit ≠ Exit.outOfFuel := by
  apply runLetters_terminates _ _
    (fun s => (alphabet.toFinset \ s.guessedLetters.toFinset).card)
  · intro s r c s' h
    obtain ⟨_, hc, hfresh, hins⟩ := scanIteration_asked _ _ _ _ _ _ _ h
    apply Finset.card_lt_card
    refine (Finset.ssubset_iff_of_subset ?_).2 ⟨c, ?_, ?_⟩
    · intro x hx
      simp only [Finset.mem_sdiff, List.mem_toFinset] at hx ⊢
      refine ⟨hx.1, fun hxs => hx.2 ?_⟩
      rw [hins]
      exact List.mem_insert_of_mem hxs
    · simp only [Finset.mem_sdiff, List.mem_toFinset]
      exact ⟨hc, hfresh⟩
    · simp only [Finset.mem_sdiff, List.mem_toFinset, not_and, not_not]
      intro _
      rw [hins]
      exact List.mem_insert_self c _
  · exact fun s r e s' h => scanIteration_stop _ _ _ _ _ _ _ h
  · simp only [startSession, List.toFinset_nil, Finset.sdiff_empty]
    exact Nat.lt_succ_of_le (List.toFinset_card_le _)

theorem letterRun_withinBudget (maxQuestions penalty : Nat) (secretWord : List Char)
    (dictionary : List (List Char)) (r : Round)
    (h : LetterRun maxQuestions penalty secretWord (startSession secretWord dictionary) r) :
    withinBudget maxQuestions r :=
  ⟨Nat.le_trans h.2.2.2.2 (Nat.sub_le _ _), fun p hp => (h.1 p hp).1.1⟩

/-- C15 (the budget bounds the round): in every guessing function at most B
responses "yes" or "no" are accepted, B being 20 and 10 in `challengingMode`, and
every question is asked with the counter below B, so nothing is asked once the
counter has reached B; moreover the scanning modes, the three candidate-list modes
and the two `for` loops over the words are always left by the program itself. -/
theorem budget_bounds_round (alphabet : List Char) (shuffled : List (List Char))
    (rands : List Nat) (secretWord : List Char) (dictionary : List (List Char))
    (responses : List String) :
    (withinBudget 20 (letterByLetterGuessing secretWord dictionary responses) ∧
      withinBudget 20
        (randomizedLetterByLetterGuessing alphabet secretWord dictionary responses) ∧
      withinBudget 20 (frequencyBasedGuessing secretWord dictionary responses) ∧
      withinBudget 20 (aiGuessing secretWord dictionary responses) ∧
      withinBudget 20 (aiGuessingWithEnhancements secretWord dictionary responses) ∧
      withinBudget 10 (challengingMode secretWord dictionary responses) ∧
      wordsWithinBudget 20 (wordByWordGuessing secretWord dictionary responses) ∧
      wordsWithinBudget 20
        (randomizedWordByWordGuessing shuffled secretWord dictionary responses) ∧
      wordsWithinBudget 20 (randomWordGuessing rands secretWord dictionary responses)) ∧
    ((randomizedLetterByLetterGuessing alphabet secretWord dictionary responses).exit
        ≠ Exit.outOfFuel ∧
      (frequencyBasedGuessing secretWord dictionary responses).exit ≠ Exit.outOfFuel ∧
      (aiGuessing secretWord dictionary responses).exit ≠ Exit.outOfFuel ∧
      (aiGuessingWithEnhancements secretWord dictionary responses).exit ≠ Exit.outOfFuel ∧
      (challengingMode secretWord dictionary responses).exit ≠ Exit.outOfFuel ∧
      (wordByWordGuessing secretWord dictionary responses).exit ≠ WordExit.outOfFuel ∧
      (randomizedWordByWordGuessing shuffled secretWord dictionary responses).exit
        ≠ WordExit.outOfFuel) := by
  have hw : ∀ words : List (List Char),
      wordsWithinBudget 20 (wordLoop 20 "" words 0 responses) ∧
      (wordLoop 20 "" words 0 responses).exit ≠ WordExit.outOfFuel := by
    intro words
    obtain ⟨h1, _, _, h4, h5⟩ := wordLoop_spec 20 "" words 0 responses
    refine ⟨⟨h4, fun p hp => (h1 p hp).1⟩, ?_⟩
    rcases h5 with h | ⟨w, h⟩
    · rw [h]; simp
    · rw [h]; simp
  refine ⟨⟨letterRun_withinBudget _ _ _ _ _ (letterByLetterGuessing_run _ _ _),
    letterRun_withinBudget _ _ _ _ _ (randomizedLetterByLetterGuessing_run _ _ _ _),
    letterRun_withinBudget _ _ _ _ _ (frequencyBasedGuessing_run _ _ _),
    letterRun_withinBudget _ _ _ _ _ (runLoop_run 20 0 "" _ _ _ _),
    letterRun_withinBudget _ _ _ _ _ (runLoop_run 20 0 "no" _ _ _ _),
    letterRun_withinBudget _ _ _ _ _ (runLoop_run 10 2 "no" _ _ _ _),
    (hw dictionary).1, (hw shuffled).1, ?_⟩,
    scan_terminates alphabet 20 "" secretWord dictionary responses,
    scan_terminates letterFrequency 20 "" secretWord dictionary responses,
    enoughFuel_spec 20 0 "" secretWord dictionary responses,
    enoughFuel_spec 20 0 "no" secretWord dictionary responses,
    enoughFuel_spec 10 2 "no" secretWord dictionary responses,
    (hw dictionary).2, (hw shuffled).2⟩
  obtain ⟨h1, _, h3⟩ := randomWordLoop_spec 20 "" dictionary (responses.length + 1) 0 rands
    responses
  exact ⟨h3, fun p hp => (h1 p hp).1⟩

/-- On a non-empty dictionary the loop of `randomWordGuessing` never takes the
undefined `% 0`. -/
theorem randomWordLoop_exit (maxQuestions : Nat) (eof : String)
    (dictionary : List (List Char)) (hne : dictionary ≠ []) :
    ∀ (fuel q : Nat) (rands : List Nat) (responses : List String),
      (randomWordLoop maxQuestions eof dictionary fuel q rands responses).exit
        ≠ WordExit.emptyDictionary := by
  have hd : ¬ dictionary.length = 0 := fun h => hne (List.length_eq_zero.1 h)
  intro fuel
  induction fuel with
  | zero => intro q rands responses; simp [randomWordLoop]
  | succ n ih =>
      intro q rands responses
      rw [randomWordLoop]
      by_cases hq : q < maxQuestions
      · rw [if_pos hq, if_neg hd]
        simp only
        cases ha : answerWord q (responses.headD eof) with
        | guessed => simp
        | next q' => exact ih q' rands.tail responses.tail
      · rw [if_neg hq]; simp

/-! ## Repetition and the corpus -/

/-- C16 (counterexample): on the dictionary dog, dog, cat with secret cat and the
accurate answers no, no, yes, `wordByWordGuessing` asks dog twice. -/
theorem word_repeated_counterexample :
    (wordByWordGuessing "cat".toList ["dog".toList, "dog".toList, "cat".toList]
        ["no", "no", "yes"]).prompts.map WordPrompt.guessedWord
      = ["dog".toList, "dog".toList, "cat".toList] ∧
    ¬ ((wordByWordGuessing "cat".toList ["dog".toList, "dog".toList, "cat".toList]
        ["no", "no", "yes"]).prompts.map WordPrompt.guessedWord).Nodup := by
  decide

theorem scan_lettersNotRepeated (alphabet : List Char) (maxQuestions : Nat) (eof : String)
    (secretWord : List Char) (fuel : Nat) (s : Session) (responses : List String) :
    lettersNotRepeated
      (runLetters (scanIteration alphabet maxQuestions secretWord) eof fuel s responses) := by
  obtain ⟨h1, h2⟩ := runLetters_fresh (scanIteration alphabet maxQuestions secretWord) eof
    (fun s r c s' h => by
      obtain ⟨_, _, hfresh, hins⟩ := scanIteration_asked _ _ _ _ _ _ _ h
      refine ⟨hfresh, ?_, ?_⟩
      · rw [hins]; exact List.mem_insert_self c _
      · rw [hins]; exact fun x hx => List.mem_insert_of_mem hx)
    fuel s responses
  exact ⟨fun p hp => (h1 p hp).1, h2⟩

/-- C16 (no repetition, amended): for every string `alphabet` left by the shuffle
and every list of responses, `randomizedLetterByLetterGuessing` and
`frequencyBasedGuessing` never ask a letter already tried; the words asked by
`wordByWordGuessing` and `randomizedWordByWordGuessing` are, in order, the first
entries of the dictionary and of its shuffled copy, each entry being asked once;
all this holds for every dictionary, and when the dictionary holds no word twice
(and the shuffled copy is a permutation of it) no word is asked twice. -/
theorem no_repetition (alphabet : List Char) (shuffled : List (List Char))
    (secretWord : List Char) (dictionary : List (List Char)) (responses : List String) :
    lettersNotRepeated
      (randomizedLetterByLetterGuessing alphabet secretWord dictionary responses) ∧
    lettersNotRepeated (frequencyBasedGuessing secretWord dictionary responses) ∧
    ((wordByWordGuessing secretWord dictionary responses).prompts.map WordPrompt.guessedWord
        <+: dictionary) ∧
    ((randomizedWordByWordGuessing shuffled secretWord dictionary responses).prompts.map
        WordPrompt.guessedWord <+: shuffled) ∧
    (dictionary.Nodup →
      ((wordByWordGuessing secretWord dictionary responses).prompts.map
        WordPrompt.guessedWord).Nodup) ∧
    (shuffled.Perm dictionary → dictionary.Nodup →
      ((randomizedWordByWordGuessing shuffled secretWord dictionary responses).prompts.map
        WordPrompt.guessedWord).Nodup) := by
  have h1 := (wordLoop_spec 20 "" dictionary 0 responses).2.1
  have h2 := (wordLoop_spec 20 "" shuffled 0 responses).2.1
  exact ⟨scan_lettersNotRepeated _ _ _ _ _ _ _, scan_lettersNotRepeated _ _ _ _ _ _ _,
    h1, h2, fun hnodup => List.Nodup.sublist h1.sublist hnodup,
    fun hperm hnodup => List.Nodup.sublist h2.sublist (hperm.nodup_iff.2 hnodup)⟩

/-- Witness of C16 (amended) on the dictionary cat, car shuffled to car, cat. -/
theorem no_repetition_witness :
    ["car".toList, "cat".toList].Perm ["cat".toList, "car".toList] ∧
    ["cat".toList, "car".toList].Nodup ∧
    ((randomizedWordByWordGuessing ["car".toList, "cat".toList] "cat".toList
        ["cat".toList, "car".toList] ["no", "yes"]).prompts.map
        WordPrompt.guessedWord).Nodup :=
  ⟨by decide, by decide,
    (no_repetition "zyxwvutsrqponmlkjihgfedcba".toList ["car".toList, "cat".toList]
      "cat".toList ["cat".toList, "car".toList] ["no", "yes"]).2.2.2.2.2 (by decide) (by decide)⟩

theorem runLoop_lettersFromCandidates (maxQuestions penalty : Nat) (eof : String)
    (secretWord : List Char) (fuel : Nat) (dictionary : List (List Char))
    (responses : List String) :
    lettersFromCandidates dictionary
      (runLoop maxQuestions penalty eof secretWord fuel (startSession secretWord dictionary)
        responses) := by
  rw [runLoop_eq_runLetters]
  intro p hp
  have hpass := runLetters_passes (iteration maxQuestions penalty secretWord) eof
    (fun s c _ s' =>
      s'.possibleWords = filterWords s.possibleWords s.guessedWord s.guessedLetters ∧
      0 < occurrences c (filterWords s.possibleWords s.guessedWord s.guessedLetters))
    (fun s r c s' h =>
      ⟨(iteration_asked _ _ _ _ _ _ _ h).2.2.2.1, (iteration_asked_fresh _ _ _ _ _ _ _ h).2⟩)
    fuel _ responses p hp
  have hinv := runLetters_invariant (iteration maxQuestions penalty secretWord) eof
    (fun s => s.possibleWords.Sublist dictionary)
    (fun s r c s' hs h => by
      show s'.possibleWords.Sublist dictionary
      rw [(iteration_asked _ _ _ _ _ _ _ h).2.2.2.1]
      exact (List.filter_sublist _).trans hs)
    fuel (startSession secretWord dictionary) responses (List.Sublist.refl _) p hp
  refine ⟨?_, hinv.2⟩
  have hpw : p.after.possibleWords =
      filterWords p.before.possibleWords p.before.guessedWord p.before.guessedLetters :=
    hpass.1
  have hocc : 0 < occurrences p.guessedLetter
      (filterWords p.before.possibleWords p.before.guessedWord p.before.guessedLetters) :=
    hpass.2
  rw [← hpw, ← count_flatten, List.count_pos_iff] at hocc
  obtain ⟨w, hw, hcw⟩ := List.mem_flatten.1 hocc
  exact ⟨w, hw, hcw⟩

/-- C17 (no guess outside the corpus): for a non-empty dictionary, every word asked
by `wordByWordGuessing`, by `randomizedWordByWordGuessing` (on a rearrangement of
the dictionary) and by `randomWordGuessing` is an entry of the dictionary, the
index `rand % size` of the latter being in bounds; every letter asked by the three
candidate-list modes occurs in a word of the candidate list in use, itself a
sublist of the dictionary.  The dictionary is an argument that no function
writes. -/
theorem guesses_within_corpus (shuffled : List (List Char)) (rands : List Nat)
    (secretWord : List Char) (dictionary : List (List Char)) (responses : List String)
    (hne : dictionary ≠ []) (hperm : shuffled.Perm dictionary) :
    (∀ p ∈ (wordByWordGuessing secretWord dictionary responses).prompts,
      p.guessedWord ∈ dictionary) ∧
    (∀ p ∈ (randomizedWordByWordGuessing shuffled secretWord dictionary responses).prompts,
      p.guessedWord ∈ dictionary) ∧
    ((∀ n : Nat, n % dictionary.length < dictionary.length) ∧
      (randomWordGuessing rands secretWord dictionary responses).exit
        ≠ WordExit.emptyDictionary ∧
      ∀ p ∈ (randomWordGuessing rands secretWord dictionary responses).prompts,
        p.guessedWord ∈ dictionary) ∧
    lettersFromCandidates dictionary (aiGuessing secretWord dictionary responses) ∧
    lettersFromCandidates dictionary
      (aiGuessingWithEnhancements secretWord dictionary responses) ∧
    lettersFromCandidates dictionary (challengingMode secretWord dictionary responses) := by
  have hpos : 0 < dictionary.length := List.length_pos.2 hne
  have hpre : ∀ (words : List (List Char)),
      ∀ p ∈ (wordLoop 20 "" words 0 responses).prompts, p.guessedWord ∈ words := by
    intro words p hp
    have h := (wordLoop_spec 20 "" words 0 responses).2.1
    exact h.subset (List.mem_map.2 ⟨p, hp, rfl⟩)
  refine ⟨hpre dictionary, fun p hp => hperm.subset (hpre shuffled p hp),
    ⟨fun n => Nat.mod_lt n hpos, ?_, ?_⟩,
    runLoop_lettersFromCandidates _ _ _ _ _ _ _, runLoop_lettersFromCandidates _ _ _ _ _ _ _,
    runLoop_lettersFromCandidates _ _ _ _ _ _ _⟩
  · exact randomWordLoop_exit 20 "" dictionary hne _ 0 rands responses
  · intro p hp
    exact ((randomWordLoop_spec 20 "" dictionary _ 0 rands responses).1 p hp).2.2.2.2

/-- Witness of C17 on the dictionary cat, car, can. -/
theorem guesses_within_corpus_witness :
    ["cat".toList, "car".toList, "can".toList] ≠ [] ∧
    ["can".toList, "cat".toList, "car".toList].Perm
      ["cat".toList, "car".toList, "can".toList] ∧
    (∀ p ∈ (randomWordGuessing [7, 5, 3] "car".toList
        ["cat".toList, "car".toList, "can".toList] ["no", "maybe", "yes"]).prompts,
      p.guessedWord ∈ ["cat".toList, "car".toList, "can".toList]) :=
  ⟨by decide, by decide,
    (guesses_within_corpus ["can".toList, "cat".toList, "car".toList] [7, 5, 3] "car".toList
      ["cat".toList, "car".toList, "can".toList] ["no", "maybe", "yes"]
      (by decide) (by decide)).2.2.1.2.2⟩

/-! ## The candidate list along a round -/

theorem matchesPattern_cons (T : List Char) (g x : Char) (gs w : List Char) :
    matchesPattern T (g :: gs) (x :: w) = true ↔
      (g ≠ '_' → g = x) ∧ (g = '_' → x ∉ T) ∧ matchesPattern T gs w = true := by
  rw [matchesPattern]
  by_cases h1 : g ≠ '_' ∧ g ≠ x
  · rw [if_pos h1]
    constructor
    · intro h; exact absurd h (by simp)
    · intro h; exact absurd (h.1 h1.1) h1.2
  · rw [if_neg h1]
    by_cases h2 : g = '_' ∧ x ∈ T
    · rw [if_pos h2]
      constructor
      · intro h; exact absurd h (by simp)
      · intro h; exact absurd h2.2 (h.2.1 h2.1)
    · rw [if_neg h2]
      constructor
      · intro h
        refine ⟨fun hg => ?_, fun hg hx => h2 ⟨hg, hx⟩, h⟩
        by_contra hne
        exact h1 ⟨hg, hne⟩
      · intro h; exact h.2.2

/-- A word accepted once one more letter is tried was accepted before. -/
theorem matchesPattern_insert (T : List Char) (c : Char) :
    ∀ (p w : List Char), matchesPattern (T.insert c) p w = true →
      matchesPattern T p w = true := by
  intro p
  induction p with
  | nil => intro w _; simp [matchesPattern]
  | cons g gs ih =>
      intro w h
      cases w with
      | nil => simp [matchesPattern]
      | cons x xs =>
          rw [matchesPattern_cons] at h ⊢
          exact ⟨h.1, fun hg hx => h.2.1 hg (List.mem_insert_of_mem hx), ih xs h.2.2⟩

/-- A word accepted after the untried letter `c` was revealed and recorded was
accepted before. -/
theorem matchesPattern_reveal (T : List Char) (c : Char) (hc : c ∉ T) (g s : List Char)
    (h : agrees g s) :
    ∀ w : List Char, matchesPattern (T.insert c) (reveal c s g) w = true →
      matchesPattern T g w = true := by
  unfold agrees at h
  induction h with
  | nil => intro w _; simp [matchesPattern]
  | @cons a b l₁ l₂ hab _ ih =>
      intro w hw
      cases w with
      | nil => simp [matchesPattern]
      | cons x xs =>
          rw [reveal, matchesPattern_cons] at hw
          rw [matchesPattern_cons]
          obtain ⟨h1, h2, h3⟩ := hw
          refine ⟨?_, ?_, ih xs h3⟩
          · intro ha
            have hab' : a = b := hab.resolve_left ha
            by_cases hbc : b = c
            · rw [if_pos hbc] at h1
              have hca : c = a := by rw [hab', hbc]
              rw [← hca]
              exact h1 (by rw [hca]; exact ha)
            · rw [if_neg hbc] at h1
              exact h1 ha
          · intro ha hx
            by_cases hbc : b = c
            · rw [if_pos hbc] at h1 h2
              by_cases hcb : c = '_'
              · exact h2 hcb (List.mem_insert_of_mem hx)
              · have hcx : c = x := h1 hcb
                exact hc (hcx ▸ hx)
            · rw [if_neg hbc] at h2
              exact h2 ha (List.mem_insert_of_mem hx)

/-- Filtering the filtered list again after a pass gives what filtering the whole
dictionary gives, as soon as this was so before the pass. -/
theorem filterWords_step (dictionary : List (List Char)) (g g' T T' : List Char)
    (X : List (List Char))
    (hX : filterWords X g T = filterWords dictionary g T)
    (hlen : g'.length = g.length)
    (hmono : ∀ w : List Char, matchesPattern T' g' w = true → matchesPattern T g w = true) :
    filterWords (filterWords X g T) g' T' = filterWords dictionary g' T' := by
  rw [hX]
  unfold filterWords
  rw [List.filter_filter]
  apply List.filter_congr
  intro w _
  by_cases hw : (decide (w.length = g'.length) && matchesPattern T' g' w) = true
  · rw [hw]
    simp only [Bool.and_eq_true, decide_eq_true_eq] at hw
    simp only [Bool.true_and, Bool.and_eq_true, decide_eq_true_eq]
    exact ⟨hw.1.trans hlen, hmono w hw.2⟩
  · rw [Bool.not_eq_true] at hw
    rw [hw]
    simp

/-- The invariant behind C18 is kept by every pass of the loop that asks. -/
theorem iteration_recomputed (maxQuestions penalty : Nat) (secretWord : List Char)
    (dictionary : List (List Char)) (s : Session) (response : String) (c : Char)
    (s' : Session)
    (hinv : agrees s.guessedWord secretWord ∧
      filterWords s.possibleWords s.guessedWord s.guessedLetters =
        filterWords dictionary s.guessedWord s.guessedLetters)
    (h : iteration maxQuestions penalty secretWord s response = .asked c s') :
    agrees s'.guessedWord secretWord ∧
      filterWords s'.possibleWords s'.guessedWord s'.guessedLetters =
        filterWords dictionary s'.guessedWord s'.guessedLetters := by
  have hpass := iteration_pass _ _ _ _ _ _ _ h
  have ha' := letterPass_agrees _ _ _ _ _ _ _ hpass hinv.1
  obtain ⟨_, _, hins, hpw, _⟩ := iteration_asked _ _ _ _ _ _ _ h
  obtain ⟨hfresh, _⟩ := iteration_asked_fresh _ _ _ _ _ _ _ h
  refine ⟨ha', ?_⟩
  rw [hpw, hins]
  apply filterWords_step dictionary s.guessedWord s'.guessedWord s.guessedLetters _
    s.possibleWords hinv.2
  · rw [agrees_length _ _ ha', agrees_length _ _ hinv.1]
  · intro w hw
    obtain ⟨_, _, _, hgw, _⟩ := hpass
    rw [hgw] at hw
    split at hw
    · exact matchesPattern_reveal _ c hfresh _ _ hinv.1 w hw
    · exact matchesPattern_insert _ c _ w hw

/-- An invariant kept by the asking passes whose question satisfies `Good` holds at
both ends of every question of a run whose questions all satisfy `Good`, and at
the pass that leaves the loop. -/
theorem runLetters_guarded (step : Session → String → Iteration) (eof : String)
    (Inv : Session → Prop) (Good : Char → String → Prop)
    (hask : ∀ s r c s', Inv s → Good c r → step s r = .asked c s' → Inv s') :
    ∀ (fuel : Nat) (s : Session) (responses : List String), Inv s →
      (∀ p ∈ (runLetters step eof fuel s responses).prompts,
        Good p.guessedLetter p.response) →
      (∀ p ∈ (runLetters step eof fuel s responses).prompts, Inv p.before ∧ Inv p.after) ∧
      ((runLetters step eof fuel s responses).exit = Exit.outOfFuel ∨
        ∃ s₀ r₀, Inv s₀ ∧
          step s₀ r₀ = .stop (runLetters step eof fuel s responses).exit
            (runLetters step eof fuel s responses).final) := by
  intro fuel
  induction fuel with
  | zero => intro s responses _ _; simp [runLetters]
  | succ n ih =>
      intro s responses hs hgood
      rw [runLetters] at hgood ⊢
      cases hit : step s (responses.headD eof) with
      | stop e s' =>
          simp only [List.not_mem_nil, false_imp_iff, implies_true, true_and]
          exact Or.inr ⟨s, _, hs, hit⟩
      | asked c s' =>
          rw [hit] at hgood
          simp only [List.mem_cons, forall_eq_or_imp] at hgood ⊢
          have hs' := hask _ _ _ _ hs hgood.1 hit
          obtain ⟨ih1, ih2⟩ := ih s' responses.tail hs' hgood.2
          exact ⟨⟨⟨hs, hs'⟩, ih1⟩, ih2⟩

/-- The three ways in which a pass of the loop leaves it. -/
theorem iteration_stop_cases (maxQuestions penalty : Nat) (secretWord : List Char)
    (s : Session) (response : String) (e : Exit) (s' : Session)
    (h : iteration maxQuestions penalty secretWord s response = .stop e s') :
    (e = Exit.loopCondition ∧ s' = s ∧
      ¬ (s.questionsAsked < maxQuestions ∧ s.guessedWord ≠ secretWord)) ∨
    (e = Exit.noWords ∧ s'.possibleWords = [] ∧
      filterWords s.possibleWords s.guessedWord s.guessedLetters = []) ∨
    (e = Exit.noLetters ∧
      (s.questionsAsked < maxQuestions ∧ s.guessedWord ≠ secretWord) ∧
      filterWords s.possibleWords s.guessedWord s.guessedLetters ≠ [] ∧
      (selectLetter (calculateLetterFrequencies
        (filterWords s.possibleWords s.guessedWord s.guessedLetters) s.guessedLetters)).1
        = Char.ofNat 0) := by
  unfold iteration at h
  split at h
  · rename_i hcond
    simp only at h
    split at h
    · rename_i hempty
      injection h with h1 h2
      right; left
      subst h2
      exact ⟨h1.symm, hempty, hempty⟩
    · rename_i hne
      split at h
      · rename_i hnul
        injection h with h1 h2
        right; right
        exact ⟨h1.symm, hcond, hne, hnul⟩
      · split at h
        · exact absurd h (by simp)
        · split at h
          · exact absurd h (by simp)
          · exact absurd h (by simp)
  · rename_i hcond
    injection h with h1 h2
    left
    exact ⟨h1.symm, h2.symm, hcond⟩

theorem runLoop_candidatesRecomputed (maxQuestions penalty : Nat) (eof : String)
    (secretWord : List Char) (fuel : Nat) (dictionary : List (List Char))
    (responses : List String) :
    candidatesRecomputed dictionary
      (runLoop maxQuestions penalty eof secretWord fuel (startSession secretWord dictionary)
        responses) := by
  rw [runLoop_eq_runLetters]
  intro p hp
  have hpass := runLetters_passes (iteration maxQuestions penalty secretWord) eof
    (fun s c _ s' =>
      s'.possibleWords = filterWords s.possibleWords s.guessedWord s.guessedLetters ∧
      c = (selectLetter (calculateLetterFrequencies
          (filterWords s.possibleWords s.guessedWord s.guessedLetters) s.guessedLetters)).1)
    (fun s r c s' h =>
      ⟨(iteration_asked _ _ _ _ _ _ _ h).2.2.2.1, (iteration_asked _ _ _ _ _ _ _ h).1⟩)
    fuel _ responses p hp
  have hinv := (runLetters_invariant (iteration maxQuestions penalty secretWord) eof
    (fun s => agrees s.guessedWord secretWord ∧
      filterWords s.possibleWords s.guessedWord s.guessedLetters =
        filterWords dictionary s.guessedWord s.guessedLetters)
    (fun s r c s' hs h => iteration_recomputed _ _ _ dictionary s r c s' hs h)
    fuel (startSession secretWord dictionary) responses
    ⟨agrees_start secretWord, rfl⟩ p hp).1
  have hpw : p.after.possibleWords =
      filterWords p.before.possibleWords p.before.guessedWord p.before.guessedLetters :=
    hpass.1
  have hsel : p.guessedLetter = (selectLetter (calculateLetterFrequencies
      (filterWords p.before.possibleWords p.before.guessedWord p.before.guessedLetters)
      p.before.guessedLetters)).1 := hpass.2
  have hrec : filterWords p.before.possibleWords p.before.guessedWord p.before.guessedLetters =
      filterWords dictionary p.before.guessedWord p.before.guessedLetters := hinv.2
  refine ⟨hpw, hpw.trans hrec, ?_⟩
  rw [hpw]
  exact hsel

/-- C18 (the candidate list is the recomputed filter): at every question of
`aiGuessing`, `aiGuessingWithEnhancements` and `challengingMode`, for every
dictionary, secret and list of responses, the candidate list from which the letter
is selected, obtained by filtering the previous candidate list, equals
`filterWords` applied to the whole dictionary under the pattern and the tried
letters of that moment. -/
theorem candidates_are_recomputed_filter (secretWord : List Char)
    (dictionary : List (List Char)) (responses : List String) :
    candidatesRecomputed dictionary (aiGuessing secretWord dictionary responses) ∧
    candidatesRecomputed dictionary
      (aiGuessingWithEnhancements secretWord dictionary responses) ∧
    candidatesRecomputed dictionary (challengingMode secretWord dictionary responses) :=
  ⟨runLoop_candidatesRecomputed _ _ _ _ _ _ _, runLoop_candidatesRecomputed _ _ _ _ _ _ _,
    runLoop_candidatesRecomputed _ _ _ _ _ _ _⟩

/-! ## Accurate answers and the exits of the loop -/

theorem agrees_blank (g s : List Char) (h : agrees g s) (hne : g ≠ s) : '_' ∈ g := by
  unfold agrees at h
  induction h with
  | nil => exact absurd rfl hne
  | @cons a b l₁ l₂ hab _ ih =>
      by_cases he : a = b
      · have : l₁ ≠ l₂ := fun e => hne (by rw [he, e])
        exact List.mem_cons_of_mem _ (ih this)
      · have ha : a = '_' := hab.resolve_right he
        rw [ha]
        exact List.mem_cons_self _ _

/-- A candidate list that is not empty under a pattern with a blank holds an
untried letter. -/
theorem exists_untried (X : List (List Char)) (g T : List Char)
    (hne : filterWords X g T ≠ []) (hblank : '_' ∈ g) :
    ∃ c, c ∉ T ∧ 0 < occurrences c (filterWords X g T) := by
  obtain ⟨w, hw⟩ := List.exists_mem_of_ne_nil _ hne
  obtain ⟨i, hi, hgi⟩ := List.mem_iff_getElem.1 hblank
  obtain ⟨_, hlen, hm⟩ := (mem_filterWords X g T w).1 hw
  have hiw : i < w.length := by rw [hlen]; exact hi
  have := ((matchesPattern_iff T g w hlen).1 hm i hi hiw).2 hgi
  refine ⟨w[i], this, ?_⟩
  rw [← count_flatten, List.count_pos_iff]
  exact List.mem_flatten.2 ⟨w, hw, List.getElem_mem hiw⟩

theorem table_ne_nil (W : List (List Char)) (E : List Char) (c : Char) (hc : c ∉ E)
    (hocc : 0 < occurrences c W) : calculateLetterFrequencies W E ≠ [] := by
  intro hnil
  have hf := frequencyOf_eq W E c
  rw [hnil] at hf
  have h0 : ¬ (c ∈ E ∨ occurrences c W = 0) := by
    rintro (h | h)
    · exact hc h
    · omega
  rw [if_neg h0] at hf
  simp [frequencyOf] at hf

/-- The letter selected from a non-empty table occurs in a word that was counted. -/
theorem selectLetter_occurs (W : List (List Char)) (E : List Char)
    (h : calculateLetterFrequencies W E ≠ []) :
    ∃ w ∈ W, (selectLetter (calculateLetterFrequencies W E)).1 ∈ w := by
  obtain ⟨hs, _, _⟩ := calculateLetterFrequencies_spec W E
  have hmem := (selectLetter_spec W E h).1
  have hl : (calculateLetterFrequencies W E).lookup (selectLetter (calculateLetterFrequencies W E)).1
      = some (selectLetter (calculateLetterFrequencies W E)).2 :=
    lookup_of_mem (selectLetter (calculateLetterFrequencies W E)).1
      (selectLetter (calculateLetterFrequencies W E)).2 _ hs hmem
  have hf := frequencyOf_eq W E (selectLetter (calculateLetterFrequencies W E)).1
  unfold frequencyOf at hf
  rw [hl] at hf
  have hpos : 0 < occurrences (selectLetter (calculateLetterFrequencies W E)).1 W := by
    by_contra h0
    have h1 : occurrences (selectLetter (calculateLetterFrequencies W E)).1 W = 0 := by omega
    simp [h1] at hf
  rw [← count_flatten, List.count_pos_iff] at hpos
  exact List.mem_flatten.1 hpos

/-- With candidates free of the NUL character, a non-empty candidate list under a
pattern with a blank makes the selection loop return a letter. -/
theorem selected_ne_nul (X : List (List Char)) (g T : List Char)
    (hnul : ∀ w ∈ X, Char.ofNat 0 ∉ w)
    (hne : filterWords X g T ≠ []) (hblank : '_' ∈ g) :
    (selectLetter (calculateLetterFrequencies (filterWords X g T) T)).1 ≠ Char.ofNat 0 := by
  obtain ⟨c, hc, hocc⟩ := exists_untried X g T hne hblank
  obtain ⟨w, hw, hsel⟩ := selectLetter_occurs _ _ (table_ne_nil _ _ c hc hocc)
  intro h0
  rw [h0] at hsel
  exact hnul w ((mem_filterWords X g T w).1 hw).1 hsel

/-- A pass whose loop condition holds and whose selection returns a letter asks
that letter. -/
theorem iteration_asks (maxQuestions penalty : Nat) (secretWord : List Char) (s : Session)
    (response : String)
    (hcond : s.questionsAsked < maxQuestions ∧ s.guessedWord ≠ secretWord)
    (hne : filterWords s.possibleWords s.guessedWord s.guessedLetters ≠ [])
    (hsel : (selectLetter (calculateLetterFrequencies
        (filterWords s.possibleWords s.guessedWord s.guessedLetters) s.guessedLetters)).1
        ≠ Char.ofNat 0) :
    ∃ s', iteration maxQuestions penalty secretWord s response =
      .asked (selectLetter (calculateLetterFrequencies
        (filterWords s.possibleWords s.guessedWord s.guessedLetters) s.guessedLetters)).1 s' := by
  unfold iteration
  rw [if_pos hcond]
  simp only
  rw [if_neg hne, if_neg hsel]
  by_cases h1 : response ≠ "yes" ∧ response ≠ "no"
  · rw [if_pos h1]; exact ⟨_, rfl⟩
  · rw [if_neg h1]
    by_cases h2 : response = "yes"
    · rw [if_pos h2]; exact ⟨_, rfl⟩
    · rw [if_neg h2]; exact ⟨_, rfl⟩

/-- On a dictionary free of the NUL character no round of the loop is left through
the "run out of letters" `break`. -/
theorem runLoop_not_noLetters (maxQuestions penalty : Nat) (eof : String)
    (secretWord : List Char) (fuel : Nat) (dictionary : List (List Char))
    (responses : List String) (hnul : ∀ w ∈ dictionary, Char.ofNat 0 ∉ w) :
    (runLoop maxQuestions penalty eof secretWord fuel (startSession secretWord dictionary)
      responses).exit ≠ Exit.noLetters := by
  rw [runLoop_eq_runLetters]
  intro hexit
  have h := (runLetters_guarded (iteration maxQuestions penalty secretWord) eof
    (fun s => agrees s.guessedWord secretWord ∧ s.possibleWords.Sublist dictionary)
    (fun _ _ => True)
    (fun s r c s' hs _ hit => by
      refine ⟨letterPass_agrees _ _ _ _ _ _ _ (iteration_pass _ _ _ _ _ _ _ hit) hs.1, ?_⟩
      show s'.possibleWords.Sublist dictionary
      rw [(iteration_asked _ _ _ _ _ _ _ hit).2.2.2.1]
      exact (List.filter_sublist _).trans hs.2)
    fuel (startSession secretWord dictionary) responses
    ⟨agrees_start secretWord, List.Sublist.refl _⟩ (fun _ _ => trivial)).2
  rw [hexit] at h
  rcases h with h | ⟨s₀, r₀, hinv, hstop⟩
  · exact absurd h (by simp)
  · have hagree : agrees s₀.guessedWord secretWord := hinv.1
    have hsub : s₀.possibleWords.Sublist dictionary := hinv.2
    rcases iteration_stop_cases _ _ _ _ _ _ _ hstop with ⟨he, _⟩ | ⟨he, _⟩ | ⟨_, hcond, hne, hsel⟩
    · exact absurd he (by simp)
    · exact absurd he (by simp)
    · exact selected_ne_nul s₀.possibleWords s₀.guessedWord s₀.guessedLetters
        (fun w hw => hnul w (hsub.subset hw)) hne
        (agrees_blank _ _ hagree hcond.2) hsel

/-- C20 (the "run out of letters" branch and well-formed words): in a pass of the
loop on candidates free of the NUL character, if the filtered candidate list is
not empty and the pattern has a blank, some untried letter has a positive count,
the selection returns a letter and, the loop condition holding, the pass asks it;
the "run out of letters" `break` is taken only if no untried letter has a positive
count; and on a dictionary free of NUL no round of the three candidate-list modes
ends through that `break`. -/
theorem noLetters_unreachable (maxQuestions penalty : Nat) (secretWord : List Char)
    (s : Session) (response : String)
    (hnul : ∀ w ∈ s.possibleWords, Char.ofNat 0 ∉ w) :
    (filterWords s.possibleWords s.guessedWord s.guessedLetters ≠ [] → '_' ∈ s.guessedWord →
      (∃ c, c ∉ s.guessedLetters ∧
        0 < occurrences c (filterWords s.possibleWords s.guessedWord s.guessedLetters)) ∧
      (selectLetter (calculateLetterFrequencies
        (filterWords s.possibleWords s.guessedWord s.guessedLetters) s.guessedLetters)).1
        ≠ Char.ofNat 0 ∧
      (s.questionsAsked < maxQuestions → s.guessedWord ≠ secretWord →
        ∃ c s', iteration maxQuestions penalty secretWord s response = .asked c s')) ∧
    (∀ s', iteration maxQuestions penalty secretWord s response = .stop .noLetters s' →
      ∀ c, c ∉ s.guessedLetters →
        occurrences c (filterWords s.possibleWords s.guessedWord s.guessedLetters) = 0) ∧
    (∀ (dictionary : List (List Char)) (responses : List String),
      (∀ w ∈ dictionary, Char.ofNat 0 ∉ w) →
      (aiGuessing secretWord dictionary responses).exit ≠ Exit.noLetters ∧
      (aiGuessingWithEnhancements secretWord dictionary responses).exit ≠ Exit.noLetters ∧
      (challengingMode secretWord dictionary responses).exit ≠ Exit.noLetters) := by
  refine ⟨?_, ?_, ?_⟩
  · intro hne hblank
    have hsel := selected_ne_nul s.possibleWords s.guessedWord s.guessedLetters hnul hne hblank
    refine ⟨exists_untried _ _ _ hne hblank, hsel, fun h1 h2 => ?_⟩
    obtain ⟨s', hs'⟩ := iteration_asks maxQuestions penalty secretWord s response ⟨h1, h2⟩
      hne hsel
    exact ⟨_, s', hs'⟩
  · intro s' hstop c hc
    rcases iteration_stop_cases _ _ _ _ _ _ _ hstop with ⟨he, _⟩ | ⟨he, _⟩ | ⟨_, _, _, hsel⟩
    · exact absurd he (by simp)
    · exact absurd he (by simp)
    · by_contra h0
      have hpos : 0 < occurrences c
          (filterWords s.possibleWords s.guessedWord s.guessedLetters) := by omega
      obtain ⟨w, hw, hmem⟩ := selectLetter_occurs _ _ (table_ne_nil _ _ c hc hpos)
      rw [hsel] at hmem
      exact hnul w ((mem_filterWords _ _ _ w).1 hw).1 hmem
  · intro dictionary responses hd
    exact ⟨runLoop_not_noLetters _ _ _ _ _ _ _ hd, runLoop_not_noLetters _ _ _ _ _ _ _ hd,
      runLoop_not_noLetters _ _ _ _ _ _ _ hd⟩

/-- Witness of C20 at the start of a round on cat, car, can with secret car. -/
theorem noLetters_unreachable_witness :
    (∀ w ∈ (startSession "car".toList
        ["cat".toList, "car".toList, "can".toList]).possibleWords, Char.ofNat 0 ∉ w) ∧
    ∃ c s', iteration 20 0 "car".toList
      (startSession "car".toList ["cat".toList, "car".toList, "can".toList]) "yes"
      = .asked c s' :=
  ⟨by decide,
    ((noLetters_unreachable 20 0 "car".toList
      (startSession "car".toList ["cat".toList, "car".toList, "can".toList]) "yes"
      (by decide)).1 (by decide) (by decide)).2.2 (by decide) (by decide)⟩

theorem reveal_map (c : Char) (f : Char → Char) :
    ∀ l : List Char, reveal c l (l.map f) = l.map (fun x => if x = c then c else f x) := by
  intro l
  induction l with
  | nil => simp [reveal]
  | cons a as ih => simp [reveal, ih]

/-- After an accurate "yes" the pattern is the accurate pattern of the enlarged set
of tried letters. -/
theorem reveal_accuratePattern (c : Char) (secretWord T : List Char) :
    reveal c secretWord (accuratePattern secretWord T) =
      accuratePattern secretWord (T.insert c) := by
  unfold accuratePattern
  rw [reveal_map]
  apply List.map_congr_left
  intro x _
  by_cases hxc : x = c
  · simp [hxc]
  · by_cases hxT : x ∈ T
    · simp [hxc, hxT]
    · simp [hxc, hxT]

/-- After an accurate "no" the pattern is still the accurate pattern. -/
theorem accuratePattern_insert (c : Char) (secretWord T : List Char) (hc : c ∉ secretWord) :
    accuratePattern secretWord (T.insert c) = accuratePattern secretWord T := by
  unfold accuratePattern
  apply List.map_congr_left
  intro x hx
  have hxc : x ≠ c := fun e => hc (e ▸ hx)
  simp [hxc]

theorem accuratePattern_nil (secretWord : List Char) :
    accuratePattern secretWord [] = List.replicate secretWord.length '_' := by
  unfold accuratePattern
  induction secretWord with
  | nil => rfl
  | cons a as ih => simp [List.replicate_succ, ih]

/-- The filter keeps a word without blank under its own accurate pattern. -/
theorem accuratePattern_kept (C : List (List Char)) (w T : List Char)
    (hw : w ∈ C) (hblank : '_' ∉ w) :
    w ∈ filterWords C (accuratePattern w T) T := by
  have hlen : w.length = (accuratePattern w T).length := by simp [accuratePattern]
  refine (mem_filterWords C _ T w).2 ⟨hw, hlen, (matchesPattern_iff T _ w hlen).2 ?_⟩
  intro i hp hi
  have hne : w[i] ≠ '_' := fun e => hblank (e ▸ List.getElem_mem hi)
  have hpi : (accuratePattern w T)[i] = if w[i] ∈ T then w[i] else '_' := by
    simp [accuratePattern]
  rw [hpi]
  by_cases hT : w[i] ∈ T
  · simp [hT, hne]
  · simp [hT]

/-- A round of the loop in which every response is accurate, for a secret of the
dictionary without blank: the secret is a candidate at every question, the loop
is not left for want of candidates, and on a dictionary free of NUL it is left by
its condition, the word being guessed or the budget reached. -/
theorem runLoop_accurate (maxQuestions penalty : Nat) (eof : String)
    (secretWord : List Char) (dictionary : List (List Char)) (responses : List String)
    (hmem : secretWord ∈ dictionary) (hblank : '_' ∉ secretWord)
    (hacc : accurateAnswers secretWord
      (runLoop maxQuestions penalty eof secretWord (enoughFuel dictionary)
        (startSession secretWord dictionary) responses)) :
    (∀ p ∈ (runLoop maxQuestions penalty eof secretWord (enoughFuel dictionary)
        (startSession secretWord dictionary) responses).prompts,
      secretWord ∈ p.after.possibleWords) ∧
    (runLoop maxQuestions penalty eof secretWord (enoughFuel dictionary)
      (startSession secretWord dictionary) responses).exit ≠ Exit.noWords ∧
    ((∀ w ∈ dictionary, Char.ofNat 0 ∉ w) →
      (runLoop maxQuestions penalty eof secretWord (enoughFuel dictionary)
        (startSession secretWord dictionary) responses).exit = Exit.loopCondition ∧
      (solved secretWord (runLoop maxQuestions penalty eof secretWord (enoughFuel dictionary)
          (startSession secretWord dictionary) responses) = true ∨
        maxQuestions ≤ (runLoop maxQuestions penalty eof secretWord (enoughFuel dictionary)
          (startSession secretWord dictionary) responses).final.questionsAsked)) := by
  have hfuel := enoughFuel_spec maxQuestions penalty eof secretWord dictionary responses
  rw [runLoop_eq_runLetters] at hacc hfuel ⊢
  have hguard := runLetters_guarded (iteration maxQuestions penalty secretWord) eof
    (fun s => s.guessedWord = accuratePattern secretWord s.guessedLetters ∧
      (agrees s.guessedWord secretWord ∧
        filterWords s.possibleWords s.guessedWord s.guessedLetters =
          filterWords dictionary s.guessedWord s.guessedLetters) ∧
      s.possibleWords.Sublist dictionary)
    (fun c r => r = if c ∈ secretWord then "yes" else "no")
    (fun s r c s' hs hgood hit => by
      obtain ⟨hpat, hrec, hsub⟩ := hs
      obtain ⟨_, _, hins, hpw, _⟩ := iteration_asked _ _ _ _ _ _ _ hit
      obtain ⟨_, _, _, hgw, _⟩ := iteration_pass _ _ _ _ _ _ _ hit
      refine ⟨?_, iteration_recomputed _ _ _ dictionary s r c s' hrec hit, ?_⟩
      · show s'.guessedWord = accuratePattern secretWord s'.guessedLetters
        have hr : r = if c ∈ secretWord then "yes" else "no" := hgood
        rw [hgw, hins, hpat]
        by_cases hc : c ∈ secretWord
        · rw [if_pos hc] at hr
          rw [if_pos hr, reveal_accuratePattern]
        · rw [if_neg hc] at hr
          rw [if_neg (by rw [hr]; decide), accuratePattern_insert c _ _ hc]
      · show s'.possibleWords.Sublist dictionary
        rw [hpw]
        exact (List.filter_sublist _).trans hsub)
    (enoughFuel dictionary) (startSession secretWord dictionary) responses
    ⟨(accuratePattern_nil secretWord).symm, ⟨agrees_start secretWord, rfl⟩,
      List.Sublist.refl _⟩
    hacc
  have hcand : ∀ s : Session,
      (s.guessedWord = accuratePattern secretWord s.guessedLetters ∧
        (agrees s.guessedWord secretWord ∧
          filterWords s.possibleWords s.guessedWord s.guessedLetters =
            filterWords dictionary s.guessedWord s.guessedLetters) ∧
        s.possibleWords.Sublist dictionary) →
      secretWord ∈ filterWords s.possibleWords s.guessedWord s.guessedLetters := by
    intro s hs
    rw [hs.2.1.2, hs.1]
    exact accuratePattern_kept dictionary secretWord s.guessedLetters hmem hblank
  refine ⟨?_, ?_, ?_⟩
  · intro p hp
    have hpw : p.after.possibleWords =
        filterWords p.before.possibleWords p.before.guessedWord p.before.guessedLetters :=
      runLetters_passes (iteration maxQuestions penalty secretWord) eof
        (fun s _ _ s' =>
          s'.possibleWords = filterWords s.possibleWords s.guessedWord s.guessedLetters)
        (fun s r c s' h => (iteration_asked _ _ _ _ _ _ _ h).2.2.2.1)
        _ _ responses p hp
    rw [hpw]
    exact hcand p.before (hguard.1 p hp).1
  · intro hexit
    rcases hguard.2 with h | ⟨s₀, r₀, hinv, hstop⟩
    · exact hfuel h
    · rw [hexit] at hstop
      rcases iteration_stop_cases _ _ _ _ _ _ _ hstop with ⟨he, _⟩ | ⟨_, _, hnil⟩ | ⟨he, _⟩
      · exact absurd he (by simp)
      · have := hcand s₀ hinv
        rw [hnil] at this
        exact absurd this (List.not_mem_nil _)
      · exact absurd he (by simp)
  · intro hnul
    rcases hguard.2 with h | ⟨s₀, r₀, hinv, hstop⟩
    · exact absurd h hfuel
    · rcases iteration_stop_cases _ _ _ _ _ _ _ hstop with
        ⟨he, hfin, hcond⟩ | ⟨_, _, hnil⟩ | ⟨_, hcond, hne, hsel⟩
      · refine ⟨he, ?_⟩
        unfold solved
        rw [hfin]
        by_cases hg : s₀.guessedWord = secretWord
        · left; simp [hg]
        · right
          by_contra hlt
          exact hcond ⟨Nat.lt_of_not_ge hlt, hg⟩
      · have := hcand s₀ hinv
        rw [hnil] at this
        exact absurd this (List.not_mem_nil _)
      · exact absurd hsel (selected_ne_nul s₀.possibleWords s₀.guessedWord s₀.guessedLetters
          (fun w hw => hnul w (hinv.2.2.subset hw)) hne
          (agrees_blank _ _ hinv.2.1.1 hcond.2))

/-- C19 (counterexample): the dictionary holds the secret ab and a word made of a
and the NUL character; the only response, "yes" for a, is accurate and the secret
is a candidate, yet the second pass selects NUL and the round ends through the
"run out of letters" `break`, the word not guessed and the counter at 1. -/
theorem nul_word_counterexample :
    "ab".toList ∈ ["ab".toList, ['a', Char.ofNat 0]] ∧
    (∀ c ∈ "ab".toList, c.isAlpha = true) ∧
    (aiGuessing "ab".toList ["ab".toList, ['a', Char.ofNat 0]] ["yes"]).prompts.map
        (fun p => (p.guessedLetter, p.response, decide (p.guessedLetter ∈ "ab".toList)))
      = [('a', "yes", true)] ∧
    "ab".toList ∈
      (aiGuessing "ab".toList ["ab".toList, ['a', Char.ofNat 0]] ["yes"]).final.possibleWords ∧
    (aiGuessing "ab".toList ["ab".toList, ['a', Char.ofNat 0]] ["yes"]).exit
      = Exit.noLetters ∧
    solved "ab".toList (aiGuessing "ab".toList ["ab".toList, ['a', Char.ofNat 0]] ["yes"])
      = false ∧
    (aiGuessing "ab".toList ["ab".toList, ['a', Char.ofNat 0]] ["yes"]).final.questionsAsked
      = 1 := by
  decide

/-- C19 (exhausted only on inconsistency, amended): for a secret without blank (an
alphabetic one in particular) that is in the dictionary, in a round of
`aiGuessing`, `aiGuessingWithEnhancements` or `challengingMode` where every
response is accurate, the secret is in the candidate list of every question and
the loop is never left for want of candidates; if moreover no word of the
dictionary holds the NUL character, the loop is left by its condition only, the
word being guessed or the budget reached. -/
theorem exhausted_only_on_inconsistency (secretWord : List Char)
    (dictionary : List (List Char)) (responses : List String)
    (hmem : secretWord ∈ dictionary) (hblank : '_' ∉ secretWord) :
    (accurateAnswers secretWord (aiGuessing secretWord dictionary responses) →
      (∀ p ∈ (aiGuessing secretWord dictionary responses).prompts,
        secretWord ∈ p.after.possibleWords) ∧
      (aiGuessing secretWord dictionary responses).exit ≠ Exit.noWords ∧
      ((∀ w ∈ dictionary, Char.ofNat 0 ∉ w) →
        (aiGuessing secretWord dictionary responses).exit = Exit.loopCondition ∧
        (solved secretWord (aiGuessing secretWord dictionary responses) = true ∨
          20 ≤ (aiGuessing secretWord dictionary responses).final.questionsAsked))) ∧
    (accurateAnswers secretWord (aiGuessingWithEnhancements secretWord dictionary responses) →
      (∀ p ∈ (aiGuessingWithEnhancements secretWord dictionary responses).prompts,
        secretWord ∈ p.after.possibleWords) ∧
      (aiGuessingWithEnhancements secretWord dictionary responses).exit ≠ Exit.noWords ∧
      ((∀ w ∈ dictionary, Char.ofNat 0 ∉ w) →
        (aiGuessingWithEnhancements secretWord dictionary responses).exit
          = Exit.loopCondition ∧
        (solved secretWord (aiGuessingWithEnhancements secretWord dictionary responses)
            = true ∨
          20 ≤ (aiGuessingWithEnhancements secretWord dictionary
            responses).final.questionsAsked))) ∧
    (accurateAnswers secretWord (challengingMode secretWord dictionary responses) →
      (∀ p ∈ (challengingMode secretWord dictionary responses).prompts,
        secretWord ∈ p.after.possibleWords) ∧
      (challengingMode secretWord dictionary responses).exit ≠ Exit.noWords ∧
      ((∀ w ∈ dictionary, Char.ofNat 0 ∉ w) →
        (challengingMode secretWord dictionary responses).exit = Exit.loopCondition ∧
        (solved secretWord (challengingMode secretWord dictionary responses) = true ∨
          10 ≤ (challengingMode secretWord dictionary responses).final.questionsAsked))) :=
  ⟨fun h => runLoop_accurate 20 0 "" secretWord dictionary responses hmem hblank h,
    fun h => runLoop_accurate 20 0 "no" secretWord dictionary responses hmem hblank h,
    fun h => runLoop_accurate 10 2 "no" secretWord dictionary responses hmem hblank h⟩

/-- Witness of C19 (amended) on the worked example: corpus cat, car, can, secret
car, accurate answers yes, yes, no, yes. -/
theorem exhausted_only_on_inconsistency_witness :
    "car".toList ∈ ["cat".toList, "car".toList, "can".toList] ∧
    '_' ∉ "car".toList ∧
    accurateAnswers "car".toList
      (aiGuessing "car".toList ["cat".toList, "car".toList, "can".toList]
        ["yes", "yes", "no", "yes"]) ∧
    (∀ w ∈ ["cat".toList, "car".toList, "can".toList], Char.ofNat 0 ∉ w) ∧
    (aiGuessing "car".toList ["cat".toList, "car".toList, "can".toList]
      ["yes", "yes", "no", "yes"]).exit = Exit.loopCondition :=
  ⟨by decide, by decide, by unfold accurateAnswers; decide, by decide,
    (((exhausted_only_on_inconsistency "car".toList
      ["cat".toList, "car".toList, "can".toList] ["yes", "yes", "no", "yes"]
      (by decide) (by decide)).1 (by unfold accurateAnswers; decide)).2.2 (by decide)).1⟩

/-! ## Number of questions and range of the counter -/

theorem runLoop_promptsBounded (maxQuestions penalty : Nat) (eof : String)
    (secretWord : List Char) (dictionary : List (List Char)) (responses : List String) :
    promptsBounded dictionary
      (runLoop maxQuestions penalty eof secretWord (enoughFuel dictionary)
        (startSession secretWord dictionary) responses) := by
  refine ⟨?_, enoughFuel_spec maxQuestions penalty eof secretWord dictionary responses⟩
  have hnodup := (runLoop_fresh maxQuestions penalty eof secretWord (enoughFuel dictionary)
    (startSession secretWord dictionary) responses).2
  have hcand := runLoop_lettersFromCandidates maxQuestions penalty eof secretWord
    (enoughFuel dictionary) dictionary responses
  have hsub : (runLoop maxQuestions penalty eof secretWord (enoughFuel dictionary)
      (startSession secretWord dictionary) responses).prompts.map Prompt.guessedLetter
      ⊆ dictionary.flatten.dedup := by
    intro c hc
    obtain ⟨p, hp, hpc⟩ := List.mem_map.1 hc
    obtain ⟨⟨w, hw, hcw⟩, hsubl⟩ := hcand p hp
    rw [List.mem_dedup, ← hpc]
    exact List.mem_flatten.2 ⟨w, hsubl.subset hw, hcw⟩
  have hle := (List.subperm_of_subset hnodup hsub).length_le
  rw [List.length_map] at hle
  exact hle

/-- C21 (finite prompting): in `aiGuessing`, `aiGuessingWithEnhancements` and
`challengingMode`, for every dictionary, secret and list of responses (malformed
ones included), the number of questions asked is at most the number of distinct
letters occurring in the dictionary, and the loop is always left by the program
itself. -/
theorem finite_prompting (secretWord : List Char) (dictionary : List (List Char))
    (responses : List String) :
    promptsBounded dictionary (aiGuessing secretWord dictionary responses) ∧
    promptsBounded dictionary (aiGuessingWithEnhancements secretWord dictionary responses) ∧
    promptsBounded dictionary (challengingMode secretWord dictionary responses) :=
  ⟨runLoop_promptsBounded 20 0 "" secretWord dictionary responses,
    runLoop_promptsBounded 20 0 "no" secretWord dictionary responses,
    runLoop_promptsBounded 10 2 "no" secretWord dictionary responses⟩

theorem lastAfter_cases (start : Session) :
    ∀ prompts : List Prompt,
      lastAfter start prompts = start ∨ ∃ p ∈ prompts, lastAfter start prompts = p.after := by
  intro prompts
  induction prompts generalizing start with
  | nil => left; simp [lastAfter]
  | cons a l ih =>
      right
      rw [lastAfter_cons]
      rcases ih a.after with h | ⟨p, hp, h⟩
      · exact ⟨a, List.mem_cons_self _ _, h⟩
      · exact ⟨p, List.mem_cons_of_mem _ hp, h⟩

theorem letterRun_counterBounded (maxQuestions penalty : Nat) (secretWord : List Char)
    (dictionary : List (List Char)) (r : Round)
    (h : LetterRun maxQuestions penalty secretWord (startSession secretWord dictionary) r) :
    counterBounded (maxQuestions + penalty) r := by
  have hp : ∀ p ∈ r.prompts, p.before.questionsAsked ≤ maxQuestions + penalty ∧
      p.after.questionsAsked ≤ maxQuestions + penalty := by
    intro p hp
    obtain ⟨⟨hlt, _, _, _, hq⟩, _⟩ := h.1 p hp
    refine ⟨by omega, ?_⟩
    rw [hq]
    split
    · omega
    · split
      · omega
      · omega
  refine ⟨hp, ?_⟩
  rw [h.2.2.2.1]
  rcases lastAfter_cases (startSession secretWord dictionary) r.prompts with he | ⟨p, hpm, he⟩
  · rw [he]; simp [startSession]
  · rw [he]; exact (hp p hpm).2

theorem wordLoop_counter (maxQuestions : Nat) (eof : String) :
    ∀ (words : List (List Char)) (q : Nat) (responses : List String), q ≤ maxQuestions →
      wordCounterBounded maxQuestions (wordLoop maxQuestions eof words q responses) := by
  intro words
  induction words with
  | nil => intro q responses hq; simp [wordLoop, wordCounterBounded, hq]
  | cons word rest ih =>
      intro q responses hq
      rw [wordLoop]
      by_cases hge : q ≥ maxQuestions
      · rw [if_pos hge]; simp [wordCounterBounded, hq]
      · rw [if_neg hge]
        cases ha : answerWord q (responses.headD eof) with
        | guessed => simp [wordCounterBounded, hq]
        | next q' =>
            obtain ⟨_, hno, hother⟩ := answerWord_next _ _ _ ha
            have hq' : q' ≤ maxQuestions := by
              by_cases hn : responses.headD eof = "no"
              · have := hno hn; omega
              · have := hother hn; omega
            obtain ⟨ih1, ih2⟩ := ih q' responses.tail hq'
            refine ⟨?_, ih2⟩
            intro p hp
            simp only [List.mem_cons] at hp
            rcases hp with hp | hp
            · subst hp; exact ⟨hq, hq'⟩
            · exact ih1 p hp

theorem randomWordLoop_counter (maxQuestions : Nat) (eof : String)
    (dictionary : List (List Char)) :
    ∀ (fuel q : Nat) (rands : List Nat) (responses : List String), q ≤ maxQuestions →
      wordCounterBounded maxQuestions
        (randomWordLoop maxQuestions eof dictionary fuel q rands responses) := by
  intro fuel
  induction fuel with
  | zero => intro q rands responses hq; simp [randomWordLoop, wordCounterBounded, hq]
  | succ n ih =>
      intro q rands responses hq
      rw [randomWordLoop]
      by_cases hlt : q < maxQuestions
      · rw [if_pos hlt]
        by_cases hd : dictionary.length = 0
        · rw [if_pos hd]; simp [wordCounterBounded, hq]
        · rw [if_neg hd]
          simp only
          cases ha : answerWord q (responses.headD eof) with
          | guessed => simp [wordCounterBounded, hq]
          | next q' =>
              obtain ⟨_, hno, hother⟩ := answerWord_next _ _ _ ha
              have hq' : q' ≤ maxQuestions := by
                by_cases hn : responses.headD eof = "no"
                · have := hno hn; omega
                · have := hother hn; omega
              obtain ⟨ih1, ih2⟩ := ih q' rands.tail responses.tail hq'
              refine ⟨?_, ih2⟩
              intro p hp
              simp only [List.mem_cons] at hp
              rcases hp with hp | hp
              · subst hp; exact ⟨hq, hq'⟩
              · exact ih1 p hp
      · rw [if_neg hlt]; simp [wordCounterBounded, hq]

/-- C22 (counter bound): in the eight modes without penalty the counter is at most
20 before and after every question and when the loop is left; in
`challengingMode` it is at most 12, so the remaining count `10 - questionsAsked`,
computed in the integers, is never below -2; the value 12 is reached (dictionary
aa, bb, cc, dd, ee and four answers "no").  The counter is a natural number, hence
never negative. -/
theorem counter_bound (alphabet : List Char) (shuffled : List (List Char))
    (rands : List Nat) (secretWord : List Char) (dictionary : List (List Char))
    (responses : List String) :
    (counterBounded 20 (letterByLetterGuessing secretWord dictionary responses) ∧
      counterBounded 20
        (randomizedLetterByLetterGuessing alphabet secretWord dictionary responses) ∧
      counterBounded 20 (frequencyBasedGuessing secretWord dictionary responses) ∧
      counterBounded 20 (aiGuessing secretWord dictionary responses) ∧
      counterBounded 20 (aiGuessingWithEnhancements secretWord dictionary responses) ∧
      wordCounterBounded 20 (wordByWordGuessing secretWord dictionary responses) ∧
      wordCounterBounded 20
        (randomizedWordByWordGuessing shuffled secretWord dictionary responses) ∧
      wordCounterBounded 20 (randomWordGuessing rands secretWord dictionary responses)) ∧
    (counterBounded 12 (challengingMode secretWord dictionary responses) ∧
      (∀ p ∈ (challengingMode secretWord dictionary responses).prompts,
        (-2 : Int) ≤ 10 - (p.after.questionsAsked : Int)) ∧
      (-2 : Int) ≤
        10 - ((challengingMode secretWord dictionary responses).final.questionsAsked : Int)) ∧
    (challengingMode "ee".toList
      ["aa".toList, "bb".toList, "cc".toList, "dd".toList, "ee".toList]
      ["no", "no", "no", "no"]).final.questionsAsked = 12 := by
  have hch := letterRun_counterBounded 10 2 secretWord dictionary _
    (runLoop_run 10 2 "no" secretWord (enoughFuel dictionary) dictionary responses)
  refine ⟨⟨letterRun_counterBounded 20 0 _ _ _ (letterByLetterGuessing_run _ _ _),
    letterRun_counterBounded 20 0 _ _ _ (randomizedLetterByLetterGuessing_run _ _ _ _),
    letterRun_counterBounded 20 0 _ _ _ (frequencyBasedGuessing_run _ _ _),
    letterRun_counterBounded 20 0 _ _ _ (runLoop_run 20 0 "" _ _ _ _),
    letterRun_counterBounded 20 0 _ _ _ (runLoop_run 20 0 "no" _ _ _ _),
    wordLoop_counter 20 "" dictionary 0 responses (Nat.zero_le _),
    wordLoop_counter 20 "" shuffled 0 responses (Nat.zero_le _),
    randomWordLoop_counter 20 "" dictionary _ 0 rands responses (Nat.zero_le _)⟩,
    ⟨hch, ?_, ?_⟩, by decide⟩
  · intro p hp
    have h12 : p.after.questionsAsked ≤ 10 + 2 := (hch.1 p hp).2
    omega
  · have h12 : (challengingMode secretWord dictionary responses).final.questionsAsked
        ≤ 10 + 2 := hch.2
    omega

/-! ## The pattern and the letters asked -/

theorem accuratePattern_congr (secretWord T T' : List Char) (h : ∀ x, x ∈ T ↔ x ∈ T') :
    accuratePattern secretWord T = accuratePattern secretWord T' := by
  unfold accuratePattern
  apply List.map_congr_left
  intro x _
  by_cases hx : x ∈ T
  · rw [if_pos hx, if_pos ((h x).1 hx)]
  · rw [if_neg hx, if_neg (fun h' => hx ((h x).2 h'))]

/-- One accurately answered question turns the accurate pattern of the letters
asked before into that of the letters asked up to it. -/
theorem letterPass_accurate (maxQuestions penalty : Nat) (secretWord : List Char)
    (s : Session) (c : Char) (r : String) (s' : Session) (H : List Char)
    (hpass : LetterPass maxQuestions penalty secretWord s c r s')
    (hr : r = if c ∈ secretWord then "yes" else "no")
    (hs : s.guessedWord = accuratePattern secretWord H) :
    s'.guessedWord = accuratePattern secretWord (H ++ [c]) := by
  obtain ⟨_, _, _, hgw, _⟩ := hpass
  have hins : accuratePattern secretWord (H.insert c) = accuratePattern secretWord (H ++ [c]) :=
    accuratePattern_congr _ _ _ (fun x => by simp [List.mem_insert_iff, or_comm])
  rw [hgw, hs, ← hins]
  by_cases hc : c ∈ secretWord
  · rw [if_pos hc] at hr
    rw [if_pos hr, reveal_accuratePattern]
  · rw [if_neg hc] at hr
    rw [if_neg (by rw [hr]; decide), accuratePattern_insert c _ _ hc]

/-- After a question up to which every response was accurate, the pattern is the
accurate pattern of the letters asked so far. -/
theorem runLetters_accuratePrefix (step : Session → String → Iteration) (eof : String)
    (maxQuestions penalty : Nat) (secretWord : List Char)
    (hstep : ∀ s r c s', step s r = .asked c s' →
      LetterPass maxQuestions penalty secretWord s c r s') :
    ∀ (fuel : Nat) (s : Session) (responses : List String) (H : List Char),
      s.guessedWord = accuratePattern secretWord H →
      ∀ (l₁ : List Prompt) (p : Prompt) (l₂ : List Prompt),
        (runLetters step eof fuel s responses).prompts = l₁ ++ p :: l₂ →
        (∀ q ∈ l₁ ++ [p],
          q.response = if q.guessedLetter ∈ secretWord then "yes" else "no") →
        p.after.guessedWord =
          accuratePattern secretWord (H ++ (l₁ ++ [p]).map Prompt.guessedLetter) := by
  intro fuel
  induction fuel with
  | zero =>
      intro s responses H _ l₁ p l₂ hsplit
      simp [runLetters] at hsplit
  | succ n ih =>
      intro s responses H hs l₁ p l₂ hsplit hacc
      rw [runLetters] at hsplit
      cases hit : step s (responses.headD eof) with
      | stop e s' =>
          rw [hit] at hsplit
          simp at hsplit
      | asked c s' =>
          rw [hit] at hsplit
          simp only at hsplit
          have hpass := hstep _ _ _ _ hit
          cases l₁ with
          | nil =>
              simp only [List.nil_append, List.cons.injEq] at hsplit
              obtain ⟨h1, _⟩ := hsplit
              subst h1
              have hr : responses.headD eof = if c ∈ secretWord then "yes" else "no" :=
                hacc ⟨s, c, responses.headD eof, s'⟩ (List.mem_cons_self _ _)
              simpa using letterPass_accurate _ _ _ _ _ _ _ H hpass hr hs
          | cons a l =>
              simp only [List.cons_append, List.cons.injEq] at hsplit
              obtain ⟨h1, h2⟩ := hsplit
              subst h1
              have hr : responses.headD eof = if c ∈ secretWord then "yes" else "no" :=
                hacc ⟨s, c, responses.headD eof, s'⟩ (List.mem_cons_self _ _)
              have hs' := letterPass_accurate _ _ _ _ _ _ _ H hpass hr hs
              have := ih s' responses.tail (H ++ [c]) hs' l p l₂ h2
                (fun q hq => hacc q (by
                  simp only [List.cons_append, List.mem_cons]
                  exact Or.inr hq))
              rw [this]
              simp

theorem accuratePattern_getElem? (secretWord T : List Char) (i : Nat) (x : Char)
    (hx : secretWord[i]? = some x) :
    (accuratePattern secretWord T)[i]? = some (if x ∈ T then x else '_') := by
  unfold accuratePattern
  rw [List.getElem?_map, hx]
  rfl

theorem runLetters_revealedIffProposed (step : Session → String → Iteration) (eof : String)
    (maxQuestions penalty : Nat) (secretWord : List Char)
    (hstep : ∀ s r c s', step s r = .asked c s' →
      LetterPass maxQuestions penalty secretWord s c r s')
    (hblank : '_' ∉ secretWord)
    (fuel : Nat) (dictionary : List (List Char)) (responses : List String) :
    revealedIffProposed secretWord
      (runLetters step eof fuel (startSession secretWord dictionary) responses) := by
  intro l₁ p l₂ hsplit hacc i x y hx hy
  have hpat := runLetters_accuratePrefix step eof maxQuestions penalty secretWord hstep fuel
    (startSession secretWord dictionary) responses []
    (accuratePattern_nil secretWord).symm l₁ p l₂ hsplit hacc
  rw [List.nil_append] at hpat
  rw [hpat, accuratePattern_getElem? _ _ i x hx] at hy
  have hxne : x ≠ '_' := by
    intro e
    apply hblank
    rw [← e]
    exact List.getElem?_mem hx
  by_cases hm : x ∈ (l₁ ++ [p]).map Prompt.guessedLetter
  · rw [if_pos hm] at hy
    have : y = x := (Option.some.inj hy).symm
    rw [this]
    exact ⟨fun _ => hm, fun _ => hxne⟩
  · rw [if_neg hm] at hy
    have : y = '_' := (Option.some.inj hy).symm
    rw [this]
    exact ⟨fun h => absurd rfl h, fun h => absurd h hm⟩

theorem letterRun_patternAgrees (maxQuestions penalty : Nat) (secretWord : List Char)
    (dictionary : List (List Char)) (r : Round)
    (h : LetterRun maxQuestions penalty secretWord (startSession secretWord dictionary) r) :
    patternAgrees secretWord (startSession secretWord dictionary) r := by
  have hstart : agrees (startSession secretWord dictionary).guessedWord secretWord :=
    agrees_start secretWord
  refine ⟨hstart, fun p hp => (h.1 p hp).2, ?_, h.2.1, h.2.2.1⟩
  rw [h.2.2.1]
  rcases lastAfter_cases (startSession secretWord dictionary) r.prompts with he | ⟨p, hp, he⟩
  · rw [he]; exact hstart
  · rw [he]; exact (h.1 p hp).2.2

theorem runLoop_revealedIffProposed (maxQuestions penalty : Nat) (eof : String)
    (secretWord : List Char) (hblank : '_' ∉ secretWord) (fuel : Nat)
    (dictionary : List (List Char)) (responses : List String) :
    revealedIffProposed secretWord
      (runLoop maxQuestions penalty eof secretWord fuel (startSession secretWord dictionary)
        responses) := by
  rw [runLoop_eq_runLetters]
  exact runLetters_revealedIffProposed _ eof maxQuestions penalty secretWord
    (fun s r c s' h => iteration_pass maxQuestions penalty secretWord s r c s' h)
    hblank fuel dictionary responses

/-- C23 (the pattern agrees with the secret): in each of the six letter modes, for
every input with a secret without blank, in every state of the round (start, both
ends of every question, exit of the loop) each position of the pattern is a blank
or the letter of the secret at that position; and after any question up to which
every response was accurate ("yes" exactly when the letter asked is in the
secret), a position is revealed if and only if the secret's letter at that
position is among the letters asked so far. -/
theorem pattern_agrees_with_secret (alphabet : List Char) (secretWord : List Char)
    (dictionary : List (List Char)) (responses : List String)
    (hblank : '_' ∉ secretWord) :
    (patternAgrees secretWord (startSession secretWord dictionary)
        (letterByLetterGuessing secretWord dictionary responses) ∧
      revealedIffProposed secretWord
        (letterByLetterGuessing secretWord dictionary responses)) ∧
    (patternAgrees secretWord (startSession secretWord dictionary)
        (randomizedLetterByLetterGuessing alphabet secretWord dictionary responses) ∧
      revealedIffProposed secretWord
        (randomizedLetterByLetterGuessing alphabet secretWord dictionary responses)) ∧
    (patternAgrees secretWord (startSession secretWord dictionary)
        (frequencyBasedGuessing secretWord dictionary responses) ∧
      revealedIffProposed secretWord
        (frequencyBasedGuessing secretWord dictionary responses)) ∧
    (patternAgrees secretWord (startSession secretWord dictionary)
        (aiGuessing secretWord dictionary responses) ∧
      revealedIffProposed secretWord (aiGuessing secretWord dictionary responses)) ∧
    (patternAgrees secretWord (startSession secretWord dictionary)
        (aiGuessingWithEnhancements secretWord dictionary responses) ∧
      revealedIffProposed secretWord
        (aiGuessingWithEnhancements secretWord dictionary responses)) ∧
    (patternAgrees secretWord (startSession secretWord dictionary)
        (challengingMode secretWord dictionary responses) ∧
      revealedIffProposed secretWord (challengingMode secretWord dictionary responses)) :=
  ⟨⟨letterRun_patternAgrees _ _ _ _ _ (letterByLetterGuessing_run _ _ _),
      runLetters_revealedIffProposed _ "" 20 0 secretWord
        (fun s r c s' h => sequentialIteration_pass 20 secretWord s r c s' h)
        hblank _ dictionary responses⟩,
    ⟨letterRun_patternAgrees _ _ _ _ _ (randomizedLetterByLetterGuessing_run _ _ _ _),
      runLetters_revealedIffProposed _ "" 20 0 secretWord
        (fun s r c s' h => scanIteration_pass alphabet 20 secretWord s r c s' h)
        hblank _ dictionary responses⟩,
    ⟨letterRun_patternAgrees _ _ _ _ _ (frequencyBasedGuessing_run _ _ _),
      runLetters_revealedIffProposed _ "" 20 0 secretWord
        (fun s r c s' h => scanIteration_pass letterFrequency 20 secretWord s r c s' h)
        hblank _ dictionary responses⟩,
    ⟨letterRun_patternAgrees _ _ _ _ _ (runLoop_run 20 0 "" _ _ _ _),
      runLoop_revealedIffProposed 20 0 "" secretWord hblank _ dictionary responses⟩,
    ⟨letterRun_patternAgrees _ _ _ _ _ (runLoop_run 20 0 "no" _ _ _ _),
      runLoop_revealedIffProposed 20 0 "no" secretWord hblank _ dictionary responses⟩,
    ⟨letterRun_patternAgrees _ _ _ _ _ (runLoop_run 10 2 "no" _ _ _ _),
      runLoop_revealedIffProposed 10 2 "no" secretWord hblank _ dictionary responses⟩⟩

/-- Witness of C23 on the worked example: corpus cat, car, can and secret car. -/
theorem pattern_agrees_with_secret_witness :
    '_' ∉ "car".toList ∧
    patternAgrees "car".toList
      (startSession "car".toList ["cat".toList, "car".toList, "can".toList])
      (aiGuessing "car".toList ["cat".toList, "car".toList, "can".toList]
        ["yes", "yes", "no", "yes"]) ∧
    revealedIffProposed "car".toList
      (aiGuessing "car".toList ["cat".toList, "car".toList, "can".toList]
        ["yes", "yes", "no", "yes"]) :=
  ⟨by decide,
    (pattern_agrees_with_secret "abcdefghijklmnopqrstuvwxyz".toList "car".toList
      ["cat".toList, "car".toList, "can".toList] ["yes", "yes", "no", "yes"]
      (by decide)).2.2.2.1⟩

/-! ## The static-frequency mode -/

theorem find?_split (T : List Char) (c : Char) (todo : List Char) :
    ∀ done : List Char, (∀ x ∈ done, x ∈ T) → c ∉ T →
      (done ++ c :: todo).find? (fun l => decide (l ∉ T)) = some c := by
  intro done
  induction done with
  | nil => intro _ hc; simp [List.find?_cons, hc]
  | cons a l ih =>
      intro hdone hc
      have ha : a ∈ T := hdone a (List.mem_cons_self _ _)
      simp only [List.cons_append, List.find?_cons, ha, not_true_eq_false, decide_False]
      exact ih (fun x hx => hdone x (List.mem_cons_of_mem _ hx)) hc

/-- The scanning loops ask the letters of the scanned string in order: the letters
asked in a round are the first letters of what was left to ask. -/
theorem scan_prefix (alphabet : List Char) (maxQuestions : Nat) (secretWord : List Char)
    (eof : String) :
    ∀ (fuel : Nat) (s : Session) (responses : List String) (done todo : List Char),
      alphabet = done ++ todo → todo.Nodup →
      (∀ x ∈ done, x ∈ s.guessedLetters) → (∀ x ∈ todo, x ∉ s.guessedLetters) →
      (runLetters (scanIteration alphabet maxQuestions secretWord) eof fuel s
        responses).prompts.map Prompt.guessedLetter <+: todo := by
  intro fuel
  induction fuel with
  | zero => intro s responses done todo _ _ _ _; simp [runLetters]
  | succ n ih =>
      intro s responses done todo hsplit hnodup hdone htodo
      rw [runLetters]
      cases hit : scanIteration alphabet maxQuestions secretWord s (responses.headD eof) with
      | stop e s' => simp
      | asked c s' =>
          obtain ⟨hfind, _, _, hins⟩ := scanIteration_asked _ _ _ _ _ _ _ hit
          cases todo with
          | nil =>
              exfalso
              rw [hsplit, List.append_nil] at hfind
              have hnone : done.find? (fun l => decide (l ∉ s.guessedLetters)) = none := by
                rw [List.find?_eq_none]
                intro x hx
                simp [hdone x hx]
              rw [hnone] at hfind
              exact absurd hfind (by simp)
          | cons c' todo' =>
              have hc' : c' ∉ s.guessedLetters := htodo c' (List.mem_cons_self _ _)
              have hfind' := find?_split s.guessedLetters c' todo' done hdone hc'
              rw [← hsplit, hfind] at hfind'
              have hcc : c = c' := Option.some.inj hfind'
              subst hcc
              have hnd := List.nodup_cons.1 hnodup
              have hrec := ih s' responses.tail (done ++ [c]) todo'
                (by rw [hsplit]; simp) hnd.2
                (fun x hx => by
                  rw [hins]
                  rcases List.mem_append.1 hx with h | h
                  · exact List.mem_insert_of_mem (hdone x h)
                  · rw [List.mem_singleton.1 h]; exact List.mem_insert_self _ _)
                (fun x hx => by
                  rw [hins, List.mem_insert_iff]
                  rintro (h | h)
                  · exact hnd.1 (h ▸ hx)
                  · exact htodo x (List.mem_cons_of_mem _ hx) h)
              simp only [List.map_cons]
              exact (List.prefix_cons_inj c).2 hrec

/-- In a string without repetition whose first `k` letters are the tried ones, the
scan finds the letter of index `k`, and recording it makes the first `k + 1`
letters the tried ones. -/
theorem scan_next (L : List Char) (hn : L.Nodup) (k : Nat) (hk : k < L.length)
    (T : List Char) (hT : ∀ x, x ∈ T ↔ x ∈ L.take k) :
    L.find? (fun l => decide (l ∉ T)) = some (L.get ⟨k, hk⟩) ∧
    ∀ x, x ∈ T.insert (L.get ⟨k, hk⟩) ↔ x ∈ L.take (k + 1) := by
  have hsplit : L.take k ++ (L.get ⟨k, hk⟩) :: L.drop (k + 1) = L := by
    have h1 := List.take_append_drop k L
    rw [List.drop_eq_getElem_cons hk] at h1
    exact h1
  have hn' : (L.take k ++ (L.get ⟨k, hk⟩) :: L.drop (k + 1)).Nodup := by
    rw [hsplit]; exact hn
  have hnot : L.get ⟨k, hk⟩ ∉ L.take k := by
    intro hmem
    have hdis := (List.nodup_append.1 hn').2.2
    exact hdis hmem (List.mem_cons_self _ _)
  constructor
  · have := find?_split T (L.get ⟨k, hk⟩) (L.drop (k + 1)) (L.take k)
      (fun x hx => (hT x).2 hx) (fun h => hnot ((hT _).1 h))
    rw [hsplit] at this
    exact this
  · intro x
    have h1 : L.take (k + 1) = L.take k ++ [L.get ⟨k, hk⟩] := by
      rw [List.take_succ, List.getElem?_eq_getElem hk]
      rfl
    rw [h1, List.mem_insert_iff, List.mem_append, List.mem_singleton, hT x]
    exact or_comm

theorem scanIteration_stop_cases (alphabet : List Char) (maxQuestions : Nat)
    (secretWord : List Char) (s : Session) (response : String) (e : Exit) (s' : Session)
    (h : scanIteration alphabet maxQuestions secretWord s response = .stop e s') :
    (e = Exit.loopCondition ∧ s' = s ∧
      ¬ (s.questionsAsked < maxQuestions ∧ s.guessedWord ≠ secretWord)) ∨
    (e = Exit.noLetters ∧
      (s.questionsAsked < maxQuestions ∧ s.guessedWord ≠ secretWord) ∧
      (nextUnguessed alphabet s.guessedLetters).1 = Char.ofNat 0) := by
  unfold scanIteration at h
  split at h
  · rename_i hcond
    simp only at h
    split at h
    · rename_i hnul
      injection h with h1 h2
      right
      exact ⟨h1.symm, hcond, hnul⟩
    · split at h
      · exact absurd h (by simp)
      · split at h
        · exact absurd h (by simp)
        · exact absurd h (by simp)
  · rename_i hcond
    injection h with h1 h2
    left
    exact ⟨h1.symm, h2.symm, hcond⟩

theorem accuratePattern_eq_self (secretWord T : List Char) (hblank : '_' ∉ secretWord) :
    accuratePattern secretWord T = secretWord ↔ ∀ c ∈ secretWord, c ∈ T := by
  unfold accuratePattern
  induction secretWord with
  | nil => simp
  | cons a l ih =>
      have hl : '_' ∉ l := fun h => hblank (List.mem_cons_of_mem _ h)
      have ha : a ≠ '_' := fun e => hblank (e ▸ List.mem_cons_self _ _)
      simp only [List.map_cons, List.cons.injEq, List.mem_cons, forall_eq_or_imp]
      rw [ih hl]
      constructor
      · rintro ⟨h1, h2⟩
        refine ⟨?_, h2⟩
        by_contra hna
        rw [if_neg hna] at h1
        exact ha h1.symm
      · rintro ⟨h1, h2⟩
        exact ⟨by rw [if_pos h1], h2⟩

/-- A round of `frequencyBasedGuessing` in which every response is accurate, for a
secret without blank: the loop is left by its condition, and the word is guessed
exactly when each of its letters is among the first 20 letters of the ranking. -/
theorem frequencyBased_accurate (secretWord : List Char) (dictionary : List (List Char))
    (responses : List String) (hblank : '_' ∉ secretWord)
    (hacc : accurateAnswers secretWord
      (frequencyBasedGuessing secretWord dictionary responses)) :
    (frequencyBasedGuessing secretWord dictionary responses).exit = Exit.loopCondition ∧
    (solved secretWord (frequencyBasedGuessing secretWord dictionary responses) = true ↔
      ∀ c ∈ secretWord, c ∈ letterFrequency.take 20) := by
  have hlen : letterFrequency.length = 26 := by decide
  have hnodup : letterFrequency.Nodup := by decide
  have hnul : Char.ofNat 0 ∉ letterFrequency := by decide
  have hfuel := scan_terminates letterFrequency 20 "" secretWord dictionary responses
  unfold frequencyBasedGuessing at hacc ⊢
  have hguard := (runLetters_guarded (scanIteration letterFrequency 20 secretWord) ""
    (fun s => (∀ x, x ∈ s.guessedLetters ↔ x ∈ letterFrequency.take s.questionsAsked) ∧
      s.guessedWord = accuratePattern secretWord s.guessedLetters ∧
      s.questionsAsked ≤ 20)
    (fun c r => r = if c ∈ secretWord then "yes" else "no")
    (fun s r c s' hs hgood hit => by
      obtain ⟨hT, hpat, _⟩ := hs
      have hr : r = if c ∈ secretWord then "yes" else "no" := hgood
      have hpass := scanIteration_pass _ _ _ _ _ _ _ hit
      obtain ⟨hfind, _, _, hins⟩ := scanIteration_asked _ _ _ _ _ _ _ hit
      have hlt : s.questionsAsked < 20 := hpass.1
      have hk : s.questionsAsked < letterFrequency.length := by rw [hlen]; omega
      obtain ⟨hfind2, hmem⟩ := scan_next letterFrequency hnodup s.questionsAsked hk
        s.guessedLetters hT
      have hc : letterFrequency.get ⟨s.questionsAsked, hk⟩ = c :=
        Option.some.inj (hfind2.symm.trans hfind)
      have hq : s'.questionsAsked = s.questionsAsked + 1 := by
        rw [hpass.2.2.2.2]
        by_cases hcs : c ∈ secretWord
        · rw [if_pos hcs] at hr
          rw [if_pos hr]
        · rw [if_neg hcs] at hr
          rw [if_neg (by rw [hr]; decide), if_pos hr]
      have hpat' := letterPass_accurate _ _ _ _ _ _ _ s.guessedLetters hpass hr hpat
      refine ⟨?_, ?_, by omega⟩
      · show ∀ x, x ∈ s'.guessedLetters ↔ x ∈ letterFrequency.take s'.questionsAsked
        intro x
        rw [hins, hq, ← hc]
        exact hmem x
      · show s'.guessedWord = accuratePattern secretWord s'.guessedLetters
        rw [hpat', hins]
        exact accuratePattern_congr _ _ _
          (fun x => by simp [List.mem_insert_iff, or_comm]))
    (letterFrequency.length + 1) (startSession secretWord dictionary) responses
    ⟨fun x => by simp [startSession], (accuratePattern_nil secretWord).symm,
      Nat.zero_le _⟩
    hacc).2
  rcases hguard with h | ⟨s₀, r₀, hinv, hstop⟩
  · exact absurd h hfuel
  · obtain ⟨hT, hpat, hq⟩ := hinv
    rcases scanIteration_stop_cases _ _ _ _ _ _ _ hstop with
      ⟨he, hfin, hcond⟩ | ⟨_, hcond, hsel⟩
    · refine ⟨he, ?_⟩
      unfold solved
      rw [hfin, decide_eq_true_eq]
      constructor
      · intro hg c hc
        rw [hpat, accuratePattern_eq_self _ _ hblank] at hg
        have hcT := (hT c).1 (hg c hc)
        have hmin : List.take s₀.questionsAsked letterFrequency =
            List.take s₀.questionsAsked (List.take 20 letterFrequency) := by
          rw [List.take_take, Nat.min_eq_left hq]
        rw [hmin] at hcT
        exact List.mem_of_mem_take hcT
      · intro hall
        by_contra hg
        have hq20 : s₀.questionsAsked = 20 := by
          have : ¬ s₀.questionsAsked < 20 := fun hlt => hcond ⟨hlt, hg⟩
          omega
        apply hg
        rw [hpat, accuratePattern_eq_self _ _ hblank]
        intro c hc
        rw [hT c, hq20]
        exact hall c hc
    · exfalso
      have hk : s₀.questionsAsked < letterFrequency.length := by rw [hlen]; omega
      obtain ⟨hfind2, _⟩ := scan_next letterFrequency hnodup s₀.questionsAsked hk
        s₀.guessedLetters hT
      unfold nextUnguessed at hsel
      rw [hfind2] at hsel
      simp only at hsel
      apply hnul
      rw [← hsel]
      exact List.get_mem _ _ _

theorem lower_mem_alphabet (c : Char) (h : c.isLower = true) :
    c ∈ "abcdefghijklmnopqrstuvwxyz".toList := by
  have h1 : 97 ≤ c.toNat ∧ c.toNat ≤ 122 := by
    simp only [Char.isLower, Bool.and_eq_true, decide_eq_true_eq] at h
    exact ⟨h.1, h.2⟩
  have hc : c = Char.ofNat c.toNat := (Char.ofNat_toNat c).symm
  obtain ⟨h2, h3⟩ := h1
  rw [hc]
  generalize c.toNat = n at h2 h3
  interval_cases n <;> decide

/-- For a letter, being among the first 20 letters of the ranking is being
neither upper case nor one of v, k, j, x, q, z. -/
theorem first20_iff (c : Char) (h : c.isAlpha = true) :
    c ∈ letterFrequency.take 20 ↔ c.isUpper = false ∧ c ∉ "vkjxqz".toList := by
  have h1 : ∀ c ∈ letterFrequency.take 20,
      c ∈ "abcdefghijklmnopqrstuvwxyz".toList ∧ c ∉ "vkjxqz".toList := by decide
  have h2 : ∀ c ∈ "abcdefghijklmnopqrstuvwxyz".toList, c.isUpper = false := by decide
  have h3 : ∀ c ∈ "abcdefghijklmnopqrstuvwxyz".toList, c ∉ "vkjxqz".toList →
      c ∈ letterFrequency.take 20 := by decide
  constructor
  · intro hc
    exact ⟨h2 c (h1 c hc).1, (h1 c hc).2⟩
  · rintro ⟨hu, hv⟩
    have hl : c.isLower = true := by
      unfold Char.isAlpha at h
      rw [hu, Bool.false_or] at h
      exact h
    exact h3 c (lower_mem_alphabet c hl) hv

/-- C24 (static-frequency reach): the ranking `etaoinshrdlcumwfgypbvkjxqz` is a
rearrangement of the 26 lower-case letters; in every round of
`frequencyBasedGuessing` the k-th question asks the k-th letter of the ranking;
for an alphabetic secret and accurate answers the loop is left by its condition
and the word is guessed if and only if every letter of the secret is among the
first 20 letters of the ranking, that is, if and only if the secret holds no
upper-case letter and none of v, k, j, x, q, z. -/
theorem static_frequency_reach (secretWord : List Char) (dictionary : List (List Char))
    (responses : List String) (halpha : ∀ c ∈ secretWord, c.isAlpha = true) :
    letterFrequency = "etaoinshrdlcumwfgypbvkjxqz".toList ∧
    letterFrequency.Perm "abcdefghijklmnopqrstuvwxyz".toList ∧
    ((frequencyBasedGuessing secretWord dictionary responses).prompts.map
        Prompt.guessedLetter <+: letterFrequency) ∧
    (∀ (k : Nat) (p : Prompt),
      (frequencyBasedGuessing secretWord dictionary responses).prompts[k]? = some p →
      letterFrequency[k]? = some p.guessedLetter) ∧
    (accurateAnswers secretWord (frequencyBasedGuessing secretWord dictionary responses) →
      (frequencyBasedGuessing secretWord dictionary responses).exit = Exit.loopCondition ∧
      (solved secretWord (frequencyBasedGuessing secretWord dictionary responses) = true ↔
        ∀ c ∈ secretWord, c ∈ letterFrequency.take 20)) ∧
    ((∀ c ∈ secretWord, c ∈ letterFrequency.take 20) ↔
      ∀ c ∈ secretWord, c.isUpper = false ∧ c ∉ "vkjxqz".toList) := by
  have hblank : '_' ∉ secretWord := by
    intro h
    have := halpha _ h
    exact absurd this (by decide)
  have hprefix : (frequencyBasedGuessing secretWord dictionary responses).prompts.map
      Prompt.guessedLetter <+: letterFrequency :=
    scan_prefix letterFrequency 20 secretWord "" _ (startSession secretWord dictionary)
      responses [] letterFrequency rfl (by decide)
      (fun x hx => absurd hx (List.not_mem_nil x))
      (fun x _ => by simp [startSession])
  refine ⟨rfl, by decide, hprefix, ?_,
    fun hacc => frequencyBased_accurate secretWord dictionary responses hblank hacc, ?_⟩
  · intro k p hp
    obtain ⟨t, ht⟩ := hprefix
    have hk : ((frequencyBasedGuessing secretWord dictionary responses).prompts.map
        Prompt.guessedLetter)[k]? = some p.guessedLetter := by
      rw [List.getElem?_map, hp]
      rfl
    rw [← ht, List.getElem?_append_left]
    · exact hk
    · exact (List.getElem?_eq_some_iff.1 hk).1
  · constructor
    · intro h c hc
      exact (first20_iff c (halpha c hc)).1 (h c hc)
    · intro h c hc
      exact (first20_iff c (halpha c hc)).2 (h c hc)

/-- Witness of C24: the secret car is guessed by `frequencyBasedGuessing` with the
twelve accurate answers to e, t, a, o, i, n, s, h, r, d, l, c. -/
theorem static_frequency_reach_witness :
    (∀ c ∈ "car".toList, c.isAlpha = true) ∧
    accurateAnswers "car".toList
      (frequencyBasedGuessing "car".toList ["cat".toList, "car".toList, "can".toList]
        ["no", "no", "yes", "no", "no", "no", "no", "no", "yes", "no", "no", "yes"]) ∧
    solved "car".toList
      (frequencyBasedGuessing "car".toList ["cat".toList, "car".toList, "can".toList]
        ["no", "no", "yes", "no", "no", "no", "no", "no", "yes", "no", "no", "yes"]) = true ∧
    (frequencyBasedGuessing "car".toList ["cat".toList, "car".toList, "can".toList]
      ["no", "no", "yes", "no", "no", "no", "no", "no", "yes", "no", "no", "yes"]).exit
      = Exit.loopCondition :=
  ⟨by decide, by unfold accurateAnswers; decide, by decide,
    ((static_frequency_reach "car".toList ["cat".toList, "car".toList, "can".toList]
      ["no", "no", "yes", "no", "no", "no", "no", "no", "yes", "no", "no", "yes"]
      (by decide)).2.2.2.2.1 (by unfold accurateAnswers; decide)).1⟩

end Knowsall
